import Mathlib

/-!
# Call-shaping primitives: circuit breaker, debouncer, token cache

A shallow embedding of the three Go programs of the repository
(`Circuit Baker/c1.go`, `debouncer/main.go`, `Token chaching/main.go`).

Modelling conventions.

* A clock reading (`time.Time`) is an integer number of nanoseconds counted from
  Go's zero `Time`; a `time.Duration` is an integer number of nanoseconds.
  `t.After(u)` is `u < t`, `t.Add(d)` is `t + d`, `time.Since(u)` read at clock
  value `now` is `now - u`.
* Every read of the clock (`time.Now()`, `time.Since`) is an explicit argument.
* A Go `error` value is `Option GoError`, `none` being `nil`.
* The wrapped functions are arguments; the contexts they are invoked with are
  logged, so that "the function was (not) invoked" is a statement about the log.
* Go's `int` counter is an unbounded integer: it grows by one per wrapped call.
* Calls of the breaker and operations of the cache are run one after the other.
  The debouncer is run on a timeline: an invocation is one step at its instant,
  the ticker of a waiter started at instant `t` ticks at `t + 100ms`,
  `t + 200ms`, ..., and between two invocations the waiter handles the ticks and
  the cancellation that fall strictly before the later one.
* Besides the timeline, `Debounce.step` gives the atomic steps of the goroutines
  of a debouncer (each critical section is one step), and `Debounce.run` any
  interleaving of them.
-/

namespace CloudComputing

/-- Clock reading in nanoseconds since the zero `time.Time`. -/
abbrev Time := Int

/-- Go `time.Duration`: nanoseconds. -/
abbrev Duration := Int

/-- One second, `time.Second`. -/
def Second : Duration := 1000000000

/-- One millisecond, `time.Millisecond`. -/
def Millisecond : Duration := 1000000

/-- Clock arithmetic `time.Since(u)`, read when the clock shows `now`. -/
def since (now u : Time) : Duration := now - u

/-- Go error values that occur in the repository: `errors.New(text)` and the two
context errors.  An `errors.New` value is observable by its text only. -/
inductive GoError where
  | errorString (text : String)
  | canceled
  | deadlineExceeded
deriving DecidableEq, Repr

/-- A `context.Context`: an identity, the instant at which its `Done` channel is
closed (`none` for a context that is never cancelled, such as
`context.Background()`), and the value `Err()` reports from then on. -/
structure Context where
  id : Nat
  doneAt : Option Time
  cause : GoError
deriving DecidableEq, Repr

/-- The context `context.Background()`: never done. -/
def Context.background : Context := ⟨0, none, GoError.canceled⟩

/-! ## Circuit breaker (`Circuit Baker/c1.go`) -/

/-- The fields of `type CircuitBreaker struct` (the mutex apart). -/
structure CircuitBreaker where
  state : String
  failureCount : Int
  failureThreshold : Int
  resetTimeout : Duration
  lastFailureTime : Time
deriving DecidableEq, Repr

/-- Constructor `NewCircuitBreaker(threshold, timeout)`; the other fields hold
their zero values. -/
def NewCircuitBreaker (threshold : Int) (timeout : Duration) : CircuitBreaker :=
  { state := "closed"
    failureCount := 0
    failureThreshold := threshold
    resetTimeout := timeout
    lastFailureTime := 0 }

/-- Method `setState`. -/
def CircuitBreaker.setState (cb : CircuitBreaker) (s : String) : CircuitBreaker :=
  { cb with state := s }

/-- Method `recordFailure`; `now` is the value of `time.Now()` it reads. -/
def CircuitBreaker.recordFailure (cb : CircuitBreaker) (now : Time) : CircuitBreaker :=
  let cb1 := { cb with failureCount := cb.failureCount + 1 }
  if cb1.failureCount ≥ cb1.failureThreshold then
    { cb1.setState "open" with lastFailureTime := now }
  else
    cb1

/-- Method `recordSuccess`. -/
def CircuitBreaker.recordSuccess (cb : CircuitBreaker) : CircuitBreaker :=
  let cb1 := { cb with failureCount := 0 }
  cb1.setState "closed"

/-- The error built by `errors.New` on the fail-fast path of `Call`. -/
def rejectionError : GoError :=
  GoError.errorString " circuit breaker OPEN — failing fast"

/-- The inputs of one `Call(ctx, fn)`: the clock at the cooldown check, the
caller's context, the wrapped function, and the clock read by `recordFailure`
after the wrapped function has returned. -/
structure CallEvent where
  now : Time
  ctx : Context
  fn : Context → Option GoError
  failNow : Time

/-- What one `Call` leaves behind: the returned error, the breaker afterwards,
and the contexts with which the wrapped function was invoked (in order). -/
structure CallResult where
  err : Option GoError
  cb : CircuitBreaker
  invoked : List Context

/-- The part of `Call` after the `switch`: the wrapped function is invoked once
with the context of the caller and its outcome is recorded and returned. -/
def CircuitBreaker.execute (cb : CircuitBreaker) (e : CallEvent) : CallResult :=
  match e.fn e.ctx with
  | some err => { err := some err, cb := cb.recordFailure e.failNow, invoked := [e.ctx] }
  | none => { err := none, cb := cb.recordSuccess, invoked := [e.ctx] }

/-- Method `Call`, executed without interference from other callers. -/
def CircuitBreaker.Call (cb : CircuitBreaker) (e : CallEvent) : CallResult :=
  let state := cb.state
  if state = "open" then
    if since e.now cb.lastFailureTime > cb.resetTimeout then
      (cb.setState "half-open").execute e
    else
      { err := some rejectionError, cb := cb, invoked := [] }
  else
    cb.execute e

/-- A call is rejected when the breaker is open and the cooldown has not elapsed. -/
def CircuitBreaker.rejects (cb : CircuitBreaker) (now : Time) : Prop :=
  cb.state = "open" ∧ since now cb.lastFailureTime ≤ cb.resetTimeout

instance (cb : CircuitBreaker) (now : Time) : Decidable (cb.rejects now) := by
  unfold CircuitBreaker.rejects; exact inferInstance

/-- The breaker after a sequence of completed calls, one after the other. -/
def runCalls (cb : CircuitBreaker) : List CallEvent → CircuitBreaker
  | [] => cb
  | e :: es => runCalls (cb.Call e).cb es

/-- The results of a sequence of completed calls, in order. -/
def runTrace (cb : CircuitBreaker) : List CallEvent → List CallResult
  | [] => []
  | e :: es => cb.Call e :: runTrace (cb.Call e).cb es

/-- A wrapped function that always fails with the given error. -/
def failWith (err : GoError) : Context → Option GoError := fun _ => some err

/-- A wrapped function that always succeeds. -/
def succeed : Context → Option GoError := fun _ => none

/-! ## Token cache (`Token chaching/main.go`) -/

/-- The record `type TokenData struct`. -/
structure TokenData where
  UserId : String
  ExpiresAt : Time
deriving DecidableEq, Repr

/-- The Go map `map[string]TokenData`, as the list of its entries.  A list is a
map when no key occurs twice (`TokenCache.WF`); the order of the entries stands
for the iteration order of the map, which Go leaves unspecified. -/
structure TokenCache where
  tokens : List (String × TokenData)
deriving DecidableEq, Repr

/-- Well-formedness: the entries have pairwise different keys. -/
def TokenCache.WF (c : TokenCache) : Prop := (c.tokens.map Prod.fst).Nodup

instance (c : TokenCache) : Decidable c.WF := by
  unfold TokenCache.WF; exact inferInstance

/-- Constructor `NewTokenCache()`: an empty map. -/
def NewTokenCache : TokenCache := { tokens := [] }

/-- Map read `c.tokens[token]` with the comma-ok result. -/
def TokenCache.find (c : TokenCache) (token : String) : Option TokenData :=
  (c.tokens.find? (fun p => p.1 = token)).map Prod.snd

/-- Method `set`; `now` is the value of `time.Now()` it reads.  The assignment
`c.tokens[token] = ...` replaces the entry of `token` if there is one. -/
def TokenCache.set (c : TokenCache) (token userID : String) (ttl : Duration)
    (now : Time) : TokenCache :=
  { tokens := (token, { UserId := userID, ExpiresAt := now + ttl }) ::
      c.tokens.filter (fun p => p.1 ≠ token) }

/-- One iteration of the endless loop of `cleanupExpired` (the sleep apart): a
pass over the map under the write lock.  `time.Now()` is read once per visited
entry; `clock k` is the reading made while visiting key `k`.  Deleting the
visited entry during `range` is safe in Go, so the pass keeps exactly the
entries that were not expired at their reading. -/
def TokenCache.cleanupPass (c : TokenCache) (clock : String → Time) : TokenCache :=
  { tokens := c.tokens.filter (fun p => ¬ (clock p.1 > p.2.ExpiresAt)) }

/-- A cleanup pass all of whose clock readings are `now`. -/
def TokenCache.cleanupExpired (c : TokenCache) (now : Time) : TokenCache :=
  c.cleanupPass (fun _ => now)

/-- Method `Get`; `now` is the value of `time.Now()` it reads. -/
def TokenCache.Get (c : TokenCache) (token : String) (now : Time) : String × Bool :=
  match c.find token with
  | none => ("", false)
  | some td => if now > td.ExpiresAt then ("", false) else (td.UserId, true)

/-- Method `Tokens`: the keys of the map. -/
def TokenCache.Tokens (c : TokenCache) : List String :=
  c.tokens.map Prod.fst

/-- The operations that change a cache: a `set`, or a cleanup pass. -/
inductive CacheOp where
  | set (token userID : String) (ttl : Duration) (now : Time)
  | cleanup (clock : String → Time)

/-- Effect of one operation. -/
def TokenCache.apply (c : TokenCache) : CacheOp → TokenCache
  | CacheOp.set token userID ttl now => c.set token userID ttl now
  | CacheOp.cleanup clock => c.cleanupPass clock

/-- Effect of a sequence of operations, in order. -/
def TokenCache.applyAll (c : TokenCache) : List CacheOp → TokenCache
  | [] => c
  | op :: ops => (c.apply op).applyAll ops

/-- The operation does not store `token`, and if it is a cleanup pass all its
clock readings are at most `now`. -/
def CacheOp.quietFor (token : String) (now : Time) : CacheOp → Prop
  | CacheOp.set token2 _ _ _ => token2 ≠ token
  | CacheOp.cleanup clock => ∀ k, clock k ≤ now

/-! ## Debouncer (`debouncer/main.go`) -/

/-- What a call of a `Circuit` does: it returns a `(string, error)` pair, or it
panics. -/
inductive Outcome where
  | returns (result : String) (err : Option GoError)
  | panics
deriving DecidableEq, Repr

/-- The function type `type Circuit func(context.Context) (string, error)`. -/
abbrev Circuit := Context → Outcome

/-- Period of the ticker made by `time.NewTicker(100 * time.Millisecond)`. -/
def tickPeriod : Duration := 100 * Millisecond

/-- Where the waiter goroutine stands: inside its `for`/`select` loop, or past it
(after `return` or a panic) with the deferred function still to run. -/
inductive WaiterPhase where
  | polling
  | returning
deriving DecidableEq, Repr

/-- The waiter goroutine started inside `once.Do`: the context it captured, the
instant of the next tick it will receive, and its phase. -/
structure Waiter where
  ctx : Context
  nextTick : Time
  phase : WaiterPhase
deriving DecidableEq, Repr

/-- One execution of the wrapped circuit: when, and with which context. -/
structure Execution where
  time : Time
  ctx : Context
deriving DecidableEq, Repr

/-- The variables captured by the closure that `DebounceLast(circuit, d)`
returns, with the quiet period `d`, the waiter goroutine if one exists, and the
log of the executions of the wrapped circuit.  `mu` is `true` when the mutex is
held by a goroutine that will not release it; `once` is `true` when the
`sync.Once` has been used and not yet replaced. -/
structure Debounce where
  d : Duration
  mu : Bool
  threshold : Time
  result : String
  err : Option GoError
  once : Bool
  waiter : Option Waiter
  executions : List Execution
deriving DecidableEq, Repr

/-- State right after `DebounceLast(circuit, d)`: all variables hold their zero
values. -/
def DebounceLast (d : Duration) : Debounce :=
  { d := d, mu := false, threshold := 0, result := "", err := none,
    once := false, waiter := none, executions := [] }

/-- First critical section of the closure: `threshold = time.Now().Add(d)`. -/
def Debounce.moveThreshold (s : Debounce) (now : Time) : Debounce :=
  { s with threshold := now + s.d }

/-- The call `once.Do(...)`: if the `Once` is unused, a ticker is made and the
waiter goroutine is started with the context of this invocation. -/
def Debounce.onceDo (s : Debounce) (ctx : Context) (now : Time) : Debounce :=
  if s.once then s
  else { s with once := true,
                waiter := some { ctx := ctx, nextTick := now + tickPeriod,
                                 phase := WaiterPhase.polling } }

/-- Last critical section of the closure: `return result, err`. -/
def Debounce.current (s : Debounce) : String × Option GoError :=
  (s.result, s.err)

/-- One invocation of the closure at clock reading `now`, run as one step.  It
returns `none` when it blocks for ever on `mu.Lock()`. -/
def Debounce.invoke (s : Debounce) (ctx : Context) (now : Time) :
    Option (String × Option GoError) × Debounce :=
  if s.mu then (none, s)
  else
    let s1 := (s.moveThreshold now).onceDo ctx now
    (some s1.current, s1)

/-- The waiter receives a tick (`case <-ticker.C`) and reads the clock as `now`
under the lock: past the threshold it runs the circuit, stores its outcome,
unlocks and returns; a panic of the circuit leaves the loop with the mutex
held. -/
def Debounce.waiterTick (circuit : Circuit) (s : Debounce) (w : Waiter) (now : Time) :
    Debounce :=
  if now > s.threshold then
    match circuit w.ctx with
    | Outcome.returns r e =>
        { s with result := r, err := e,
                 executions := s.executions ++ [{ time := now, ctx := w.ctx }],
                 waiter := some { w with phase := WaiterPhase.returning } }
    | Outcome.panics =>
        { s with mu := true,
                 executions := s.executions ++ [{ time := now, ctx := w.ctx }],
                 waiter := some { w with phase := WaiterPhase.returning } }
  else
    { s with waiter := some { w with nextTick := w.nextTick + tickPeriod } }

/-- The waiter receives from `ctx.Done()`: it stores `("", ctx.Err())` and
returns. -/
def Debounce.waiterDone (s : Debounce) (w : Waiter) : Debounce :=
  { s with result := "", err := some w.ctx.cause,
           waiter := some { w with phase := WaiterPhase.returning } }

/-- The deferred function of the waiter: under the lock it stops the ticker and
replaces the `Once`; the goroutine is gone afterwards.  With the mutex held for
ever it blocks on `mu.Lock()` and nothing changes. -/
def Debounce.waiterExit (s : Debounce) : Debounce :=
  if s.mu then s else { s with once := false, waiter := none }

/-- Whether the context of the waiter is done strictly before its next tick. -/
def Waiter.doneFirst (w : Waiter) : Option Time :=
  match w.ctx.doneAt with
  | some c => if c < w.nextTick then some c else none
  | none => none

/-- One round of the waiter goroutine strictly before the instant `upto`: the
`select` takes `ctx.Done()` when the context is done before the next tick, and
the tick otherwise; the clock read while handling a tick is the instant of the
tick; a waiter that leaves its loop runs its deferred function in the same
round.  `none` when the waiter has nothing to do before `upto`. -/
def Debounce.waiterRound (circuit : Circuit) (upto : Time) (s : Debounce) :
    Option Debounce :=
  match s.waiter with
  | none => none
  | some w =>
    match w.phase with
    | WaiterPhase.returning => none
    | WaiterPhase.polling =>
      match w.doneFirst with
      | some c => if c < upto then some (s.waiterDone w).waiterExit else none
      | none =>
        if w.nextTick < upto then
          let s1 := s.waiterTick circuit w w.nextTick
          match s1.waiter with
          | some w1 =>
              if w1.phase = WaiterPhase.returning then some s1.waiterExit else some s1
          | none => some s1
        else none

/-- At most `fuel` rounds of the waiter before the instant `upto`. -/
def Debounce.advance (circuit : Circuit) (upto : Time) : Nat → Debounce → Debounce
  | 0, s => s
  | fuel + 1, s =>
    match s.waiterRound circuit upto with
    | none => s
    | some s1 => Debounce.advance circuit upto fuel s1

/-- Number of rounds that covers every tick of the waiter before `upto`, and a
cancellation. -/
def Debounce.rounds (s : Debounce) (upto : Time) : Nat :=
  match s.waiter with
  | none => 0
  | some w => ((upto - w.nextTick) / tickPeriod).toNat + 2

/-- Everything the waiter does strictly before the instant `upto`. -/
def Debounce.runUntil (circuit : Circuit) (upto : Time) (s : Debounce) : Debounce :=
  Debounce.advance circuit upto (s.rounds upto) s

/-- One invocation of the closure that `DebounceLast` returns. -/
structure Invocation where
  now : Time
  ctx : Context
deriving DecidableEq, Repr

/-- A schedule of invocations, each preceded by what the waiter does before it. -/
def Debounce.simulate (circuit : Circuit) (s : Debounce) : List Invocation → Debounce
  | [] => s
  | i :: is =>
    Debounce.simulate circuit (((s.runUntil circuit i.now).invoke i.ctx i.now).2) is

/-- A fresh debouncer of quiet period `d`, the invocations `invs`, and then the
waiter alone up to the instant `horizon`. -/
def runBurst (circuit : Circuit) (d : Duration) (invs : List Invocation)
    (horizon : Time) : Debounce :=
  ((DebounceLast d).simulate circuit invs).runUntil circuit horizon

/-- A burst: every invocation comes after the previous one and less than `d`
after it. -/
def Burst (d : Duration) : List Invocation → Prop
  | [] => True
  | [_] => True
  | a :: b :: rest => (a.now ≤ b.now ∧ b.now < a.now + d) ∧ Burst d (b :: rest)

/-- The function `apiCall` of the demonstration: it always succeeds. -/
def apiCall : Circuit := fun _ => Outcome.returns " Success" none

/-- The five triggers of `main`, half a second apart, on `context.Background()`. -/
def mainTriggers : List Invocation :=
  [⟨0, Context.background⟩, ⟨500 * Millisecond, Context.background⟩,
   ⟨1000 * Millisecond, Context.background⟩, ⟨1500 * Millisecond, Context.background⟩,
   ⟨2000 * Millisecond, Context.background⟩]

instance Burst.decidable (d : Duration) : (invs : List Invocation) → Decidable (Burst d invs)
  | [] => isTrue trivial
  | [_] => isTrue trivial
  | a :: b :: rest =>
    have : Decidable (Burst d (b :: rest)) := Burst.decidable d (b :: rest)
    by unfold Burst; exact inferInstance

/-- The instant of the last invocation of a schedule (`0` for an empty one). -/
def lastNow : List Invocation → Time
  | [] => 0
  | [a] => a.now
  | _ :: b :: rest => lastNow (b :: rest)

/-! ## Sample inputs -/

/-- A call at clock `now` whose wrapped function fails with "external API
failure", the failure being recorded at the same clock value. -/
def failingCall (now : Time) : CallEvent :=
  { now := now, ctx := Context.background,
    fn := failWith (GoError.errorString "external API failure"), failNow := now }

/-- A call at clock `now` whose wrapped function succeeds. -/
def passingCall (now : Time) : CallEvent :=
  { now := now, ctx := Context.background, fn := succeed, failNow := now }

/-- A call at clock `now` whose wrapped function fails with an error of the same
text as the fail-fast error. -/
def mimicCall (now : Time) : CallEvent :=
  { now := now, ctx := Context.background, fn := failWith rejectionError, failNow := now }

/-- The breaker of `main` (threshold 3, cooldown 5 s) after three failed calls
at seconds 1, 2 and 3. -/
def trippedBreaker : CircuitBreaker :=
  runCalls (NewCircuitBreaker 3 (5 * Second))
    [failingCall (1 * Second), failingCall (2 * Second), failingCall (3 * Second)]

/-- The entries of the map stored under `token` (at most one in a map). -/
def TokenCache.entriesOf (c : TokenCache) (token : String) : List (String × TokenData) :=
  c.tokens.filter (fun p => p.1 = token)

/-- The operation is not a `set` of `token`. -/
def CacheOp.notSetOf (token : String) : CacheOp → Prop
  | CacheOp.set token2 _ _ _ => token2 ≠ token
  | CacheOp.cleanup _ => True

/-- A cache holding three tokens with expiry instants 5 s, 8 s and 11 s. -/
def sampleCache : TokenCache :=
  ((NewTokenCache.set "t1" "user-1" (5 * Second) 0).set "t2" "user-2" (5 * Second)
    (3 * Second)).set "t3" "user-3" (5 * Second) (6 * Second)

/-- The number of consecutive failed calls at the end of a sequence of calls:
those since the last call whose wrapped function succeeded, or since the
construction. -/
def consecutiveFailures (evs : List CallEvent) : Nat :=
  (evs.reverse.takeWhile (fun e => (e.fn e.ctx).isSome)).length

/-! ## Debouncer: interleavings of atomic steps -/

/-- Whether `ctx.Done()` is closed when the clock shows `now`. -/
def Context.isDone (ctx : Context) (now : Time) : Bool :=
  match ctx.doneAt with
  | some c => decide (c ≤ now)
  | none => false

/-- The atomic steps of the goroutines around one debouncer: a whole invocation
of the closure; its first critical section alone; its `once.Do` alone; the
waiter handling a tick with clock reading `now`; the waiter receiving from
`ctx.Done()`; the deferred function of the waiter. -/
inductive DStep where
  | invoke (ctx : Context) (now : Time)
  | moveThreshold (now : Time)
  | onceDo (ctx : Context) (now : Time)
  | tick (now : Time)
  | ctxDone (now : Time)
  | leave
deriving DecidableEq, Repr

/-- Effect of one atomic step.  A step that needs the mutex does nothing while
the mutex is held for ever; the waiter steps need a waiter in the right phase,
and `ctxDone` a context that is done. -/
def Debounce.step (circuit : Circuit) (s : Debounce) : DStep → Debounce
  | DStep.invoke ctx now => (s.invoke ctx now).2
  | DStep.moveThreshold now => if s.mu then s else s.moveThreshold now
  | DStep.onceDo ctx now => s.onceDo ctx now
  | DStep.tick now =>
    match s.waiter with
    | some w =>
      if w.phase = WaiterPhase.polling ∧ s.mu = false then s.waiterTick circuit w now else s
    | none => s
  | DStep.ctxDone now =>
    match s.waiter with
    | some w =>
      if w.phase = WaiterPhase.polling ∧ s.mu = false ∧ w.ctx.isDone now = true then
        s.waiterDone w
      else s
    | none => s
  | DStep.leave =>
    match s.waiter with
    | some w => if w.phase = WaiterPhase.returning then s.waiterExit else s
    | none => s

/-- Effect of a sequence of atomic steps, in order. -/
def Debounce.run (circuit : Circuit) (s : Debounce) : List DStep → Debounce
  | [] => s
  | st :: rest => Debounce.run circuit (s.step circuit st) rest

/-- A circuit that panics. -/
def panicking : Circuit := fun _ => Outcome.panics

/-- A context that is cancelled at the instant `c`. -/
def cancelledAt (c : Time) : Context := { id := 1, doneAt := some c, cause := GoError.canceled }

/-- A second context, distinct from `context.Background()`, never cancelled. -/
def otherContext : Context := { id := 2, doneAt := none, cause := GoError.canceled }

/-- An interleaving with a quiet period of 2 s: an invocation at instant 0 starts
the waiter; the tick at 2.1 s runs the circuit and leaves the loop; a second
invocation gets the mutex at 2.15 s, before the deferred function of the waiter;
then the deferred function runs. -/
def lostTriggerSteps : List DStep :=
  [DStep.invoke Context.background 0, DStep.tick (2100 * Millisecond),
   DStep.invoke otherContext (2150 * Millisecond), DStep.leave]

/-- The triggers of `main` with the contexts of the last four replaced by a
context that is cancelled at 0.6 s. -/
def mainTriggersCancelled : List Invocation :=
  [⟨0, Context.background⟩, ⟨500 * Millisecond, cancelledAt (600 * Millisecond)⟩,
   ⟨1000 * Millisecond, cancelledAt (600 * Millisecond)⟩,
   ⟨1500 * Millisecond, cancelledAt (600 * Millisecond)⟩,
   ⟨2000 * Millisecond, cancelledAt (600 * Millisecond)⟩]

/-! ## Debouncer: schedules of a burst -/

/-- One microsecond, `time.Microsecond`. -/
def Microsecond : Duration := 1000

/-- The clock reading of the first critical section of an invocation, for the
steps that contain it. -/
def DStep.moveReading : DStep → Option Time
  | DStep.invoke _ now => some now
  | DStep.moveThreshold now => some now
  | _ => none

/-- The context handed to `once.Do`, for the steps that contain it. -/
def DStep.onceCtx : DStep → Option Context
  | DStep.invoke ctx _ => some ctx
  | DStep.onceDo ctx _ => some ctx
  | _ => none

/-- Whether a step is a step of the waiter goroutine. -/
def DStep.isWaiterStep : DStep → Bool
  | DStep.tick _ => true
  | DStep.ctxDone _ => true
  | DStep.leave => true
  | _ => false

/-- The same step with the context of the invocation replaced. -/
def DStep.withCtx (f : Context → Context) : DStep → DStep
  | DStep.invoke ctx now => DStep.invoke (f ctx) now
  | DStep.onceDo ctx now => DStep.onceDo (f ctx) now
  | st => st

/-- Whether a threshold move occurs among the steps. -/
def hasMove : List DStep → Bool
  | [] => false
  | st :: rest => st.moveReading.isSome || hasMove rest

/-- The reading of the last threshold move among the steps, `m` if there is
none. -/
def lastMove (m : Time) : List DStep → Time
  | [] => m
  | st :: rest => lastMove (st.moveReading.getD m) rest

/-- The context of the first `once.Do` among the steps. -/
def firstOnceCtx : List DStep → Option Context
  | [] => none
  | st :: rest =>
    match st.onceCtx with
    | some c => some c
    | none => firstOnceCtx rest

/-- The steps of a burst, seen after a threshold move read at `m` and a latest
clock reading `clk`: the sections of the invocations and the polls of the
waiter in any order, the clock readings being taken in the order of the steps;
every threshold move is read less than `d` after the one before it; a poll
after which no threshold move comes reads not later than `m + d`; the waiter
neither receives from `ctx.Done()` nor runs its deferred function. -/
def BurstSchedule (d : Duration) : Time → Time → List DStep → Prop
  | _, _, [] => True
  | m, clk, DStep.invoke _ now :: rest =>
    clk ≤ now ∧ now < m + d ∧ BurstSchedule d now now rest
  | m, clk, DStep.moveThreshold now :: rest =>
    clk ≤ now ∧ now < m + d ∧ BurstSchedule d now now rest
  | m, clk, DStep.onceDo _ _ :: rest => BurstSchedule d m clk rest
  | m, clk, DStep.tick now :: rest =>
    clk ≤ now ∧ (hasMove rest = false → now ≤ m + d) ∧ BurstSchedule d m now rest
  | _, _, DStep.ctxDone _ :: _ => False
  | _, _, DStep.leave :: _ => False

instance BurstSchedule.decidable (d : Duration) :
    (m clk : Time) → (steps : List DStep) → Decidable (BurstSchedule d m clk steps)
  | _, _, [] => isTrue trivial
  | m, clk, DStep.invoke _ now :: rest =>
    have : Decidable (BurstSchedule d now now rest) := BurstSchedule.decidable d now now rest
    by unfold BurstSchedule; exact inferInstance
  | m, clk, DStep.moveThreshold now :: rest =>
    have : Decidable (BurstSchedule d now now rest) := BurstSchedule.decidable d now now rest
    by unfold BurstSchedule; exact inferInstance
  | m, clk, DStep.onceDo _ _ :: rest =>
    have : Decidable (BurstSchedule d m clk rest) := BurstSchedule.decidable d m clk rest
    by unfold BurstSchedule; exact inferInstance
  | m, clk, DStep.tick now :: rest =>
    have : Decidable (BurstSchedule d m now rest) := BurstSchedule.decidable d m now rest
    by unfold BurstSchedule; exact inferInstance
  | _, _, DStep.ctxDone _ :: _ => isFalse (fun h => h)
  | _, _, DStep.leave :: _ => isFalse (fun h => h)

/-- Whether a step is a section of an invocation or a tick of the waiter that
reads the clock not after `threshold`. -/
def DStep.allowedBefore (threshold : Time) : DStep → Bool
  | DStep.tick now => decide (now ≤ threshold)
  | DStep.ctxDone _ => false
  | DStep.leave => false
  | _ => true

/-- Steps during which the waiter handles no tick that reads the clock after
the threshold then current, receives nothing from `ctx.Done()` and does not run
its deferred function; the sections of invocations are free. -/
def Debounce.beforeDeadline (circuit : Circuit) (s : Debounce) : List DStep → Prop
  | [] => True
  | st :: rest =>
    st.allowedBefore s.threshold = true ∧
    Debounce.beforeDeadline circuit (s.step circuit st) rest

instance Debounce.beforeDeadline.decidable (circuit : Circuit) :
    (s : Debounce) → (steps : List DStep) → Decidable (s.beforeDeadline circuit steps)
  | _, [] => isTrue trivial
  | s, st :: rest =>
    have : Decidable (Debounce.beforeDeadline circuit (s.step circuit st) rest) :=
      Debounce.beforeDeadline.decidable circuit (s.step circuit st) rest
    by unfold Debounce.beforeDeadline; exact inferInstance

/-- The context a waiter in the state has, or the one that the first `once.Do`
among the steps will give it when the state has no waiter. -/
def Debounce.boundCtx (s : Debounce) (steps : List DStep) : Option Context :=
  match s.waiter with
  | some w => some w.ctx
  | none => firstOnceCtx steps

/-- The last four triggers of `main` as whole invocations, with polls of the
waiter in between and after them, none reading the clock later than 4 s. -/
def mainSchedule : List DStep :=
  [DStep.tick (100 * Millisecond), DStep.tick (400 * Millisecond),
   DStep.invoke Context.background (500 * Millisecond), DStep.tick (900 * Millisecond),
   DStep.invoke Context.background (1000 * Millisecond),
   DStep.invoke Context.background (1500 * Millisecond), DStep.tick (1900 * Millisecond),
   DStep.invoke Context.background (2000 * Millisecond), DStep.tick (3000 * Millisecond),
   DStep.tick (4000 * Millisecond)]

/-- A burst of two invocations whose sections interleave: the second invocation
moves the threshold before the first reaches `once.Do`, and its own `once.Do`
comes last. -/
def splitSchedule : List DStep :=
  [DStep.moveThreshold (300 * Millisecond), DStep.onceDo Context.background 0,
   DStep.tick (400 * Millisecond), DStep.onceDo otherContext (300 * Millisecond),
   DStep.tick (2300 * Millisecond)]

/-! ## Circuit breaker: overlapping calls, machine integers -/

/-- The first part of `Call`, up to the end of the `switch`: the state is read
under the lock; an open breaker past its cooldown is set half-open; `none` is
the fail-fast return. -/
def CircuitBreaker.enter (cb : CircuitBreaker) (now : Time) : Option CircuitBreaker :=
  if cb.state = "open" then
    if since now cb.lastFailureTime > cb.resetTimeout then some (cb.setState "half-open")
    else none
  else some cb

/-- The two parts of a call that other calls can come between, `Call` holding
no lock while the wrapped function runs: `enter e`, the call passes the
`switch` (or returns the fail-fast error); `finish e`, its wrapped function has
returned and the outcome is recorded. -/
inductive CallStep where
  | enter (e : CallEvent)
  | finish (e : CallEvent)

/-- Effect of one part of a call on the breaker. -/
def CircuitBreaker.callStep (cb : CircuitBreaker) : CallStep → CircuitBreaker
  | CallStep.enter e =>
    match cb.enter e.now with
    | some cb1 => cb1
    | none => cb
  | CallStep.finish e => (cb.execute e).cb

/-- The breaker after the parts of several calls, in the order they run. -/
def runCallSteps (cb : CircuitBreaker) : List CallStep → CircuitBreaker
  | [] => cb
  | st :: rest => runCallSteps (cb.callStep st) rest

/-- The largest `int` of Go on a 64-bit platform. -/
def maxInt64 : Int := 9223372036854775807

/-- The smallest `int` of Go on a 64-bit platform. -/
def minInt64 : Int := -9223372036854775808

/-- Wrap-around of Go's 64-bit `int` arithmetic. -/
def wrapInt64 (x : Int) : Int :=
  (x + 9223372036854775808) % 18446744073709551616 - 9223372036854775808

/-- Clock arithmetic `time.Since(u)` with the saturation of `time.Duration`. -/
def sinceSat (now u : Time) : Duration :=
  max minInt64 (min maxInt64 (now - u))

/-- Method `recordFailure` on Go's `int`: `cb.failureCount++` wraps around. -/
def CircuitBreaker.recordFailure64 (cb : CircuitBreaker) (now : Time) : CircuitBreaker :=
  let cb1 := { cb with failureCount := wrapInt64 (cb.failureCount + 1) }
  if cb1.failureCount ≥ cb1.failureThreshold then
    { cb1.setState "open" with lastFailureTime := now }
  else
    cb1

/-- The part of `Call` after the `switch`, on Go's `int`. -/
def CircuitBreaker.execute64 (cb : CircuitBreaker) (e : CallEvent) : CallResult :=
  match e.fn e.ctx with
  | some err => { err := some err, cb := cb.recordFailure64 e.failNow, invoked := [e.ctx] }
  | none => { err := none, cb := cb.recordSuccess, invoked := [e.ctx] }

/-- Method `Call` on Go's machine values: the counter wraps around and
`time.Since` saturates.  It is run without interference from other callers. -/
def CircuitBreaker.Call64 (cb : CircuitBreaker) (e : CallEvent) : CallResult :=
  let state := cb.state
  if state = "open" then
    if sinceSat e.now cb.lastFailureTime > cb.resetTimeout then
      (cb.setState "half-open").execute64 e
    else
      { err := some rejectionError, cb := cb, invoked := [] }
  else
    cb.execute64 e

/-- A call is rejected by `Call64` when the breaker is open and the saturated
time since the last failure is within the cooldown. -/
def CircuitBreaker.rejects64 (cb : CircuitBreaker) (now : Time) : Prop :=
  cb.state = "open" ∧ sinceSat now cb.lastFailureTime ≤ cb.resetTimeout

instance (cb : CircuitBreaker) (now : Time) : Decidable (cb.rejects64 now) := by
  unfold CircuitBreaker.rejects64; exact inferInstance

/-- A call that enters at `now` and whose wrapped function fails, the failure
being recorded at `failNow`. -/
def failingCallAt (now failNow : Time) : CallEvent :=
  { now := now, ctx := Context.background,
    fn := failWith (GoError.errorString "external API failure"), failNow := failNow }

/-- A closed breaker whose counter holds the largest `int`. -/
def saturatedBreaker : CircuitBreaker :=
  { state := "closed", failureCount := maxInt64, failureThreshold := 3,
    resetTimeout := 5 * Second, lastFailureTime := 0 }

/-! ## Circuit breaker: theorems -/

section CircuitBreakerLemmas

theorem Call_of_rejects (cb : CircuitBreaker) (e : CallEvent) (h : cb.rejects e.now) :
    cb.Call e = { err := some rejectionError, cb := cb, invoked := [] } := by
  obtain ⟨h1, h2⟩ := h
  have h3 : ¬ (since e.now cb.lastFailureTime > cb.resetTimeout) := not_lt.mpr h2
  unfold CircuitBreaker.Call
  simp only [h1, h3, if_true, if_false]

theorem Call_of_not_rejects (cb : CircuitBreaker) (e : CallEvent) (h : ¬ cb.rejects e.now) :
    cb.Call e =
      match e.fn e.ctx with
      | some err =>
          { err := some err
            cb := (if cb.state = "open" then cb.setState "half-open" else cb).recordFailure
              e.failNow
            invoked := [e.ctx] }
      | none =>
          { err := none
            cb := (if cb.state = "open" then cb.setState "half-open" else cb).recordSuccess
            invoked := [e.ctx] } := by
  unfold CircuitBreaker.Call
  by_cases h1 : cb.state = "open"
  · have h3 : since e.now cb.lastFailureTime > cb.resetTimeout := by
      by_contra hc
      exact h ⟨h1, not_lt.mp hc⟩
    simp only [h1, h3, if_true, CircuitBreaker.execute]
  · simp only [h1, if_false, CircuitBreaker.execute]

theorem recordFailure_eq (cb : CircuitBreaker) (t : Time) :
    cb.recordFailure t =
      if cb.failureThreshold ≤ cb.failureCount + 1 then
        { cb with state := "open", failureCount := cb.failureCount + 1, lastFailureTime := t }
      else { cb with failureCount := cb.failureCount + 1 } := rfl

theorem recordFailure_threshold (cb : CircuitBreaker) (t : Time) :
    (cb.recordFailure t).failureThreshold = cb.failureThreshold ∧
    (cb.recordFailure t).resetTimeout = cb.resetTimeout := by
  rw [recordFailure_eq]
  split <;> exact ⟨rfl, rfl⟩

theorem recordFailure_count (cb : CircuitBreaker) (t : Time) :
    (cb.recordFailure t).failureCount = cb.failureCount + 1 := by
  rw [recordFailure_eq]
  split <;> rfl

theorem recordFailure_open (cb : CircuitBreaker) (t : Time)
    (h : cb.failureThreshold ≤ cb.failureCount + 1) :
    (cb.recordFailure t).state = "open" ∧ (cb.recordFailure t).lastFailureTime = t := by
  rw [recordFailure_eq, if_pos h]
  exact ⟨rfl, rfl⟩

theorem recordFailure_below (cb : CircuitBreaker) (t : Time)
    (h : cb.failureCount + 1 < cb.failureThreshold) :
    cb.recordFailure t = { cb with failureCount := cb.failureCount + 1 } := by
  rw [recordFailure_eq, if_neg (not_le.mpr h)]

theorem probe_fields (cb : CircuitBreaker) :
    (if cb.state = "open" then cb.setState "half-open" else cb).failureCount = cb.failureCount ∧
    (if cb.state = "open" then cb.setState "half-open" else cb).failureThreshold
      = cb.failureThreshold ∧
    (if cb.state = "open" then cb.setState "half-open" else cb).resetTimeout = cb.resetTimeout ∧
    (if cb.state = "open" then cb.setState "half-open" else cb).lastFailureTime
      = cb.lastFailureTime ∧
    (if cb.state = "open" then cb.setState "half-open" else cb).state ≠ "open" := by
  by_cases h : cb.state = "open"
  · simp only [h, if_true, CircuitBreaker.setState]
    refine ⟨trivial, trivial, trivial, trivial, by decide⟩
  · simp only [h, if_false]
    exact ⟨trivial, trivial, trivial, trivial, h⟩

theorem Call_config (cb : CircuitBreaker) (e : CallEvent) :
    (cb.Call e).cb.failureThreshold = cb.failureThreshold ∧
    (cb.Call e).cb.resetTimeout = cb.resetTimeout := by
  by_cases h : cb.rejects e.now
  · rw [Call_of_rejects cb e h]
    exact ⟨rfl, rfl⟩
  · rw [Call_of_not_rejects cb e h]
    obtain ⟨-, h2, h3, -, -⟩ := probe_fields cb
    cases e.fn e.ctx with
    | none => exact ⟨h2, h3⟩
    | some err =>
      obtain ⟨h4, h5⟩ := recordFailure_threshold
        (if cb.state = "open" then cb.setState "half-open" else cb) e.failNow
      exact ⟨h4.trans h2, h5.trans h3⟩

theorem runCalls_config (evs : List CallEvent) (cb : CircuitBreaker) :
    (runCalls cb evs).failureThreshold = cb.failureThreshold ∧
    (runCalls cb evs).resetTimeout = cb.resetTimeout := by
  induction evs generalizing cb with
  | nil => exact ⟨rfl, rfl⟩
  | cons e es ih =>
    obtain ⟨h1, h2⟩ := ih (cb.Call e).cb
    obtain ⟨h3, h4⟩ := Call_config cb e
    exact ⟨h1.trans h3, h2.trans h4⟩

theorem runCalls_append (xs ys : List CallEvent) (cb : CircuitBreaker) :
    runCalls cb (xs ++ ys) = runCalls (runCalls cb xs) ys := by
  induction xs generalizing cb with
  | nil => rfl
  | cons e es ih => exact ih (cb.Call e).cb

/-- A call that is not rejected invokes the wrapped function once and returns
its result. -/
theorem Call_passes (cb : CircuitBreaker) (e : CallEvent) (hpass : ¬ cb.rejects e.now) :
    (cb.Call e).invoked = [e.ctx] ∧ (cb.Call e).err = e.fn e.ctx := by
  rw [Call_of_not_rejects cb e hpass]
  cases e.fn e.ctx <;> exact ⟨rfl, rfl⟩

/-- Between completed calls an open breaker has reached its threshold. -/
theorem Call_open_inv (cb : CircuitBreaker) (e : CallEvent)
    (h : cb.state = "open" → cb.failureThreshold ≤ cb.failureCount) :
    (cb.Call e).cb.state = "open" → (cb.Call e).cb.failureThreshold ≤ (cb.Call e).cb.failureCount := by
  by_cases hr : cb.rejects e.now
  · rw [Call_of_rejects cb e hr]
    exact h
  · rw [Call_of_not_rejects cb e hr]
    obtain ⟨h1, h2, -, -, h5⟩ := probe_fields cb
    cases e.fn e.ctx with
    | none =>
      intro hs
      simp [CircuitBreaker.recordSuccess, CircuitBreaker.setState] at hs
    | some err =>
      intro hs
      show ((if cb.state = "open" then cb.setState "half-open" else cb).recordFailure
          e.failNow).failureThreshold ≤
        ((if cb.state = "open" then cb.setState "half-open" else cb).recordFailure
          e.failNow).failureCount
      rw [(recordFailure_threshold _ _).1, recordFailure_count]
      by_contra hlt
      have hb := recordFailure_below
        (if cb.state = "open" then cb.setState "half-open" else cb) e.failNow (not_le.mp hlt)
      change ((if cb.state = "open" then cb.setState "half-open" else cb).recordFailure
          e.failNow).state = "open" at hs
      rw [hb] at hs
      exact h5 hs

theorem runCalls_open_inv (evs : List CallEvent) (cb : CircuitBreaker)
    (h : cb.state = "open" → cb.failureThreshold ≤ cb.failureCount) :
    (runCalls cb evs).state = "open" →
      (runCalls cb evs).failureThreshold ≤ (runCalls cb evs).failureCount := by
  induction evs generalizing cb with
  | nil => exact h
  | cons e es ih => exact ih (cb.Call e).cb (Call_open_inv cb e h)

/-- Every call arriving at an open breaker inside the cooldown is rejected and
leaves the breaker as it is. -/
theorem runTrace_window (win : List CallEvent) (cb : CircuitBreaker)
    (hopen : cb.state = "open")
    (hwin : ∀ w ∈ win, w.now - cb.lastFailureTime ≤ cb.resetTimeout) :
    ∀ r ∈ runTrace cb win, r = { err := some rejectionError, cb := cb, invoked := [] } := by
  induction win with
  | nil => intro r hr; simp [runTrace] at hr
  | cons w ws ih =>
    have hrej : cb.rejects w.now := ⟨hopen, hwin w (List.mem_cons_self _ _)⟩
    have hc := Call_of_rejects cb w hrej
    intro r hr
    simp only [runTrace, List.mem_cons] at hr
    rcases hr with hr | hr
    · rw [hr, hc]
    · rw [hc] at hr
      exact ih (fun w2 hw2 => hwin w2 (List.mem_cons_of_mem _ hw2)) r hr

end CircuitBreakerLemmas

section CircuitBreakerClaims

theorem runTrace_append (xs ys : List CallEvent) (cb : CircuitBreaker) :
    runTrace cb (xs ++ ys) = runTrace cb xs ++ runTrace (runCalls cb xs) ys := by
  induction xs generalizing cb with
  | nil => rfl
  | cons e es ih =>
    show cb.Call e :: runTrace (cb.Call e).cb (es ++ ys) = _
    rw [ih]
    rfl

theorem closed_not_rejects (cb : CircuitBreaker) (now : Time) (hc : cb.state = "closed") :
    ¬ cb.rejects now := by
  intro h
  have h1 := h.1
  rw [hc] at h1
  exact absurd h1 (by decide)

theorem Call_fail_closed (cb : CircuitBreaker) (e : CallEvent) (hc : cb.state = "closed")
    (hf : (e.fn e.ctx).isSome) :
    (cb.Call e).cb = cb.recordFailure e.failNow ∧ (cb.Call e).invoked = [e.ctx] := by
  rw [Call_of_not_rejects cb e (closed_not_rejects cb e.now hc)]
  have hne : ¬ cb.state = "open" := by rw [hc]; decide
  cases hfn : e.fn e.ctx with
  | none => rw [hfn] at hf; exact absurd hf (by decide)
  | some err => simp only [hne, if_false, and_self]

/-- Failing calls on a closed breaker that stay below the threshold only count. -/
theorem runCalls_fails_closed (fails : List CallEvent) (cb : CircuitBreaker)
    (hc : cb.state = "closed") (hf : ∀ e ∈ fails, (e.fn e.ctx).isSome)
    (hlt : cb.failureCount + fails.length < cb.failureThreshold) :
    runCalls cb fails = { cb with failureCount := cb.failureCount + fails.length } ∧
    (runTrace cb fails).map CallResult.invoked = fails.map (fun e => [e.ctx]) := by
  induction fails generalizing cb with
  | nil =>
    refine ⟨?_, rfl⟩
    cases cb
    simp [runCalls]
  | cons e es ih =>
    have hlen : ((e :: es).length : Int) = (es.length : Int) + 1 := by simp
    rw [hlen] at hlt
    obtain ⟨h1, h2⟩ := Call_fail_closed cb e hc (hf e (List.mem_cons_self _ _))
    have hb := recordFailure_below cb e.failNow (by omega)
    rw [hb] at h1
    have hc2 : (cb.Call e).cb.state = "closed" := by rw [h1]; exact hc
    have hcount : (cb.Call e).cb.failureCount = cb.failureCount + 1 := by rw [h1]
    have hthr : (cb.Call e).cb.failureThreshold = cb.failureThreshold := by rw [h1]
    obtain ⟨h3, h4⟩ := ih (cb.Call e).cb hc2
      (fun x hx => hf x (List.mem_cons_of_mem _ hx)) (by rw [hcount, hthr]; omega)
    constructor
    · show runCalls (cb.Call e).cb es = _
      rw [h3, hlen, h1]
      simp only [CircuitBreaker.mk.injEq, true_and, and_true]
      omega
    · show (cb.Call e).invoked :: (runTrace (cb.Call e).cb es).map CallResult.invoked = _
      rw [h4, h2]
      rfl

/-- C1: a call on an open breaker whose cooldown has not elapsed
(`now - lastFailureTime <= resetTimeout`) returns the fail-fast error, does not
invoke the wrapped function, and leaves state, failureCount and lastFailureTime
(indeed the whole breaker) unchanged. -/
theorem C1_open_fails_fast (cb : CircuitBreaker) (e : CallEvent)
    (hopen : cb.state = "open")
    (hwin : e.now - cb.lastFailureTime ≤ cb.resetTimeout) :
    (cb.Call e).err = some rejectionError ∧
    (cb.Call e).invoked = [] ∧
    (cb.Call e).cb.state = cb.state ∧
    (cb.Call e).cb.failureCount = cb.failureCount ∧
    (cb.Call e).cb.lastFailureTime = cb.lastFailureTime ∧
    (cb.Call e).cb = cb := by
  rw [Call_of_rejects cb e ⟨hopen, hwin⟩]
  exact ⟨rfl, rfl, rfl, rfl, rfl, rfl⟩

theorem C1_open_fails_fast_witness :
    trippedBreaker.state = "open" ∧
    (passingCall (4 * Second)).now - trippedBreaker.lastFailureTime
      ≤ trippedBreaker.resetTimeout ∧
    (trippedBreaker.Call (passingCall (4 * Second))).err = some rejectionError ∧
    (trippedBreaker.Call (passingCall (4 * Second))).invoked = [] ∧
    (trippedBreaker.Call (passingCall (4 * Second))).cb = trippedBreaker :=
  have h := C1_open_fails_fast trippedBreaker (passingCall (4 * Second))
    (by decide) (by decide)
  ⟨by decide, by decide, h.1, h.2.1, h.2.2.2.2.2⟩

/-- A call that no other call overlaps is its two parts run one after the
other. -/
theorem Call_eq_enter_execute (cb : CircuitBreaker) (e : CallEvent) :
    cb.Call e =
      match cb.enter e.now with
      | none => { err := some rejectionError, cb := cb, invoked := [] }
      | some cb1 => cb1.execute e := by
  unfold CircuitBreaker.Call CircuitBreaker.enter
  by_cases h1 : cb.state = "open"
  · by_cases h2 : since e.now cb.lastFailureTime > cb.resetTimeout
    · simp only [h1, h2, if_true]
    · simp only [h1, h2, if_true, if_false]
  · simp only [h1, if_false]

theorem runCallSteps_enter_finish (cb : CircuitBreaker) (e : CallEvent) :
    runCallSteps cb [CallStep.enter e, CallStep.finish e]
      = match cb.enter e.now with
        | none => (cb.execute e).cb
        | some _ => (cb.Call e).cb := by
  rw [Call_eq_enter_execute]
  show ((match cb.enter e.now with
        | some cb1 => cb1
        | none => cb).execute e).cb = _
  cases cb.enter e.now <;> rfl

/-- C2 fails as stated: on `NewCircuitBreaker(1, 5s)` two calls enter at instant
0 while the breaker is closed; the wrapped function of the second fails at 1 s,
which brings failureCount to the threshold and opens the breaker; the wrapped
function of the first succeeds at 2 s and `recordSuccess` closes the breaker,
inside the 5 s after that failure; a call at 3 s is passed to its wrapped
function instead of being rejected. -/
theorem C2_counterexample :
    (runCallSteps (NewCircuitBreaker 1 (5 * Second))
        [CallStep.enter (passingCall 0), CallStep.enter (failingCallAt 0 (1 * Second)),
         CallStep.finish (failingCallAt 0 (1 * Second))]).state = "open" ∧
    (runCallSteps (NewCircuitBreaker 1 (5 * Second))
        [CallStep.enter (passingCall 0), CallStep.enter (failingCallAt 0 (1 * Second)),
         CallStep.finish (failingCallAt 0 (1 * Second))]).failureCount = 1 ∧
    (runCallSteps (NewCircuitBreaker 1 (5 * Second))
        [CallStep.enter (passingCall 0), CallStep.enter (failingCallAt 0 (1 * Second)),
         CallStep.finish (failingCallAt 0 (1 * Second))]).lastFailureTime = 1 * Second ∧
    (runCallSteps (NewCircuitBreaker 1 (5 * Second))
        [CallStep.enter (passingCall 0), CallStep.enter (failingCallAt 0 (1 * Second)),
         CallStep.finish (failingCallAt 0 (1 * Second)),
         CallStep.finish (passingCall 0)]).state = "closed" ∧
    (3 * Second : Time) ≤ 1 * Second + 5 * Second ∧
    ((runCallSteps (NewCircuitBreaker 1 (5 * Second))
        [CallStep.enter (passingCall 0), CallStep.enter (failingCallAt 0 (1 * Second)),
         CallStep.finish (failingCallAt 0 (1 * Second)),
         CallStep.finish (passingCall 0)]).Call (passingCall (3 * Second))).invoked
      = [Context.background] := by
  decide

/-- C2, amended: on a breaker built by `NewCircuitBreaker(n, T)` with `n >= 1`,
for calls that do not overlap (each call is run to its end before the next one
starts): after any sequence `pre` of completed calls, a call `e` that is passed
to the wrapped function, fails, and brings failureCount to the threshold leaves
the breaker open with lastFailureTime the instant of that failure; every call
of a sequence `win` of calls arriving no later than `T` after that instant is
rejected with the fail-fast error without invoking the wrapped function, and
the breaker stays open (and otherwise unchanged) throughout. -/
theorem C2_open_for_reset_timeout (n : Int) (T : Duration) (hn : 1 ≤ n)
    (pre : List CallEvent) (e : CallEvent) (win : List CallEvent)
    (hpass : ¬ (runCalls (NewCircuitBreaker n T) pre).rejects e.now)
    (hfail : (e.fn e.ctx).isSome)
    (hcount : n ≤ ((runCalls (NewCircuitBreaker n T) pre).Call e).cb.failureCount)
    (hwin : ∀ w ∈ win, w.now ≤ e.failNow + T) :
    ((runCalls (NewCircuitBreaker n T) pre).Call e).cb.state = "open" ∧
    ((runCalls (NewCircuitBreaker n T) pre).Call e).cb.lastFailureTime = e.failNow ∧
    (∀ r ∈ runTrace ((runCalls (NewCircuitBreaker n T) pre).Call e).cb win,
      r.err = some rejectionError ∧ r.invoked = [] ∧ r.cb.state = "open" ∧
      r.cb = ((runCalls (NewCircuitBreaker n T) pre).Call e).cb) ∧
    (runCalls ((runCalls (NewCircuitBreaker n T) pre).Call e).cb win).state = "open" := by
  have _ := hn
  obtain ⟨hthr, hT⟩ := runCalls_config pre (NewCircuitBreaker n T)
  have hthr2 : (runCalls (NewCircuitBreaker n T) pre).failureThreshold = n := hthr
  have hT2 : (runCalls (NewCircuitBreaker n T) pre).resetTimeout = T := hT
  obtain ⟨hcT, hcR⟩ := Call_config (runCalls (NewCircuitBreaker n T) pre) e
  generalize runCalls (NewCircuitBreaker n T) pre = cb at *
  obtain ⟨h1, h2, h3, -, -⟩ := probe_fields cb
  have hkey : (cb.Call e).cb.state = "open" ∧ (cb.Call e).cb.lastFailureTime = e.failNow := by
    rw [Call_of_not_rejects cb e hpass] at hcount ⊢
    cases hfn : e.fn e.ctx with
    | none => rw [hfn] at hfail; exact absurd hfail (by decide)
    | some err =>
      rw [hfn] at hcount
      simp only at hcount ⊢
      rw [recordFailure_count, h1] at hcount
      exact recordFailure_open _ _ (by rw [h1, h2, hthr2]; exact hcount)
  have hall := runTrace_window win (cb.Call e).cb hkey.1
    (fun w hw => by rw [hkey.2, hcR, hT2]; have := hwin w hw; linarith)
  refine ⟨hkey.1, hkey.2, ?_, ?_⟩
  · intro r hr
    rw [hall r hr]
    exact ⟨rfl, rfl, hkey.1, rfl⟩
  · have hstay : ∀ (ws : List CallEvent) (c : CircuitBreaker), c.state = "open" →
        (∀ w ∈ ws, w.now - c.lastFailureTime ≤ c.resetTimeout) → runCalls c ws = c := by
      intro ws
      induction ws with
      | nil => intro c _ _; rfl
      | cons w ws ih =>
        intro c hc hw
        show runCalls (c.Call w).cb ws = c
        rw [Call_of_rejects c w ⟨hc, hw w (List.mem_cons_self _ _)⟩]
        exact ih c hc (fun x hx => hw x (List.mem_cons_of_mem _ hx))
    rw [hstay win (cb.Call e).cb hkey.1
      (fun w hw => by rw [hkey.2, hcR, hT2]; have := hwin w hw; linarith)]
    exact hkey.1

theorem C2_open_for_reset_timeout_witness :
    (((runCalls (NewCircuitBreaker 3 (5 * Second))
        [failingCall (1 * Second), passingCall (2 * Second), failingCall (3 * Second),
         failingCall (4 * Second)]).Call (failingCall (5 * Second))).cb.state = "open") ∧
    (∀ r ∈ runTrace ((runCalls (NewCircuitBreaker 3 (5 * Second))
        [failingCall (1 * Second), passingCall (2 * Second), failingCall (3 * Second),
         failingCall (4 * Second)]).Call (failingCall (5 * Second))).cb
        [passingCall (6 * Second), failingCall (8 * Second), passingCall (10 * Second)],
      r.err = some rejectionError ∧ r.invoked = []) :=
  have h := C2_open_for_reset_timeout 3 (5 * Second) (by decide)
    [failingCall (1 * Second), passingCall (2 * Second), failingCall (3 * Second),
     failingCall (4 * Second)]
    (failingCall (5 * Second))
    [passingCall (6 * Second), failingCall (8 * Second), passingCall (10 * Second)]
    (by decide) (by decide) (by decide) (by decide)
  ⟨h.1, fun r hr => ⟨(h.2.2.1 r hr).1, (h.2.2.1 r hr).2.1⟩⟩

/-- C5 fails as stated: on the tripped breaker (threshold 3, open since 3 s,
cooldown 5 s) two probes enter at 9 s, the first setting the state half-open;
the wrapped function of the second succeeds, which closes the breaker and
resets the counter; the wrapped function of the first fails at 11 s: the
counter goes to 1, below the threshold, the state stays closed and
lastFailureTime stays 3 s, so the failed probe has not re-opened the breaker. -/
theorem C5_counterexample :
    trippedBreaker.state = "open" ∧
    (9 * Second : Time) - trippedBreaker.lastFailureTime > trippedBreaker.resetTimeout ∧
    (runCallSteps trippedBreaker
        [CallStep.enter (failingCallAt (9 * Second) (11 * Second))]).state = "half-open" ∧
    (runCallSteps trippedBreaker
        [CallStep.enter (failingCallAt (9 * Second) (11 * Second)),
         CallStep.enter (passingCall (9 * Second)),
         CallStep.finish (passingCall (9 * Second)),
         CallStep.finish (failingCallAt (9 * Second) (11 * Second))]).state = "closed" ∧
    (runCallSteps trippedBreaker
        [CallStep.enter (failingCallAt (9 * Second) (11 * Second)),
         CallStep.enter (passingCall (9 * Second)),
         CallStep.finish (passingCall (9 * Second)),
         CallStep.finish (failingCallAt (9 * Second) (11 * Second))]).failureCount = 1 ∧
    (runCallSteps trippedBreaker
        [CallStep.enter (failingCallAt (9 * Second) (11 * Second)),
         CallStep.enter (passingCall (9 * Second)),
         CallStep.finish (passingCall (9 * Second)),
         CallStep.finish (failingCallAt (9 * Second) (11 * Second))]).lastFailureTime
      = 3 * Second := by
  decide

/-- C5, amended: in a breaker state reached from `NewCircuitBreaker(n, T)`,
`n >= 1`, by completed calls that do not overlap, that is open with the cooldown
elapsed (`now - lastFailureTime > resetTimeout`), a `Call` that no other call
overlaps invokes the wrapped function (a half-open probe); if it succeeds
failureCount becomes 0 and the state closed; if it fails the state is open after
the call and lastFailureTime is the instant of that failure. -/
theorem C5_half_open_probe (n : Int) (T : Duration) (hn : 1 ≤ n)
    (pre : List CallEvent) (e : CallEvent)
    (hopen : (runCalls (NewCircuitBreaker n T) pre).state = "open")
    (hcool : e.now - (runCalls (NewCircuitBreaker n T) pre).lastFailureTime
      > (runCalls (NewCircuitBreaker n T) pre).resetTimeout) :
    ((runCalls (NewCircuitBreaker n T) pre).Call e).invoked = [e.ctx] ∧
    (e.fn e.ctx = none →
      ((runCalls (NewCircuitBreaker n T) pre).Call e).cb.failureCount = 0 ∧
      ((runCalls (NewCircuitBreaker n T) pre).Call e).cb.state = "closed") ∧
    ((e.fn e.ctx).isSome →
      ((runCalls (NewCircuitBreaker n T) pre).Call e).cb.state = "open" ∧
      ((runCalls (NewCircuitBreaker n T) pre).Call e).cb.lastFailureTime = e.failNow) := by
  have _ := hn
  have hinv := runCalls_open_inv pre (NewCircuitBreaker n T)
    (fun h => absurd (show "closed" = "open" from h) (by decide)) hopen
  generalize runCalls (NewCircuitBreaker n T) pre = cb at *
  have hnr : ¬ cb.rejects e.now := fun h => absurd h.2 (not_le.mpr hcool)
  obtain ⟨h1, h2, -, -, -⟩ := probe_fields cb
  rw [Call_of_not_rejects cb e hnr]
  cases hfn : e.fn e.ctx with
  | none =>
    exact ⟨rfl, fun _ => ⟨rfl, rfl⟩, fun h => absurd h (by decide)⟩
  | some err =>
    refine ⟨rfl, fun h => absurd h (by simp), fun _ => ?_⟩
    exact recordFailure_open _ _ (by rw [h1, h2]; linarith)

theorem C5_half_open_probe_witness :
    (trippedBreaker.Call (passingCall (9 * Second))).invoked = [Context.background] ∧
    (trippedBreaker.Call (passingCall (9 * Second))).cb.failureCount = 0 ∧
    (trippedBreaker.Call (passingCall (9 * Second))).cb.state = "closed" ∧
    (trippedBreaker.Call (failingCall (9 * Second))).cb.state = "open" ∧
    (trippedBreaker.Call (failingCall (9 * Second))).cb.lastFailureTime = 9 * Second :=
  have hp := C5_half_open_probe 3 (5 * Second) (by decide)
    [failingCall (1 * Second), failingCall (2 * Second), failingCall (3 * Second)]
    (passingCall (9 * Second)) (by decide) (by decide)
  have hf := C5_half_open_probe 3 (5 * Second) (by decide)
    [failingCall (1 * Second), failingCall (2 * Second), failingCall (3 * Second)]
    (failingCall (9 * Second)) (by decide) (by decide)
  ⟨hp.1, (hp.2.1 rfl).1, (hp.2.1 rfl).2, (hf.2.2 (by decide)).1, (hf.2.2 (by decide)).2⟩

/-- C6: on a breaker fresh from `NewCircuitBreaker(n, T)`, `n >= 1`, each of `n`
consecutive failing calls is passed to the wrapped function; the breaker is
closed after fewer than `n` of them and open after the `n`-th, with
lastFailureTime the instant of the `n`-th failure; a following call within `T`
of that instant is rejected with the fail-fast error without invoking the
wrapped function, and a following call more than `T` after it invokes the
wrapped function. -/
theorem C6_threshold_scenario (n : Int) (T : Duration) (hn : 1 ≤ n)
    (calls : List CallEvent) (hlen : (calls.length : Int) = n)
    (hfails : ∀ e ∈ calls, (e.fn e.ctx).isSome) (next : CallEvent) :
    (runTrace (NewCircuitBreaker n T) calls).map CallResult.invoked
      = calls.map (fun e => [e.ctx]) ∧
    (∀ k, k < calls.length →
      (runCalls (NewCircuitBreaker n T) (calls.take k)).state = "closed") ∧
    (runCalls (NewCircuitBreaker n T) calls).state = "open" ∧
    (∃ last, calls.getLast? = some last ∧
      (runCalls (NewCircuitBreaker n T) calls).lastFailureTime = last.failNow ∧
      (next.now - last.failNow ≤ T →
        ((runCalls (NewCircuitBreaker n T) calls).Call next).err = some rejectionError ∧
        ((runCalls (NewCircuitBreaker n T) calls).Call next).invoked = []) ∧
      (next.now - last.failNow > T →
        ((runCalls (NewCircuitBreaker n T) calls).Call next).invoked = [next.ctx])) := by
  have hne : calls ≠ [] := by
    intro h
    rw [h] at hlen
    simp at hlen
    omega
  obtain ⟨init, last, hcalls⟩ : ∃ init last, calls = init ++ [last] :=
    ⟨calls.dropLast, calls.getLast hne, (List.dropLast_append_getLast hne).symm⟩
  subst hcalls
  have hlen2 : (init.length : Int) + 1 = n := by
    rw [← hlen]; simp
  have hfi : ∀ e ∈ init, (e.fn e.ctx).isSome :=
    fun e he => hfails e (List.mem_append_left _ he)
  have hfl : (last.fn last.ctx).isSome := hfails last (by simp)
  have hc0 : (NewCircuitBreaker n T).state = "closed" := rfl
  obtain ⟨hrun, htr⟩ := runCalls_fails_closed init (NewCircuitBreaker n T) hc0 hfi
    (by show (0 : Int) + init.length < n; omega)
  have hst : (runCalls (NewCircuitBreaker n T) init).state = "closed" := by rw [hrun]; rfl
  have hcnt : (runCalls (NewCircuitBreaker n T) init).failureCount = init.length := by
    rw [hrun]; show (0 : Int) + init.length = init.length; omega
  obtain ⟨hthr, hT⟩ := runCalls_config init (NewCircuitBreaker n T)
  have hthr2 : (runCalls (NewCircuitBreaker n T) init).failureThreshold = n := hthr
  obtain ⟨hl1, hl2⟩ := Call_fail_closed (runCalls (NewCircuitBreaker n T) init) last hst hfl
  obtain ⟨ho1, ho2⟩ := recordFailure_open (runCalls (NewCircuitBreaker n T) init) last.failNow
    (by rw [hthr2, hcnt]; omega)
  have hfin : runCalls (NewCircuitBreaker n T) (init ++ [last])
      = ((runCalls (NewCircuitBreaker n T) init).Call last).cb := by
    rw [runCalls_append]; rfl
  have hT2 : (runCalls (NewCircuitBreaker n T) (init ++ [last])).resetTimeout = T :=
    (runCalls_config (init ++ [last]) (NewCircuitBreaker n T)).2
  have hopen : (runCalls (NewCircuitBreaker n T) (init ++ [last])).state = "open" := by
    rw [hfin, hl1]; exact ho1
  have hlast : (runCalls (NewCircuitBreaker n T) (init ++ [last])).lastFailureTime
      = last.failNow := by
    rw [hfin, hl1]; exact ho2
  refine ⟨?_, ?_, hopen, last, by simp, hlast, ?_, ?_⟩
  · rw [runTrace_append, List.map_append, htr, List.map_append]
    show _ ++ [((runCalls (NewCircuitBreaker n T) init).Call last).invoked] = _
    rw [hl2]
    rfl
  · intro k hk
    have hk2 : k ≤ init.length := by
      simp at hk; omega
    rw [List.take_append_of_le_length hk2]
    have hlk : ((init.take k).length : Int) < n := by
      have : (init.take k).length ≤ k := List.length_take_le _ _
      omega
    have h := (runCalls_fails_closed (init.take k) (NewCircuitBreaker n T) hc0
      (fun e he => hfi e (List.mem_of_mem_take he))
      (by show (0 : Int) + (init.take k).length < n; omega)).1
    rw [h]
    rfl
  · intro hw
    have hrej : (runCalls (NewCircuitBreaker n T) (init ++ [last])).rejects next.now :=
      ⟨hopen, by rw [hlast, hT2]; exact hw⟩
    rw [Call_of_rejects _ _ hrej]
    exact ⟨rfl, rfl⟩
  · intro hw
    have hnr : ¬ (runCalls (NewCircuitBreaker n T) (init ++ [last])).rejects next.now := by
      intro h
      have h2 := h.2
      rw [hlast, hT2] at h2
      exact absurd h2 (not_le.mpr hw)
    rw [Call_of_not_rejects _ _ hnr]
    cases next.fn next.ctx <;> rfl

theorem C6_threshold_scenario_witness :
    (runCalls (NewCircuitBreaker 3 (5 * Second))
      [failingCall (1 * Second), failingCall (2 * Second), failingCall (3 * Second)]).state
      = "open" ∧
    (∃ last, [failingCall (1 * Second), failingCall (2 * Second),
        failingCall (3 * Second)].getLast? = some last ∧
      (runCalls (NewCircuitBreaker 3 (5 * Second))
        [failingCall (1 * Second), failingCall (2 * Second),
         failingCall (3 * Second)]).lastFailureTime = last.failNow ∧
      ((passingCall (8 * Second)).now - last.failNow ≤ 5 * Second →
        ((runCalls (NewCircuitBreaker 3 (5 * Second))
          [failingCall (1 * Second), failingCall (2 * Second),
           failingCall (3 * Second)]).Call (passingCall (8 * Second))).err
          = some rejectionError ∧
        ((runCalls (NewCircuitBreaker 3 (5 * Second))
          [failingCall (1 * Second), failingCall (2 * Second),
           failingCall (3 * Second)]).Call (passingCall (8 * Second))).invoked = []) ∧
      ((passingCall (8 * Second)).now - last.failNow > 5 * Second →
        ((runCalls (NewCircuitBreaker 3 (5 * Second))
          [failingCall (1 * Second), failingCall (2 * Second),
           failingCall (3 * Second)]).Call (passingCall (8 * Second))).invoked
          = [(passingCall (8 * Second)).ctx])) :=
  (C6_threshold_scenario 3 (5 * Second) (by decide)
    [failingCall (1 * Second), failingCall (2 * Second), failingCall (3 * Second)]
    (by decide) (by decide) (passingCall (8 * Second))).2.2

/-- Bookkeeping of the part of `Call` after the `switch`, with the counter as an
unbounded integer. -/
theorem execute_bookkeeping (cb : CircuitBreaker) (e : CallEvent) (hst : cb.state ≠ "open") :
    ((e.fn e.ctx).isSome →
      (cb.execute e).cb.failureCount = cb.failureCount + 1 ∧
      (cb.failureThreshold ≤ (cb.execute e).cb.failureCount →
        (cb.execute e).cb.state = "open" ∧ (cb.execute e).cb.lastFailureTime = e.failNow) ∧
      ((cb.execute e).cb.failureCount < cb.failureThreshold →
        (cb.execute e).cb.state ≠ "open" ∧
        (cb.execute e).cb.lastFailureTime = cb.lastFailureTime)) ∧
    (e.fn e.ctx = none →
      (cb.execute e).cb.failureCount = 0 ∧ (cb.execute e).cb.state = "closed") := by
  unfold CircuitBreaker.execute
  cases hfn : e.fn e.ctx with
  | none =>
    exact ⟨fun h => absurd h (by decide), fun _ => ⟨rfl, rfl⟩⟩
  | some err =>
    refine ⟨fun _ => ⟨?_, ?_, ?_⟩, fun h => absurd h (by simp)⟩
    · show (cb.recordFailure e.failNow).failureCount = _
      rw [recordFailure_count]
    · intro hge
      change cb.failureThreshold ≤ (cb.recordFailure e.failNow).failureCount at hge
      rw [recordFailure_count] at hge
      exact recordFailure_open _ _ hge
    · intro hlt
      change (cb.recordFailure e.failNow).failureCount < cb.failureThreshold at hlt
      rw [recordFailure_count] at hlt
      have hb := recordFailure_below cb e.failNow hlt
      show (cb.recordFailure e.failNow).state ≠ "open" ∧
        (cb.recordFailure e.failNow).lastFailureTime = cb.lastFailureTime
      rw [hb]
      exact ⟨hst, rfl⟩

/-- Bookkeeping of the recording of an outcome in any state of the breaker, with
the counter as an unbounded integer: below the threshold a failure leaves the
state as it was. -/
theorem execute_bookkeeping_any (cb : CircuitBreaker) (e : CallEvent) :
    ((e.fn e.ctx).isSome →
      (cb.execute e).cb.failureCount = cb.failureCount + 1 ∧
      (cb.failureThreshold ≤ (cb.execute e).cb.failureCount →
        (cb.execute e).cb.state = "open" ∧ (cb.execute e).cb.lastFailureTime = e.failNow) ∧
      ((cb.execute e).cb.failureCount < cb.failureThreshold →
        (cb.execute e).cb.state = cb.state ∧
        (cb.execute e).cb.lastFailureTime = cb.lastFailureTime)) ∧
    (e.fn e.ctx = none →
      (cb.execute e).cb.failureCount = 0 ∧ (cb.execute e).cb.state = "closed") := by
  unfold CircuitBreaker.execute
  cases hfn : e.fn e.ctx with
  | none =>
    exact ⟨fun h => absurd h (by decide), fun _ => ⟨rfl, rfl⟩⟩
  | some err =>
    refine ⟨fun _ => ⟨?_, ?_, ?_⟩, fun h => absurd h (by simp)⟩
    · show (cb.recordFailure e.failNow).failureCount = _
      rw [recordFailure_count]
    · intro hge
      change cb.failureThreshold ≤ (cb.recordFailure e.failNow).failureCount at hge
      rw [recordFailure_count] at hge
      exact recordFailure_open _ _ hge
    · intro hlt
      change (cb.recordFailure e.failNow).failureCount < cb.failureThreshold at hlt
      rw [recordFailure_count] at hlt
      have hb := recordFailure_below cb e.failNow hlt
      show (cb.recordFailure e.failNow).state = cb.state ∧
        (cb.recordFailure e.failNow).lastFailureTime = cb.lastFailureTime
      rw [hb]
      exact ⟨rfl, rfl⟩

/-- Below the largest `int` the wrapping counter is the unbounded one. -/
theorem recordFailure64_eq (cb : CircuitBreaker) (t : Time)
    (hlo : minInt64 ≤ cb.failureCount) (hhi : cb.failureCount < maxInt64) :
    cb.recordFailure64 t = cb.recordFailure t := by
  have hw : wrapInt64 (cb.failureCount + 1) = cb.failureCount + 1 := by
    unfold wrapInt64
    unfold minInt64 at hlo
    unfold maxInt64 at hhi
    omega
  unfold CircuitBreaker.recordFailure64 CircuitBreaker.recordFailure
  simp only [hw]

theorem execute64_eq (cb : CircuitBreaker) (e : CallEvent)
    (hlo : minInt64 ≤ cb.failureCount) (hhi : cb.failureCount < maxInt64) :
    cb.execute64 e = cb.execute e := by
  unfold CircuitBreaker.execute64 CircuitBreaker.execute
  rw [recordFailure64_eq cb e.failNow hlo hhi]

theorem Call64_of_not_rejects (cb : CircuitBreaker) (e : CallEvent)
    (h : ¬ cb.rejects64 e.now) :
    cb.Call64 e = (if cb.state = "open" then cb.setState "half-open" else cb).execute64 e := by
  unfold CircuitBreaker.Call64
  by_cases h1 : cb.state = "open"
  · have h3 : sinceSat e.now cb.lastFailureTime > cb.resetTimeout := by
      by_contra hc
      exact h ⟨h1, not_lt.mp hc⟩
    simp only [h1, h3, if_true]
  · simp only [h1, if_false]

/-- C7 fails as stated: on a closed breaker whose counter holds the largest
`int`, a call that is not rejected and whose wrapped function fails leaves the
counter at the smallest `int`, not one higher, and the breaker closed. -/
theorem C7_counterexample :
    ¬ saturatedBreaker.rejects64 (failingCall (1 * Second)).now ∧
    ((failingCall (1 * Second)).fn (failingCall (1 * Second)).ctx).isSome ∧
    (saturatedBreaker.Call64 (failingCall (1 * Second))).cb.failureCount = minInt64 ∧
    (saturatedBreaker.Call64 (failingCall (1 * Second))).cb.failureCount
      ≠ saturatedBreaker.failureCount + 1 ∧
    (saturatedBreaker.Call64 (failingCall (1 * Second))).cb.state = "closed" := by
  decide

/-- C7, amended: for every breaker state whose failureCount is an `int` below
the largest one and every call that is not rejected: if the wrapped function
fails, failureCount grows by exactly 1, and when the new count has reached
failureThreshold the state becomes open and lastFailureTime the current time,
while below the threshold the state is not open and lastFailureTime is
unchanged; if the wrapped function succeeds, failureCount becomes 0 and the
state closed, whatever it was.  The outcome is recorded under the lock after
the wrapped function has run without it: in whatever state other calls have
left the breaker by then (failureCount an `int` below the largest one), the
same holds relative to that state, a failure below the threshold leaving the
state as it was. -/
theorem C7_bookkeeping (cb : CircuitBreaker) (e : CallEvent)
    (hlo : minInt64 ≤ cb.failureCount) (hhi : cb.failureCount < maxInt64)
    (hpass : ¬ cb.rejects64 e.now) :
    ((e.fn e.ctx).isSome →
      (cb.Call64 e).cb.failureCount = cb.failureCount + 1 ∧
      (cb.failureThreshold ≤ (cb.Call64 e).cb.failureCount →
        (cb.Call64 e).cb.state = "open" ∧ (cb.Call64 e).cb.lastFailureTime = e.failNow) ∧
      ((cb.Call64 e).cb.failureCount < cb.failureThreshold →
        (cb.Call64 e).cb.state ≠ "open" ∧
        (cb.Call64 e).cb.lastFailureTime = cb.lastFailureTime)) ∧
    (e.fn e.ctx = none →
      (cb.Call64 e).cb.failureCount = 0 ∧ (cb.Call64 e).cb.state = "closed") ∧
    (∀ cb2 : CircuitBreaker, minInt64 ≤ cb2.failureCount → cb2.failureCount < maxInt64 →
      ((e.fn e.ctx).isSome →
        (cb2.execute64 e).cb.failureCount = cb2.failureCount + 1 ∧
        (cb2.failureThreshold ≤ (cb2.execute64 e).cb.failureCount →
          (cb2.execute64 e).cb.state = "open" ∧
          (cb2.execute64 e).cb.lastFailureTime = e.failNow) ∧
        ((cb2.execute64 e).cb.failureCount < cb2.failureThreshold →
          (cb2.execute64 e).cb.state = cb2.state ∧
          (cb2.execute64 e).cb.lastFailureTime = cb2.lastFailureTime)) ∧
      (e.fn e.ctx = none →
        (cb2.execute64 e).cb.failureCount = 0 ∧ (cb2.execute64 e).cb.state = "closed")) := by
  obtain ⟨h1, h2, -, h4, h5⟩ := probe_fields cb
  have h := execute_bookkeeping
    (if cb.state = "open" then cb.setState "half-open" else cb) e h5
  rw [h1, h2, h4] at h
  refine ⟨?_, ?_, fun cb2 hlo2 hhi2 => ?_⟩
  · rw [Call64_of_not_rejects cb e hpass,
      execute64_eq _ e (by rw [h1]; exact hlo) (by rw [h1]; exact hhi)]
    exact h.1
  · rw [Call64_of_not_rejects cb e hpass,
      execute64_eq _ e (by rw [h1]; exact hlo) (by rw [h1]; exact hhi)]
    exact h.2
  · rw [execute64_eq cb2 e hlo2 hhi2]
    exact execute_bookkeeping_any cb2 e

theorem C7_bookkeeping_witness :
    ((NewCircuitBreaker 3 (5 * Second)).Call64 (failingCall (1 * Second))).cb.failureCount
      = (NewCircuitBreaker 3 (5 * Second)).failureCount + 1 ∧
    ((NewCircuitBreaker 3 (5 * Second)).Call64 (failingCall (1 * Second))).cb.state
      ≠ "open" ∧
    ((NewCircuitBreaker 3 (5 * Second)).Call64 (failingCall (1 * Second))).cb.lastFailureTime
      = (NewCircuitBreaker 3 (5 * Second)).lastFailureTime ∧
    (trippedBreaker.Call64 (failingCall (9 * Second))).cb.failureCount = 4 ∧
    (trippedBreaker.Call64 (failingCall (9 * Second))).cb.state = "open" ∧
    (trippedBreaker.Call64 (failingCall (9 * Second))).cb.lastFailureTime = 9 * Second :=
  have h := (C7_bookkeeping (NewCircuitBreaker 3 (5 * Second)) (failingCall (1 * Second))
    (by decide) (by decide) (by decide)).1 (by decide)
  have h2 := (C7_bookkeeping trippedBreaker (failingCall (9 * Second))
    (by decide) (by decide) (by decide)).1 (by decide)
  ⟨h.1, (h.2.2 (by decide)).1, (h.2.2 (by decide)).2, h2.1.trans (by decide),
   (h2.2.1 (by decide)).1, (h2.2.1 (by decide)).2⟩

/-- C8: for every call that is not rejected, the wrapped function is invoked
exactly once, with the context of the caller, and `Call` returns exactly what
it returned: `nil` for `nil`, the same error for an error. -/
theorem C8_single_invocation (cb : CircuitBreaker) (e : CallEvent)
    (hpass : ¬ cb.rejects e.now) :
    (cb.Call e).invoked = [e.ctx] ∧ (cb.Call e).err = e.fn e.ctx := by
  rw [Call_of_not_rejects cb e hpass]
  cases e.fn e.ctx <;> exact ⟨rfl, rfl⟩

theorem C8_single_invocation_witness :
    ¬ trippedBreaker.rejects (failingCall (9 * Second)).now ∧
    (trippedBreaker.Call (failingCall (9 * Second))).invoked = [Context.background] ∧
    (trippedBreaker.Call (failingCall (9 * Second))).err
      = some (GoError.errorString "external API failure") :=
  ⟨by decide, C8_single_invocation trippedBreaker (failingCall (9 * Second)) (by decide)⟩

/-- C9 fails as stated: the call rejected by the tripped breaker and the call
passed by a fresh breaker to a wrapped function that fails with an error of the
same text return the same error, although the wrapped function was invoked in
the second one only. -/
theorem C9_counterexample :
    (trippedBreaker.Call (mimicCall (4 * Second))).err
      = ((NewCircuitBreaker 3 (5 * Second)).Call (mimicCall (4 * Second))).err ∧
    (trippedBreaker.Call (mimicCall (4 * Second))).invoked = [] ∧
    ((NewCircuitBreaker 3 (5 * Second)).Call (mimicCall (4 * Second))).invoked
      = [Context.background] := by
  decide

/-- C9, amended: the rejection is reported by an error that carries nothing but
its fixed text; when the wrapped function does not return an error equal to it,
`Call` returns the rejection error exactly when the wrapped function was not
invoked. -/
theorem C9_rejection_distinguishable (cb : CircuitBreaker) (e : CallEvent)
    (hfn : e.fn e.ctx ≠ some rejectionError) :
    ((cb.Call e).err = some rejectionError ↔ (cb.Call e).invoked = []) := by
  by_cases hr : cb.rejects e.now
  · rw [Call_of_rejects cb e hr]
    exact ⟨fun _ => rfl, fun _ => rfl⟩
  · obtain ⟨h1, h2⟩ := Call_passes cb e hr
    rw [h1, h2]
    exact ⟨fun h => absurd h hfn, fun h => absurd h (by simp)⟩

theorem C9_rejection_distinguishable_witness :
    (failingCall (4 * Second)).fn (failingCall (4 * Second)).ctx ≠ some rejectionError ∧
    ((trippedBreaker.Call (failingCall (4 * Second))).err = some rejectionError ↔
      (trippedBreaker.Call (failingCall (4 * Second))).invoked = []) :=
  ⟨by decide, C9_rejection_distinguishable trippedBreaker (failingCall (4 * Second))
    (by decide)⟩

theorem consecutiveFailures_concat (evs : List CallEvent) (e : CallEvent) :
    consecutiveFailures (evs ++ [e])
      = if (e.fn e.ctx).isSome then consecutiveFailures evs + 1 else 0 := by
  unfold consecutiveFailures
  rw [List.reverse_concat, List.takeWhile_cons]
  by_cases h : (e.fn e.ctx).isSome
  · simp only [h, if_true, List.length_cons]
  · simp only [h, Bool.false_eq_true, if_false, List.length_nil]

/-- One completed call keeps the invariant of the breaker; `k` counts the
consecutive failures before the call. -/
theorem Call_keeps_invariant (cb : CircuitBreaker) (e : CallEvent) (k : Nat)
    (hthr : 1 ≤ cb.failureThreshold)
    (hst : cb.state = "closed" ∨ cb.state = "open")
    (hcl : cb.state = "closed" → cb.failureCount < cb.failureThreshold ∧ cb.failureCount = k)
    (hop : cb.state = "open" → cb.failureThreshold ≤ cb.failureCount) :
    ((cb.Call e).cb.state = "closed" ∨ (cb.Call e).cb.state = "open") ∧
    ((cb.Call e).cb.state = "closed" →
      (cb.Call e).cb.failureCount < (cb.Call e).cb.failureThreshold ∧
      (cb.Call e).cb.failureCount
        = ((if (e.fn e.ctx).isSome then k + 1 else 0 : Nat) : Int)) ∧
    ((cb.Call e).cb.state = "open" →
      (cb.Call e).cb.failureThreshold ≤ (cb.Call e).cb.failureCount) := by
  have hne : ¬ ("open" = "closed") := by decide
  by_cases hr : cb.rejects e.now
  · rw [Call_of_rejects cb e hr]
    have hopen : cb.state = "open" := hr.1
    refine ⟨hst, fun h => ?_, hop⟩
    exact absurd (hopen.symm.trans h) hne
  · obtain ⟨h1, h2, -, -, -⟩ := probe_fields cb
    have hcall := Call_of_not_rejects cb e hr
    cases hfn : e.fn e.ctx with
    | none =>
      rw [hfn] at hcall
      have hcb : (cb.Call e).cb
          = (if cb.state = "open" then cb.setState "half-open" else cb).recordSuccess := by
        rw [hcall]
      rw [hcb]
      refine ⟨Or.inl rfl, fun _ => ⟨?_, rfl⟩,
        fun h => absurd (show "closed" = "open" from h) (by decide)⟩
      show (0 : Int) < (if cb.state = "open" then cb.setState "half-open" else cb).failureThreshold
      rw [h2]
      omega
    | some err =>
      rw [hfn] at hcall
      have hcb : (cb.Call e).cb
          = (if cb.state = "open" then cb.setState "half-open" else cb).recordFailure
              e.failNow := by
        rw [hcall]
      rw [hcb]
      simp only [Option.isSome_some, if_true]
      rw [recordFailure_eq]
      by_cases hge : (if cb.state = "open" then cb.setState "half-open" else cb).failureThreshold
          ≤ (if cb.state = "open" then cb.setState "half-open" else cb).failureCount + 1
      · rw [if_pos hge]
        exact ⟨Or.inr rfl, fun h => absurd (show "open" = "closed" from h) hne, fun _ => hge⟩
      · rw [if_neg hge]
        rw [h1, h2] at hge
        have hclosed : cb.state = "closed" := by
          rcases hst with h | h
          · exact h
          · have := hop h
            omega
        have hnopen : ¬ cb.state = "open" := by rw [hclosed]; decide
        obtain ⟨hlt, hk⟩ := hcl hclosed
        have hcb1 : (if cb.state = "open" then cb.setState "half-open" else cb) = cb :=
          if_neg hnopen
        rw [hcb1]
        refine ⟨Or.inl hclosed, fun _ => ⟨?_, ?_⟩,
          fun h => absurd (show cb.state = "open" from h) hnopen⟩
        · show cb.failureCount + 1 < cb.failureThreshold
          omega
        · show cb.failureCount + 1 = ((k + 1 : Nat) : Int)
          rw [hk]
          push_cast
          rfl

/-- C19: in every state reached from `NewCircuitBreaker(n, T)`, `n >= 1`, by
completed calls run one after the other, the state is closed or open (not
half-open), failureCount is not negative, a closed breaker has failureCount
below failureThreshold and equal to the number of consecutive failed calls
since the last success or the construction, and an open breaker has
failureCount at least failureThreshold. -/
theorem C19_breaker_invariant (n : Int) (T : Duration) (hn : 1 ≤ n) (evs : List CallEvent) :
    ((runCalls (NewCircuitBreaker n T) evs).state = "closed" ∨
      (runCalls (NewCircuitBreaker n T) evs).state = "open") ∧
    0 ≤ (runCalls (NewCircuitBreaker n T) evs).failureCount ∧
    ((runCalls (NewCircuitBreaker n T) evs).state = "closed" →
      (runCalls (NewCircuitBreaker n T) evs).failureCount
        < (runCalls (NewCircuitBreaker n T) evs).failureThreshold ∧
      (runCalls (NewCircuitBreaker n T) evs).failureCount = consecutiveFailures evs) ∧
    ((runCalls (NewCircuitBreaker n T) evs).state = "open" →
      (runCalls (NewCircuitBreaker n T) evs).failureThreshold
        ≤ (runCalls (NewCircuitBreaker n T) evs).failureCount) := by
  have hne : ¬ ("closed" = "open") := by decide
  have hmain : ((runCalls (NewCircuitBreaker n T) evs).state = "closed" ∨
      (runCalls (NewCircuitBreaker n T) evs).state = "open") ∧
    ((runCalls (NewCircuitBreaker n T) evs).state = "closed" →
      (runCalls (NewCircuitBreaker n T) evs).failureCount
        < (runCalls (NewCircuitBreaker n T) evs).failureThreshold ∧
      (runCalls (NewCircuitBreaker n T) evs).failureCount = consecutiveFailures evs) ∧
    ((runCalls (NewCircuitBreaker n T) evs).state = "open" →
      (runCalls (NewCircuitBreaker n T) evs).failureThreshold
        ≤ (runCalls (NewCircuitBreaker n T) evs).failureCount) := by
    induction evs using List.reverseRecOn with
    | nil =>
      refine ⟨Or.inl rfl, fun _ => ⟨?_, rfl⟩, fun h => absurd h hne⟩
      show (0 : Int) < n
      omega
    | append_singleton xs x ih =>
      have hthr : (runCalls (NewCircuitBreaker n T) xs).failureThreshold = n :=
        (runCalls_config xs (NewCircuitBreaker n T)).1
      have hstep : runCalls (NewCircuitBreaker n T) (xs ++ [x])
          = ((runCalls (NewCircuitBreaker n T) xs).Call x).cb := by
        rw [runCalls_append]; rfl
      rw [hstep, consecutiveFailures_concat]
      exact Call_keeps_invariant (runCalls (NewCircuitBreaker n T) xs) x
        (consecutiveFailures xs) (by rw [hthr]; exact hn) ih.1 ih.2.1 ih.2.2
  have hthr : (runCalls (NewCircuitBreaker n T) evs).failureThreshold = n :=
    (runCalls_config evs (NewCircuitBreaker n T)).1
  refine ⟨hmain.1, ?_, hmain.2.1, hmain.2.2⟩
  rcases hmain.1 with h | h
  · rw [(hmain.2.1 h).2]
    exact Int.natCast_nonneg _
  · have := hmain.2.2 h
    rw [hthr] at this
    omega

theorem C19_breaker_invariant_witness :
    (runCalls (NewCircuitBreaker 3 (5 * Second))
      [failingCall (1 * Second), passingCall (2 * Second), failingCall (3 * Second),
       failingCall (4 * Second)]).state = "closed" ∧
    (runCalls (NewCircuitBreaker 3 (5 * Second))
      [failingCall (1 * Second), passingCall (2 * Second), failingCall (3 * Second),
       failingCall (4 * Second)]).failureCount = 2 ∧
    consecutiveFailures
      [failingCall (1 * Second), passingCall (2 * Second), failingCall (3 * Second),
       failingCall (4 * Second)] = 2 ∧
    (trippedBreaker.state = "open" →
      trippedBreaker.failureThreshold ≤ trippedBreaker.failureCount) :=
  have h := C19_breaker_invariant 3 (5 * Second) (by decide)
    [failingCall (1 * Second), passingCall (2 * Second), failingCall (3 * Second),
     failingCall (4 * Second)]
  have h2 := C19_breaker_invariant 3 (5 * Second) (by decide)
    [failingCall (1 * Second), failingCall (2 * Second), failingCall (3 * Second)]
  ⟨by decide, by decide, by decide, h2.2.2.2⟩

end CircuitBreakerClaims

/-! ## Token cache: theorems -/

section TokenCacheLemmas

theorem find_eq_entriesOf (c : TokenCache) (token : String) :
    c.find token = ((c.entriesOf token).head?).map Prod.snd := by
  unfold TokenCache.find TokenCache.entriesOf
  rw [List.filter_head?]

theorem entriesOf_set_same (c : TokenCache) (token userID : String) (ttl : Duration)
    (now : Time) :
    (c.set token userID ttl now).entriesOf token
      = [(token, { UserId := userID, ExpiresAt := now + ttl })] := by
  unfold TokenCache.entriesOf TokenCache.set
  simp [List.filter_cons, List.filter_filter, List.filter_eq_nil_iff]

theorem entriesOf_set_other (c : TokenCache) (token token2 userID : String) (ttl : Duration)
    (now : Time) (h : token2 ≠ token) :
    (c.set token2 userID ttl now).entriesOf token = c.entriesOf token := by
  unfold TokenCache.entriesOf TokenCache.set
  simp only [List.filter_cons, h, decide_False, Bool.false_eq_true, if_false,
    List.filter_filter]
  apply List.filter_congr
  intro p _
  by_cases hp : p.1 = token
  · have h3 : ¬ token = token2 := fun h2 => h h2.symm
    simp [hp, h3]
  · simp [hp]

theorem entriesOf_cleanupPass (c : TokenCache) (token : String) (clock : String → Time) :
    (c.cleanupPass clock).entriesOf token
      = (c.entriesOf token).filter (fun p => ¬ (clock p.1 > p.2.ExpiresAt)) := by
  unfold TokenCache.entriesOf TokenCache.cleanupPass
  simp only [List.filter_filter]
  apply List.filter_congr
  intro p _
  exact Bool.and_comm _ _

theorem Get_of_entriesOf_nil (c : TokenCache) (token : String) (now : Time)
    (h : c.entriesOf token = []) : c.Get token now = ("", false) := by
  unfold TokenCache.Get
  rw [find_eq_entriesOf, h]
  rfl

theorem Get_of_entriesOf_single (c : TokenCache) (token k : String) (td : TokenData)
    (now : Time) (h : c.entriesOf token = [(k, td)]) :
    c.Get token now = if now > td.ExpiresAt then ("", false) else (td.UserId, true) := by
  unfold TokenCache.Get
  rw [find_eq_entriesOf, h]
  rfl

/-- Operations that do not store `token` keep its entry, unless a cleanup pass
removes it, and then it had expired by the reading of that pass. -/
theorem entriesOf_applyAll (ops : List CacheOp) (c : TokenCache) (token : String)
    (td : TokenData) (now : Time)
    (hq : ∀ op ∈ ops, op.quietFor token now)
    (h : c.entriesOf token = [(token, td)] ∨ (c.entriesOf token = [] ∧ td.ExpiresAt < now)) :
    (c.applyAll ops).entriesOf token = [(token, td)] ∨
      ((c.applyAll ops).entriesOf token = [] ∧ td.ExpiresAt < now) := by
  induction ops generalizing c with
  | nil => exact h
  | cons op ops ih =>
    apply ih (c.apply op) (fun o ho => hq o (List.mem_cons_of_mem _ ho))
    have hop := hq op (List.mem_cons_self _ _)
    cases op with
    | set token2 userID ttl t =>
      have hrw : c.apply (CacheOp.set token2 userID ttl t) = c.set token2 userID ttl t := rfl
      rw [hrw, entriesOf_set_other c token token2 userID ttl t hop]
      exact h
    | cleanup clock =>
      have hrw : c.apply (CacheOp.cleanup clock) = c.cleanupPass clock := rfl
      rw [hrw, entriesOf_cleanupPass]
      have hclock : ∀ k, clock k ≤ now := hop
      rcases h with h | ⟨h, hexp⟩
      · rw [h]
        by_cases hx : clock token > td.ExpiresAt
        · right
          refine ⟨?_, lt_of_lt_of_le hx (hclock token)⟩
          rw [List.filter_cons_of_neg (by simpa using hx)]
          rfl
        · left
          rw [List.filter_cons_of_pos (by simpa using hx)]
          rfl
      · right
        rw [h]
        exact ⟨rfl, hexp⟩

theorem entriesOf_applyAll_nil (ops : List CacheOp) (c : TokenCache) (token : String)
    (hq : ∀ op ∈ ops, op.notSetOf token) (h : c.entriesOf token = []) :
    (c.applyAll ops).entriesOf token = [] := by
  induction ops generalizing c with
  | nil => exact h
  | cons op ops ih =>
    apply ih (c.apply op) (fun o ho => hq o (List.mem_cons_of_mem _ ho))
    have hop := hq op (List.mem_cons_self _ _)
    cases op with
    | set token2 userID ttl t =>
      show (c.set token2 userID ttl t).entriesOf token = _
      rw [entriesOf_set_other c token token2 userID ttl t hop]
      exact h
    | cleanup clock =>
      show (c.cleanupPass clock).entriesOf token = _
      rw [entriesOf_cleanupPass, h]
      rfl

/-- The empty cache is a map, and `set` and cleanup passes keep it one. -/
theorem WF_NewTokenCache : NewTokenCache.WF := List.nodup_nil

theorem WF_set (c : TokenCache) (hwf : c.WF) (token userID : String) (ttl : Duration)
    (now : Time) : (c.set token userID ttl now).WF := by
  unfold TokenCache.WF TokenCache.set
  rw [List.map_cons, List.nodup_cons]
  constructor
  · intro hmem
    obtain ⟨p, hp, hpt⟩ := List.mem_map.mp hmem
    have hne := (List.mem_filter.mp hp).2
    simp only [ne_eq, decide_not, Bool.not_eq_eq_eq_not, Bool.not_true,
      decide_eq_false_iff_not] at hne
    exact hne hpt
  · exact List.Nodup.sublist (List.Sublist.map _ (List.filter_sublist _)) hwf

theorem WF_cleanupPass (c : TokenCache) (hwf : c.WF) (clock : String → Time) :
    (c.cleanupPass clock).WF := by
  unfold TokenCache.WF TokenCache.cleanupPass
  exact List.Nodup.sublist (List.Sublist.map _ (List.filter_sublist _)) hwf

theorem WF_applyAll (ops : List CacheOp) (c : TokenCache) (hwf : c.WF) :
    (c.applyAll ops).WF := by
  induction ops generalizing c with
  | nil => exact hwf
  | cons op ops ih =>
    apply ih
    cases op with
    | set token userID ttl now => exact WF_set c hwf token userID ttl now
    | cleanup clock => exact WF_cleanupPass c hwf clock

/-- In a map, at most one entry is stored under a token. -/
theorem entriesOf_of_WF (c : TokenCache) (hwf : c.WF) (token : String) :
    c.entriesOf token = [] ∨ ∃ td, c.entriesOf token = [(token, td)] := by
  obtain ⟨l⟩ := c
  unfold TokenCache.WF at hwf
  unfold TokenCache.entriesOf
  simp only at hwf ⊢
  induction l with
  | nil => exact Or.inl rfl
  | cons x xs ih =>
    rw [List.map_cons, List.nodup_cons] at hwf
    by_cases hx : x.1 = token
    · right
      refine ⟨x.2, ?_⟩
      rw [List.filter_cons_of_pos (by simpa using hx)]
      have hnil : xs.filter (fun p => decide (p.1 = token)) = [] := by
        rw [List.filter_eq_nil_iff]
        intro p hp hpt
        apply hwf.1
        rw [hx]
        have : p.1 = token := by simpa using hpt
        rw [← this]
        exact List.mem_map_of_mem _ hp
      rw [hnil, ← hx]
    · rw [List.filter_cons_of_neg (by simpa using hx)]
      exact ih hwf.2

/-- A cleanup pass whose clock readings are at most `now` does not change what
`Get` returns at `now`. -/
theorem Get_cleanupPass (c : TokenCache) (hwf : c.WF) (token : String)
    (clock : String → Time) (now : Time) (hclock : ∀ k, clock k ≤ now) :
    (c.cleanupPass clock).Get token now = c.Get token now := by
  have hcl := entriesOf_cleanupPass c token clock
  rcases entriesOf_of_WF c hwf token with h | ⟨td, h⟩
  · rw [h] at hcl
    rw [Get_of_entriesOf_nil c token now h, Get_of_entriesOf_nil _ token now hcl]
  · rw [h] at hcl
    rw [Get_of_entriesOf_single c token token td now h]
    by_cases hx : clock token > td.ExpiresAt
    · rw [List.filter_cons_of_neg (by simpa using hx)] at hcl
      rw [Get_of_entriesOf_nil _ token now hcl,
        if_pos (lt_of_lt_of_le hx (hclock token))]
    · rw [List.filter_cons_of_pos (by simpa using hx)] at hcl
      rw [Get_of_entriesOf_single _ token token td now hcl]

end TokenCacheLemmas

section TokenCacheClaims

/-- C4 fails as stated: a token stored at instant 0 with a ttl of 5 s is still
found at instant 5 s, that is at `now = expiresAt`. -/
theorem C4_counterexample :
    (5 * Second : Time) ≥ 0 + 5 * Second ∧
    (NewTokenCache.set "T" "user-1" (5 * Second) 0).Get "T" (5 * Second)
      = ("user-1", true) := by
  decide

/-- C4, amended: after `set(token, owner, ttl)` at instant `t` (so that
`expiresAt = t + ttl`), followed by any operations that do not store the same
token again (other `set`s, and cleanup passes read no later than `now`),
`Get(token)` at `now` returns `(owner, true)` whenever `now <= expiresAt` and
`("", false)` whenever `now > expiresAt`, and then also at every later time;
`Get` of a token that was never stored returns `("", false)`. -/
theorem C4_get_after_set (c : TokenCache) (token owner : String) (ttl : Duration)
    (t : Time) (ops : List CacheOp) (now : Time)
    (hq : ∀ op ∈ ops, op.quietFor token now) :
    (now ≤ t + ttl →
      ((c.set token owner ttl t).applyAll ops).Get token now = (owner, true)) ∧
    (t + ttl < now →
      ∀ later, now ≤ later →
        ((c.set token owner ttl t).applyAll ops).Get token later = ("", false)) ∧
    (∀ ops2 : List CacheOp, (∀ op ∈ ops2, op.notSetOf token) →
      (NewTokenCache.applyAll ops2).Get token now = ("", false)) := by
  have h0 := entriesOf_set_same c token owner ttl t
  refine ⟨?_, ?_, ?_⟩
  · intro hle
    rcases entriesOf_applyAll ops (c.set token owner ttl t) token
        { UserId := owner, ExpiresAt := t + ttl } now hq (Or.inl h0) with h | ⟨-, h⟩
    · rw [Get_of_entriesOf_single _ token token _ now h]
      exact if_neg (not_lt.mpr hle)
    · exact absurd h (not_lt.mpr hle)
  · intro hlt later hlater
    have hq2 : ∀ op ∈ ops, op.quietFor token later := by
      intro op hop
      have h := hq op hop
      cases op with
      | set token2 userID ttl2 t2 => exact h
      | cleanup clock => exact fun k => le_trans (h k) hlater
    rcases entriesOf_applyAll ops (c.set token owner ttl t) token
        { UserId := owner, ExpiresAt := t + ttl } later hq2 (Or.inl h0) with h | ⟨h, -⟩
    · rw [Get_of_entriesOf_single _ token token _ later h]
      exact if_pos (lt_of_lt_of_le hlt hlater)
    · exact Get_of_entriesOf_nil _ token later h
  · intro ops2 hq2
    exact Get_of_entriesOf_nil _ token now
      (entriesOf_applyAll_nil ops2 NewTokenCache token hq2 rfl)

theorem C4_get_after_set_witness :
    (((sampleCache.set "T" "user-1" (5 * Second) 0).applyAll
        [CacheOp.set "U" "user-2" (5 * Second) (1 * Second),
         CacheOp.cleanup (fun _ => 2 * Second)]).Get "T" (4 * Second) = ("user-1", true)) ∧
    (((sampleCache.set "T" "user-1" (5 * Second) 0).applyAll
        [CacheOp.set "U" "user-2" (5 * Second) (1 * Second),
         CacheOp.cleanup (fun _ => 2 * Second)]).Get "T" (5 * Second) = ("user-1", true)) ∧
    (((sampleCache.set "T" "user-1" (5 * Second) 0).applyAll
        [CacheOp.set "U" "user-2" (5 * Second) (1 * Second),
         CacheOp.cleanup (fun _ => 6 * Second)]).Get "T" (7 * Second) = ("", false)) :=
  have hq : ∀ (s : Time), s ≤ 6 * Second →
      ∀ op ∈ [CacheOp.set "U" "user-2" (5 * Second) (1 * Second),
        CacheOp.cleanup (fun _ => s)], op.quietFor "T" (6 * Second) := by
    intro s hs op hop
    simp only [List.mem_cons, List.mem_singleton, List.not_mem_nil, or_false] at hop
    rcases hop with rfl | rfl
    · show "U" ≠ "T"
      decide
    · exact fun _ => hs
  have hq4 : ∀ op ∈ [CacheOp.set "U" "user-2" (5 * Second) (1 * Second),
      CacheOp.cleanup (fun _ => 2 * Second)], op.quietFor "T" (4 * Second) := by
    intro op hop
    simp only [List.mem_cons, List.mem_singleton, List.not_mem_nil, or_false] at hop
    rcases hop with rfl | rfl
    · show "U" ≠ "T"
      decide
    · exact fun _ => (by decide : (2 * Second : Time) ≤ 4 * Second)
  have hq5 : ∀ op ∈ [CacheOp.set "U" "user-2" (5 * Second) (1 * Second),
      CacheOp.cleanup (fun _ => 2 * Second)], op.quietFor "T" (5 * Second) := by
    intro op hop
    simp only [List.mem_cons, List.mem_singleton, List.not_mem_nil, or_false] at hop
    rcases hop with rfl | rfl
    · show "U" ≠ "T"
      decide
    · exact fun _ => (by decide : (2 * Second : Time) ≤ 5 * Second)
  ⟨(C4_get_after_set sampleCache "T" "user-1" (5 * Second) 0 _ (4 * Second) hq4).1
      (by decide),
   (C4_get_after_set sampleCache "T" "user-1" (5 * Second) 0 _ (5 * Second) hq5).1
      (by decide),
   (C4_get_after_set sampleCache "T" "user-1" (5 * Second) 0 _ (6 * Second)
      (hq (6 * Second) (le_refl _))).2.1 (by decide) (7 * Second) (by decide)⟩

/-- C10: `Get` does not depend on sweep timing: for every cache (a map: no key
twice), every token and all times `s <= now`, `Get(token)` at `now` returns the
same pair whether or not a cleanup pass ran at `s`; the same holds for a pass
that reads the clock once per entry, all readings being at most `now`.  In the
scenario of a token of "user-1" set at instant 0 with a ttl of 5 s and never
swept, `Get` returns `("user-1", true)` at 4 s and `("", false)` at 6 s. -/
theorem C10_get_ignores_sweep (c : TokenCache) (hwf : c.WF) (token : String) (now : Time) :
    (∀ s, s ≤ now → (c.cleanupExpired s).Get token now = c.Get token now) ∧
    (∀ clock : String → Time, (∀ k, clock k ≤ now) →
      (c.cleanupPass clock).Get token now = c.Get token now) ∧
    (NewTokenCache.set "T" "user-1" (5 * Second) 0).Get "T" (4 * Second) = ("user-1", true) ∧
    (NewTokenCache.set "T" "user-1" (5 * Second) 0).Get "T" (6 * Second) = ("", false) := by
  refine ⟨fun s hs => Get_cleanupPass c hwf token (fun _ => s) now (fun _ => hs),
    fun clock hclock => Get_cleanupPass c hwf token clock now hclock, by decide, by decide⟩

theorem C10_get_ignores_sweep_witness :
    sampleCache.WF ∧
    (sampleCache.cleanupExpired (6 * Second)).tokens ≠ sampleCache.tokens ∧
    (sampleCache.cleanupExpired (6 * Second)).Get "t1" (7 * Second)
      = sampleCache.Get "t1" (7 * Second) ∧
    (sampleCache.cleanupExpired (6 * Second)).Get "t2" (7 * Second)
      = sampleCache.Get "t2" (7 * Second) :=
  ⟨by decide, by decide,
   (C10_get_ignores_sweep sampleCache (by decide) "t1" (7 * Second)).1 (6 * Second)
     (by decide),
   (C10_get_ignores_sweep sampleCache (by decide) "t2" (7 * Second)).1 (6 * Second)
     (by decide)⟩

/-- What a cleanup pass leaves under a token of a map: the entry that was
there, if it was not expired at the reading of the pass. -/
theorem find_cleanupPass (c : TokenCache) (hwf : c.WF) (token : String)
    (clock : String → Time) (td : TokenData) :
    (c.cleanupPass clock).find token = some td ↔
      c.find token = some td ∧ ¬ (clock token > td.ExpiresAt) := by
  have hcl := entriesOf_cleanupPass c token clock
  rw [find_eq_entriesOf, find_eq_entriesOf, hcl]
  rcases entriesOf_of_WF c hwf token with h | ⟨td2, h⟩
  · rw [h]
    simp
  · rw [h]
    by_cases hx : clock token > td2.ExpiresAt
    · rw [List.filter_cons_of_neg (by simpa using hx)]
      simp only [List.filter_nil, List.head?_nil, Option.map_none', List.head?_cons,
        Option.map_some', Option.some.injEq]
      constructor
      · intro hc
        exact absurd hc (by simp)
      · rintro ⟨heq, hn⟩
        rw [← heq] at hn
        exact absurd hx hn
    · rw [List.filter_cons_of_pos (by simpa using hx)]
      simp only [List.filter_nil, List.head?_cons, Option.map_some', Option.some.injEq]
      constructor
      · intro heq
        rw [← heq]
        exact ⟨rfl, hx⟩
      · exact fun h2 => h2.1

/-- C11: one cleanup pass at time `now` over a map removes every entry whose
expiresAt has passed (`now` is after it) and nothing else: afterwards the map
(still a map) holds exactly the prior entries whose expiresAt has not passed,
each with its UserId and ExpiresAt unchanged, and no entry that was not there
before; this is so entry by entry and lookup by lookup. -/
theorem C11_cleanup_removes_expired (c : TokenCache) (hwf : c.WF) (now : Time) :
    (c.cleanupExpired now).WF ∧
    (∀ p, p ∈ (c.cleanupExpired now).tokens ↔ p ∈ c.tokens ∧ ¬ (now > p.2.ExpiresAt)) ∧
    (∀ token td, (c.cleanupExpired now).find token = some td ↔
      c.find token = some td ∧ ¬ (now > td.ExpiresAt)) := by
  refine ⟨WF_cleanupPass c hwf _, ?_, ?_⟩
  · intro p
    unfold TokenCache.cleanupExpired TokenCache.cleanupPass
    simp only [List.mem_filter, decide_eq_true_eq]
  · intro token td
    exact find_cleanupPass c hwf token (fun _ => now) td

theorem C11_cleanup_removes_expired_witness :
    sampleCache.WF ∧
    (sampleCache.cleanupExpired (6 * Second)).Tokens = ["t3", "t2"] ∧
    ((sampleCache.cleanupExpired (6 * Second)).find "t2"
        = some { UserId := "user-2", ExpiresAt := 8 * Second } ↔
      sampleCache.find "t2" = some { UserId := "user-2", ExpiresAt := 8 * Second } ∧
        ¬ (6 * Second > (8 * Second : Time))) ∧
    ((sampleCache.cleanupExpired (6 * Second)).find "t1"
        = some { UserId := "user-1", ExpiresAt := 5 * Second } ↔
      sampleCache.find "t1" = some { UserId := "user-1", ExpiresAt := 5 * Second } ∧
        ¬ (6 * Second > (5 * Second : Time))) :=
  ⟨by decide, by decide,
   (C11_cleanup_removes_expired sampleCache (by decide) (6 * Second)).2.2 "t2" _,
   (C11_cleanup_removes_expired sampleCache (by decide) (6 * Second)).2.2 "t1" _⟩

/-- C12: the cleanup pass is idempotent: a pass at time `now` over a cache with
no expired entry leaves the map unchanged, and two passes in a row at the same
time yield the same map as one, the second pass finding nothing to remove. -/
theorem C12_cleanup_idempotent (c : TokenCache) (now : Time) :
    ((∀ p ∈ c.tokens, ¬ (now > p.2.ExpiresAt)) → c.cleanupExpired now = c) ∧
    (c.cleanupExpired now).cleanupExpired now = c.cleanupExpired now ∧
    (∀ p ∈ (c.cleanupExpired now).tokens, ¬ (now > p.2.ExpiresAt)) := by
  have hkeep : ∀ p ∈ (c.cleanupExpired now).tokens, ¬ (now > p.2.ExpiresAt) := by
    intro p hp
    unfold TokenCache.cleanupExpired TokenCache.cleanupPass at hp
    simp only [List.mem_filter, decide_eq_true_eq] at hp
    exact hp.2
  have hnoop : ∀ c2 : TokenCache, (∀ p ∈ c2.tokens, ¬ (now > p.2.ExpiresAt)) →
      c2.cleanupExpired now = c2 := by
    intro c2 h
    obtain ⟨l⟩ := c2
    unfold TokenCache.cleanupExpired TokenCache.cleanupPass
    simp only [TokenCache.mk.injEq]
    rw [List.filter_eq_self]
    intro p hp
    simpa using h p hp
  exact ⟨hnoop c, hnoop _ hkeep, hkeep⟩

theorem C12_cleanup_idempotent_witness :
    (∀ p ∈ sampleCache.tokens, ¬ (4 * Second > p.2.ExpiresAt)) ∧
    sampleCache.cleanupExpired (4 * Second) = sampleCache ∧
    (sampleCache.cleanupExpired (9 * Second)).cleanupExpired (9 * Second)
      = sampleCache.cleanupExpired (9 * Second) ∧
    sampleCache.cleanupExpired (9 * Second) ≠ sampleCache :=
  ⟨by decide, (C12_cleanup_idempotent sampleCache (4 * Second)).1 (by decide),
   (C12_cleanup_idempotent sampleCache (9 * Second)).2.1, by decide⟩

/-- C13: for every cache (a map), `Tokens()` returns exactly the keys stored in
the map: every stored token appears, exactly once, also when its entry is
expired and not yet swept; no other string appears; the length of the result is
the number of entries.  The method only reads the map: it is a function of the
cache and returns nothing but the keys. -/
theorem C13_tokens_are_keys (c : TokenCache) (hwf : c.WF) :
    c.Tokens.Nodup ∧
    (∀ k, k ∈ c.Tokens ↔ (c.find k).isSome) ∧
    (∀ k, (c.find k).isSome → c.Tokens.count k = 1) ∧
    (∀ k td now, c.find k = some td → now > td.ExpiresAt → c.Tokens.count k = 1) ∧
    c.Tokens.length = c.tokens.length := by
  have hmem : ∀ k, k ∈ c.Tokens ↔ (c.find k).isSome := by
    intro k
    unfold TokenCache.Tokens TokenCache.find
    rw [Option.isSome_map', List.find?_isSome, List.mem_map]
    constructor
    · rintro ⟨p, hp, hk⟩
      exact ⟨p, hp, by simpa using hk⟩
    · rintro ⟨p, hp, hk⟩
      exact ⟨p, hp, by simpa using hk⟩
  have hcount : ∀ k, (c.find k).isSome → c.Tokens.count k = 1 :=
    fun k hk => List.count_eq_one_of_mem hwf ((hmem k).mpr hk)
  refine ⟨hwf, hmem, hcount, ?_, ?_⟩
  · intro k td now hfind _
    exact hcount k (by rw [hfind]; rfl)
  · unfold TokenCache.Tokens
    exact List.length_map _ _

theorem C13_tokens_are_keys_witness :
    sampleCache.WF ∧
    sampleCache.Tokens = ["t3", "t2", "t1"] ∧
    sampleCache.Get "t1" (7 * Second) = ("", false) ∧
    sampleCache.Tokens.count "t1" = 1 ∧
    sampleCache.Tokens.length = sampleCache.tokens.length :=
  have h := C13_tokens_are_keys sampleCache (by decide)
  ⟨by decide, by decide, by decide,
   h.2.2.2.1 "t1" { UserId := "user-1", ExpiresAt := 5 * Second } (7 * Second)
     (by decide) (by decide),
   h.2.2.2.2⟩

end TokenCacheClaims


section DebounceLemmas

theorem waiterRound_tick_idle (circuit : Circuit) (upto : Time) (s : Debounce)
    (ctx : Context) (x : Time)
    (hw : s.waiter = some { ctx := ctx, nextTick := x, phase := WaiterPhase.polling })
    (hc : ∀ c, ctx.doneAt = some c → x ≤ c) (hx : x < upto) (hth : x ≤ s.threshold) :
    s.waiterRound circuit upto =
      some { s with waiter := some { ctx := ctx, nextTick := x + tickPeriod,
                                     phase := WaiterPhase.polling } } := by
  have hdf : Waiter.doneFirst { ctx := ctx, nextTick := x, phase := WaiterPhase.polling }
      = none := by
    unfold Waiter.doneFirst
    cases hd : ctx.doneAt with
    | none => rfl
    | some c => simp only [if_neg (not_lt.mpr (hc c hd))]
  unfold Debounce.waiterRound
  simp only [hw, hdf, hx, if_true, Debounce.waiterTick, gt_iff_lt, not_lt.mpr hth, if_false]
  rfl

theorem waiterRound_stop (circuit : Circuit) (upto : Time) (s : Debounce)
    (ctx : Context) (x : Time)
    (hw : s.waiter = some { ctx := ctx, nextTick := x, phase := WaiterPhase.polling })
    (hc : ∀ c, ctx.doneAt = some c → upto ≤ c) (hx : upto ≤ x) :
    s.waiterRound circuit upto = none := by
  unfold Debounce.waiterRound
  simp only [hw]
  cases hdf : Waiter.doneFirst { ctx := ctx, nextTick := x, phase := WaiterPhase.polling } with
  | none => simp only [if_neg (not_lt.mpr hx)]
  | some c =>
    have hd : ctx.doneAt = some c := by
      unfold Waiter.doneFirst at hdf
      cases hd : ctx.doneAt with
      | none => rw [hd] at hdf; simp at hdf
      | some c2 =>
        rw [hd] at hdf
        simp only at hdf
        split at hdf
        · exact hdf
        · exact absurd hdf (by simp)
    simp only [if_neg (not_lt.mpr (hc c hd))]

/-- While the instant `upto` is not past the threshold and the context of the
waiter is not done before `upto`, the waiter only consumes ticks. -/
theorem advance_idle (circuit : Circuit) (upto : Time) (ctx : Context) (fuel : Nat) :
    ∀ (s : Debounce) (x : Time),
      s.waiter = some { ctx := ctx, nextTick := x, phase := WaiterPhase.polling } →
      (∀ c, ctx.doneAt = some c → upto ≤ c) → upto ≤ s.threshold →
      ∃ y, Debounce.advance circuit upto fuel s =
          { s with waiter := some { ctx := ctx, nextTick := y, phase := WaiterPhase.polling } } ∧
        (y = x ∨ y < upto + tickPeriod) := by
  induction fuel with
  | zero =>
    intro s x hw _ _
    refine ⟨x, ?_, Or.inl rfl⟩
    show s = _
    rw [← hw]
  | succ n ih =>
    intro s x hw hc hth
    by_cases hx : x < upto
    · have hr := waiterRound_tick_idle circuit upto s ctx x hw
        (fun c hd => le_of_lt (lt_of_lt_of_le hx (hc c hd))) hx
        (le_of_lt (lt_of_lt_of_le hx hth))
      obtain ⟨y, hy, hb⟩ := ih
        { s with waiter := some { ctx := ctx, nextTick := x + tickPeriod,
                                  phase := WaiterPhase.polling } }
        (x + tickPeriod) rfl hc hth
      refine ⟨y, ?_, Or.inr ?_⟩
      · show (match s.waiterRound circuit upto with
          | none => s
          | some s1 => Debounce.advance circuit upto n s1) = _
        rw [hr]
        exact hy
      · rcases hb with hb | hb
        · rw [hb]; linarith
        · exact hb
    · have hr := waiterRound_stop circuit upto s ctx x hw hc (not_lt.mp hx)
      refine ⟨x, ?_, Or.inl rfl⟩
      show (match s.waiterRound circuit upto with
          | none => s
          | some s1 => Debounce.advance circuit upto n s1) = _
      rw [hr]
      show s = _
      rw [← hw]

/-- A tick past the threshold runs the circuit once, and the waiter is through. -/
theorem waiterRound_fire (circuit : Circuit) (upto : Time) (s : Debounce)
    (ctx : Context) (x : Time)
    (hw : s.waiter = some { ctx := ctx, nextTick := x, phase := WaiterPhase.polling })
    (hmu : s.mu = false)
    (hc : ∀ c, ctx.doneAt = some c → x ≤ c) (hx : x < upto) (hth : s.threshold < x) :
    ∃ s1, s.waiterRound circuit upto = some s1 ∧
      s1.executions = s.executions ++ [{ time := x, ctx := ctx }] ∧
      ∀ (fuel : Nat) (later : Time), Debounce.advance circuit later fuel s1 = s1 := by
  have hdf : Waiter.doneFirst { ctx := ctx, nextTick := x, phase := WaiterPhase.polling }
      = none := by
    unfold Waiter.doneFirst
    cases hd : ctx.doneAt with
    | none => rfl
    | some c => simp only [if_neg (not_lt.mpr (hc c hd))]
  have hstuck : ∀ (s1 : Debounce), (∀ later, s1.waiterRound circuit later = none) →
      ∀ (fuel : Nat) (later : Time), Debounce.advance circuit later fuel s1 = s1 := by
    intro s1 h fuel later
    cases fuel with
    | zero => rfl
    | succ n =>
      show (match s1.waiterRound circuit later with
          | none => s1
          | some s2 => Debounce.advance circuit later n s2) = s1
      rw [h later]
  unfold Debounce.waiterRound
  simp only [hw, hdf, hx, if_true, Debounce.waiterTick, gt_iff_lt, hth]
  cases circuit ctx with
  | returns r e =>
    simp only [Debounce.waiterExit, hmu, if_true]
    refine ⟨_, rfl, rfl, hstuck _ (fun later => rfl)⟩
  | panics =>
    simp only [Debounce.waiterExit, if_true]
    refine ⟨_, rfl, rfl, hstuck _ (fun later => rfl)⟩

theorem tickPeriod_eq : tickPeriod = (100000000 : Int) := by decide

/-- With the context not done up to the bound `B`, the next tick at most `B`,
the threshold at least a tick period before `B` and `B` before `upto`, enough
rounds run the circuit exactly once, at a tick after the threshold. -/
theorem advance_fire (circuit : Circuit) (upto B : Time) (ctx : Context) (n : Nat) :
    ∀ (s : Debounce) (x : Time),
      s.waiter = some { ctx := ctx, nextTick := x, phase := WaiterPhase.polling } →
      s.mu = false →
      (∀ c, ctx.doneAt = some c → B ≤ c) → x ≤ B → s.threshold + tickPeriod ≤ B →
      B < upto → s.threshold < x + n * tickPeriod →
      ∃ t, (Debounce.advance circuit upto (n + 1) s).executions
            = s.executions ++ [{ time := t, ctx := ctx }] ∧
          s.threshold < t ∧ t ≤ B ∧
          ∀ (fuel : Nat) (later : Time),
            Debounce.advance circuit later fuel (Debounce.advance circuit upto (n + 1) s)
              = Debounce.advance circuit upto (n + 1) s := by
  induction n with
  | zero =>
    intro s x hw hmu hc hxB _ hB hn
    have hth : s.threshold < x := by simpa using hn
    obtain ⟨s1, h1, h2, h3⟩ := waiterRound_fire circuit upto s ctx x hw hmu
      (fun c hd => le_trans hxB (hc c hd)) (lt_of_le_of_lt hxB hB) hth
    have hadv : Debounce.advance circuit upto (0 + 1) s = s1 := by
      show (match s.waiterRound circuit upto with
          | none => s
          | some s2 => Debounce.advance circuit upto 0 s2) = s1
      rw [h1]
      rfl
    rw [hadv]
    exact ⟨x, h2, hth, hxB, h3⟩
  | succ n ih =>
    intro s x hw hmu hc hxB hthB hB hn
    by_cases hth : s.threshold < x
    · obtain ⟨s1, h1, h2, h3⟩ := waiterRound_fire circuit upto s ctx x hw hmu
        (fun c hd => le_trans hxB (hc c hd)) (lt_of_le_of_lt hxB hB) hth
      have hadv : Debounce.advance circuit upto (n + 1 + 1) s = s1 := by
        show (match s.waiterRound circuit upto with
            | none => s
            | some s2 => Debounce.advance circuit upto (n + 1) s2) = s1
        rw [h1]
        exact h3 (n + 1) upto
      rw [hadv]
      exact ⟨x, h2, hth, hxB, h3⟩
    · have hle : x ≤ s.threshold := not_lt.mp hth
      have hr := waiterRound_tick_idle circuit upto s ctx x hw
        (fun c hd => le_trans hxB (hc c hd)) (lt_of_le_of_lt hxB hB) hle
      have hadv : Debounce.advance circuit upto (n + 1 + 1) s
          = Debounce.advance circuit upto (n + 1)
              { s with waiter := some { ctx := ctx, nextTick := x + tickPeriod,
                                        phase := WaiterPhase.polling } } := by
        show (match s.waiterRound circuit upto with
            | none => s
            | some s2 => Debounce.advance circuit upto (n + 1) s2) = _
        rw [hr]
      rw [hadv]
      have hn2 : s.threshold < x + tickPeriod + n * tickPeriod := by
        have : ((n + 1 : Nat) : Int) * tickPeriod = n * tickPeriod + tickPeriod := by
          push_cast; ring
        rw [this] at hn
        linarith
      exact ih
        { s with waiter := some { ctx := ctx, nextTick := x + tickPeriod,
                                  phase := WaiterPhase.polling } }
        (x + tickPeriod) rfl hmu hc (by linarith) hthB hB hn2

/-- The rounds granted by `runUntil` are enough for `advance_fire`. -/
theorem runUntil_fire (circuit : Circuit) (upto B : Time) (ctx : Context)
    (s : Debounce) (x : Time)
    (hw : s.waiter = some { ctx := ctx, nextTick := x, phase := WaiterPhase.polling })
    (hmu : s.mu = false)
    (hc : ∀ c, ctx.doneAt = some c → B ≤ c) (hxB : x ≤ B)
    (hthB : s.threshold + tickPeriod ≤ B) (hB : B < upto) :
    ∃ t, (s.runUntil circuit upto).executions = s.executions ++ [{ time := t, ctx := ctx }] ∧
      s.threshold < t ∧ t ≤ B := by
  have hrounds : s.rounds upto = (((upto - x) / tickPeriod).toNat + 1) + 1 := by
    unfold Debounce.rounds
    rw [hw]
  have hq : 0 ≤ (upto - x) / tickPeriod :=
    Int.ediv_nonneg (by linarith) (by decide)
  have hcast : ((((upto - x) / tickPeriod).toNat + 1 : Nat) : Int)
      = (upto - x) / tickPeriod + 1 := by
    push_cast
    rw [Int.toNat_of_nonneg hq]
  have hn : s.threshold < x + ((((upto - x) / tickPeriod).toNat + 1 : Nat) : Int) * tickPeriod := by
    rw [hcast]
    have hP : (0 : Int) < tickPeriod := by decide
    have hdiv := Int.lt_ediv_add_one_mul_self (upto - x) hP
    linarith
  obtain ⟨t, h1, h2, h3, -⟩ := advance_fire circuit upto B ctx _ s x hw hmu hc hxB hthB hB hn
  refine ⟨t, ?_, h2, h3⟩
  unfold Debounce.runUntil
  rw [hrounds]
  exact h1

theorem lastNow_ge (d : Duration) (rest : List Invocation) :
    ∀ a : Invocation, Burst d (a :: rest) → ∀ i ∈ a :: rest, i.now ≤ lastNow (a :: rest) := by
  induction rest with
  | nil =>
    intro a _ i hi
    rw [List.mem_singleton] at hi
    rw [hi]
    exact le_refl _
  | cons b rest ih =>
    intro a hb i hi
    have hb2 : (a.now ≤ b.now ∧ b.now < a.now + d) ∧ Burst d (b :: rest) := hb
    show i.now ≤ lastNow (b :: rest)
    rcases List.mem_cons.mp hi with h | h
    · rw [h]
      exact le_trans hb2.1.1 (ih b hb2.2 b (List.mem_cons_self _ _))
    · exact ih b hb2.2 i h

/-- Invocations of a burst that arrive while the waiter polls only move the
threshold: no execution, no second waiter. -/
theorem simulate_burst (circuit : Circuit) (d : Duration) (ctx : Context)
    (rest : List Invocation) :
    ∀ (a : Invocation) (s : Debounce) (x : Time),
      Burst d (a :: rest) → s.d = d → s.mu = false → s.once = true →
      s.waiter = some { ctx := ctx, nextTick := x, phase := WaiterPhase.polling } →
      s.threshold = a.now + d → s.executions = [] → x ≤ a.now + tickPeriod →
      (∀ c, ctx.doneAt = some c → lastNow (a :: rest) ≤ c) →
      ∃ y, (s.simulate circuit rest).mu = false ∧
        (s.simulate circuit rest).waiter
          = some { ctx := ctx, nextTick := y, phase := WaiterPhase.polling } ∧
        (s.simulate circuit rest).threshold = lastNow (a :: rest) + d ∧
        (s.simulate circuit rest).executions = [] ∧
        y ≤ lastNow (a :: rest) + tickPeriod := by
  induction rest with
  | nil =>
    intro a s x _ _ hmu _ hw hth hex hx _
    exact ⟨x, hmu, hw, hth, hex, hx⟩
  | cons b rest ih =>
    intro a s x hb hd hmu honce hw hth hex hx hc
    have hb2 : (a.now ≤ b.now ∧ b.now < a.now + d) ∧ Burst d (b :: rest) := hb
    have hcb : ∀ c, ctx.doneAt = some c → b.now ≤ c := fun c hdone =>
      le_trans (lastNow_ge d rest b hb2.2 b (List.mem_cons_self _ _)) (hc c hdone)
    obtain ⟨y, hy, hyb⟩ := advance_idle circuit b.now ctx (s.rounds b.now) s x hw hcb
      (by rw [hth]; exact le_of_lt hb2.1.2)
    have hrun : s.runUntil circuit b.now
        = { s with waiter := some { ctx := ctx, nextTick := y,
                                    phase := WaiterPhase.polling } } := hy
    have hinv : ((s.runUntil circuit b.now).invoke b.ctx b.now).2
        = { s with threshold := b.now + d,
                   waiter := some { ctx := ctx, nextTick := y,
                                    phase := WaiterPhase.polling } } := by
      rw [hrun]
      unfold Debounce.invoke Debounce.moveThreshold Debounce.onceDo
      simp only [hmu, honce, hd, if_true, Bool.false_eq_true, if_false]
    have hstep : s.simulate circuit (b :: rest)
        = Debounce.simulate circuit (((s.runUntil circuit b.now).invoke b.ctx b.now).2) rest :=
      rfl
    have hl : lastNow (a :: b :: rest) = lastNow (b :: rest) := rfl
    rw [hstep, hinv, hl]
    exact ih b
      { s with threshold := b.now + d,
               waiter := some { ctx := ctx, nextTick := y, phase := WaiterPhase.polling } }
      y hb2.2 hd hmu honce rfl rfl hex
      (by rcases hyb with h | h
          · rw [h]; linarith [hb2.1.1]
          · exact le_of_lt h)
      hc

end DebounceLemmas

section DebounceClaims

/-- On the timeline, with whole invocations: for every quiet period `d` and every
burst of `N >= 1` invocations on a fresh debouncer, each less than `d` after the
previous one, if
the context of the first invocation is not cancelled before the instant
`last + max d 0 + 100ms` (`last` being the instant of the last invocation), then
the wrapped circuit is executed exactly once, with that context, at an instant
later than `last + d`; this is so at every horizon past `last + max d 0 + 100ms`. -/
theorem runBurst_executes_once (circuit : Circuit) (d : Duration) (first : Invocation)
    (rest : List Invocation) (horizon : Time)
    (hburst : Burst d (first :: rest))
    (hctx : ∀ c, first.ctx.doneAt = some c →
      lastNow (first :: rest) + max d 0 + tickPeriod ≤ c)
    (hhor : lastNow (first :: rest) + max d 0 + tickPeriod < horizon) :
    ∃ t, (runBurst circuit d (first :: rest) horizon).executions
          = [{ time := t, ctx := first.ctx }] ∧
      lastNow (first :: rest) + d < t := by
  have hP : (0 : Int) < tickPeriod := by decide
  have hmax0 : (0 : Int) ≤ max d 0 := le_max_right _ _
  have hmaxd : d ≤ max d 0 := le_max_left _ _
  have hstart : (((DebounceLast d).runUntil circuit first.now).invoke first.ctx first.now).2
      = { d := d, mu := false, threshold := first.now + d, result := "", err := none,
          once := true,
          waiter := some { ctx := first.ctx, nextTick := first.now + tickPeriod,
                           phase := WaiterPhase.polling },
          executions := [] } := rfl
  obtain ⟨y, hmu, hw, hth, hex, hy⟩ := simulate_burst circuit d first.ctx rest first
    { d := d, mu := false, threshold := first.now + d, result := "", err := none,
      once := true,
      waiter := some { ctx := first.ctx, nextTick := first.now + tickPeriod,
                       phase := WaiterPhase.polling },
      executions := [] }
    (first.now + tickPeriod) hburst rfl rfl rfl rfl rfl rfl (le_refl _)
    (fun c hc => by have := hctx c hc; linarith)
  have hsim : (DebounceLast d).simulate circuit (first :: rest)
      = Debounce.simulate circuit
          (((DebounceLast d).runUntil circuit first.now).invoke first.ctx first.now).2 rest :=
    rfl
  rw [hstart] at hsim
  rw [← hsim] at hmu hw hth hex
  obtain ⟨t, h1, h2, -⟩ := runUntil_fire circuit horizon
    (lastNow (first :: rest) + max d 0 + tickPeriod) first.ctx
    ((DebounceLast d).simulate circuit (first :: rest)) y hw hmu hctx
    (by linarith) (by rw [hth]; linarith) hhor
  refine ⟨t, ?_, ?_⟩
  · unfold runBurst
    rw [h1, hex]
    rfl
  · rw [hth] at h2
    exact h2

/-! ### Interleavings of atomic steps -/

theorem invoke_of_free (s : Debounce) (ctx : Context) (now : Time) (hmu : s.mu = false) :
    s.invoke ctx now
      = (some ((s.moveThreshold now).onceDo ctx now).current,
          (s.moveThreshold now).onceDo ctx now) := by
  unfold Debounce.invoke
  simp only [hmu, Bool.false_eq_true, if_false]

theorem invoke_of_held (s : Debounce) (ctx : Context) (now : Time) (hmu : s.mu = true) :
    s.invoke ctx now = (none, s) := by
  unfold Debounce.invoke
  simp only [hmu, if_true]

theorem onceDo_current (s : Debounce) (ctx : Context) (now : Time) :
    (s.onceDo ctx now).current = s.current ∧ (s.onceDo ctx now).mu = s.mu ∧
    (s.onceDo ctx now).executions = s.executions ∧
    (s.onceDo ctx now).threshold = s.threshold := by
  unfold Debounce.onceDo
  split <;> exact ⟨rfl, rfl, rfl, rfl⟩

theorem invoke_current (s : Debounce) (ctx : Context) (now : Time) :
    (s.invoke ctx now).2.current = s.current ∧ (s.invoke ctx now).2.mu = s.mu ∧
    (s.invoke ctx now).2.executions = s.executions := by
  cases hmu : s.mu with
  | true =>
    rw [invoke_of_held s ctx now hmu]
    exact ⟨rfl, hmu, rfl⟩
  | false =>
    rw [invoke_of_free s ctx now hmu]
    obtain ⟨h1, h2, h3, -⟩ := onceDo_current (s.moveThreshold now) ctx now
    exact ⟨h1, h2.trans hmu, h3⟩

theorem run_append (circuit : Circuit) (xs ys : List DStep) :
    ∀ s : Debounce, s.run circuit (xs ++ ys) = (s.run circuit xs).run circuit ys := by
  induction xs with
  | nil => intro s; rfl
  | cons st rest ih => intro s; exact ih _

theorem step_single_waiter_onceDo (s : Debounce) (ctx : Context) (now : Time)
    (ha : s.once = s.waiter.isSome)
    (hb : s.mu = true → ∃ w, s.waiter = some w ∧ w.phase = WaiterPhase.returning) :
    (s.onceDo ctx now).once = (s.onceDo ctx now).waiter.isSome ∧
    ((s.onceDo ctx now).mu = true →
      ∃ w, (s.onceDo ctx now).waiter = some w ∧ w.phase = WaiterPhase.returning) := by
  unfold Debounce.onceDo
  cases ho : s.once with
  | true =>
    simp only [if_true]
    exact ⟨ho.symm ▸ ha, hb⟩
  | false =>
    simp only [Bool.false_eq_true, if_false]
    refine ⟨rfl, fun hmu => ?_⟩
    obtain ⟨w, hw, -⟩ := hb hmu
    rw [hw, ho] at ha
    simp at ha

/-- The `Once` is used exactly while a waiter exists, and the mutex is held for
ever only by a waiter that has left its loop: kept by every atomic step. -/
theorem step_single_waiter (circuit : Circuit) (s : Debounce) (st : DStep)
    (ha : s.once = s.waiter.isSome)
    (hb : s.mu = true → ∃ w, s.waiter = some w ∧ w.phase = WaiterPhase.returning) :
    (s.step circuit st).once = (s.step circuit st).waiter.isSome ∧
    ((s.step circuit st).mu = true →
      ∃ w, (s.step circuit st).waiter = some w ∧ w.phase = WaiterPhase.returning) := by
  have hfalse : ∀ {p : Prop}, s.mu = false → s.mu = true → p := by
    intro p h1 h2
    rw [h1] at h2
    exact absurd h2 (by decide)
  cases st with
  | invoke ctx now =>
    have hstep : s.step circuit (DStep.invoke ctx now) = (s.invoke ctx now).2 := rfl
    rw [hstep]
    cases hmu : s.mu with
    | true =>
      rw [invoke_of_held s ctx now hmu]
      exact ⟨ha, fun _ => hb hmu⟩
    | false =>
      rw [invoke_of_free s ctx now hmu]
      exact step_single_waiter_onceDo (s.moveThreshold now) ctx now ha
        (fun h => hfalse hmu h)
  | moveThreshold now =>
    have hstep : s.step circuit (DStep.moveThreshold now)
        = if s.mu then s else s.moveThreshold now := rfl
    rw [hstep]
    split
    · exact ⟨ha, hb⟩
    · exact ⟨ha, hb⟩
  | onceDo ctx now => exact step_single_waiter_onceDo s ctx now ha hb
  | tick now =>
    cases hw : s.waiter with
    | none =>
      have hstep : s.step circuit (DStep.tick now) = s := by
        unfold Debounce.step
        rw [hw]
      rw [hstep]
      exact ⟨ha, hb⟩
    | some w =>
      by_cases hg : w.phase = WaiterPhase.polling ∧ s.mu = false
      · have hstep : s.step circuit (DStep.tick now) = s.waiterTick circuit w now := by
          unfold Debounce.step
          rw [hw]
          simp only [hg, and_self, if_true]
        rw [hstep]
        rw [hw] at ha
        unfold Debounce.waiterTick
        split
        · cases circuit w.ctx with
          | returns r e => exact ⟨ha, fun h => hfalse hg.2 h⟩
          | panics => exact ⟨ha, fun _ => ⟨_, rfl, rfl⟩⟩
        · exact ⟨ha, fun h => hfalse hg.2 h⟩
      · have hstep : s.step circuit (DStep.tick now) = s := by
          unfold Debounce.step
          rw [hw]
          simp only [hg, if_false]
        rw [hstep]
        exact ⟨ha, hb⟩
  | ctxDone now =>
    cases hw : s.waiter with
    | none =>
      have hstep : s.step circuit (DStep.ctxDone now) = s := by
        unfold Debounce.step
        rw [hw]
      rw [hstep]
      exact ⟨ha, hb⟩
    | some w =>
      by_cases hg : w.phase = WaiterPhase.polling ∧ s.mu = false ∧ w.ctx.isDone now = true
      · have hstep : s.step circuit (DStep.ctxDone now) = s.waiterDone w := by
          unfold Debounce.step
          rw [hw]
          simp only [hg, and_self, if_true]
        rw [hstep]
        rw [hw] at ha
        exact ⟨ha, fun h => hfalse hg.2.1 h⟩
      · have hstep : s.step circuit (DStep.ctxDone now) = s := by
          unfold Debounce.step
          rw [hw]
          simp only [hg, if_false]
        rw [hstep]
        exact ⟨ha, hb⟩
  | leave =>
    cases hw : s.waiter with
    | none =>
      have hstep : s.step circuit DStep.leave = s := by
        unfold Debounce.step
        rw [hw]
      rw [hstep]
      exact ⟨ha, hb⟩
    | some w =>
      by_cases hg : w.phase = WaiterPhase.returning
      · have hstep : s.step circuit DStep.leave = s.waiterExit := by
          unfold Debounce.step
          rw [hw]
          simp only [hg, if_true]
        rw [hstep]
        unfold Debounce.waiterExit
        cases hmu : s.mu with
        | true =>
          simp only [if_true]
          exact ⟨ha, fun _ => hb hmu⟩
        | false =>
          simp only [Bool.false_eq_true, if_false]
          exact ⟨rfl, fun h => absurd h (by decide)⟩
      · have hstep : s.step circuit DStep.leave = s := by
          unfold Debounce.step
          rw [hw]
          simp only [hg, if_false]
        rw [hstep]
        exact ⟨ha, hb⟩

theorem run_single_waiter (circuit : Circuit) (steps : List DStep) :
    ∀ s : Debounce, s.once = s.waiter.isSome →
      (s.mu = true → ∃ w, s.waiter = some w ∧ w.phase = WaiterPhase.returning) →
      (s.run circuit steps).once = (s.run circuit steps).waiter.isSome ∧
      ((s.run circuit steps).mu = true →
        ∃ w, (s.run circuit steps).waiter = some w ∧ w.phase = WaiterPhase.returning) := by
  induction steps with
  | nil => intro s ha hb; exact ⟨ha, hb⟩
  | cons st rest ih =>
    intro s ha hb
    obtain ⟨h1, h2⟩ := step_single_waiter circuit s st ha hb
    exact ih _ h1 h2

/-- With the `Once` used, an invocation only moves the threshold. -/
theorem invoke_with_waiter (s : Debounce) (ctx : Context) (now : Time)
    (honce : s.once = true) (hmu : s.mu = false) :
    s.invoke ctx now
      = (some s.current, { s with threshold := now + s.d }) := by
  rw [invoke_of_free s ctx now hmu]
  unfold Debounce.onceDo Debounce.moveThreshold
  simp only [honce, if_true]
  rfl

/-- A step executes the circuit at most once, and only the waiter does, on a
tick past the threshold. -/
theorem step_executions (circuit : Circuit) (s : Debounce) (st : DStep) :
    (s.step circuit st).executions = s.executions ∨
    ∃ t w, st = DStep.tick t ∧ s.waiter = some w ∧ w.phase = WaiterPhase.polling ∧
      t > s.threshold ∧
      (s.step circuit st).executions = s.executions ++ [{ time := t, ctx := w.ctx }] := by
  cases st with
  | invoke ctx now => exact Or.inl (invoke_current s ctx now).2.2
  | moveThreshold now =>
    left
    show (if s.mu then s else s.moveThreshold now).executions = _
    split <;> rfl
  | onceDo ctx now => exact Or.inl (onceDo_current s ctx now).2.2.1
  | tick now =>
    cases hw : s.waiter with
    | none =>
      left
      unfold Debounce.step
      rw [hw]
    | some w =>
      by_cases hg : w.phase = WaiterPhase.polling ∧ s.mu = false
      · have hstep : s.step circuit (DStep.tick now) = s.waiterTick circuit w now := by
          unfold Debounce.step
          rw [hw]
          simp only [hg, and_self, if_true]
        rw [hstep]
        unfold Debounce.waiterTick
        by_cases hth : now > s.threshold
        · right
          refine ⟨now, w, rfl, rfl, hg.1, hth, ?_⟩
          rw [if_pos hth]
          cases circuit w.ctx <;> rfl
        · left
          rw [if_neg hth]
      · left
        unfold Debounce.step
        rw [hw]
        simp only [hg, if_false]
  | ctxDone now =>
    left
    cases hw : s.waiter with
    | none =>
      unfold Debounce.step
      rw [hw]
    | some w =>
      unfold Debounce.step
      rw [hw]
      simp only
      split <;> rfl
  | leave =>
    left
    cases hw : s.waiter with
    | none =>
      unfold Debounce.step
      rw [hw]
    | some w =>
      unfold Debounce.step
      rw [hw]
      simp only
      split
      · unfold Debounce.waiterExit
        split <;> rfl
      · rfl

/-- C15: in every state reached from a fresh debouncer by atomic steps in any
order, the `Once` is used exactly when a waiter exists, so that `once.Do`
starts a waiter only when there is none: at most one waiter is active.  An
invocation arriving while a waiter is active starts no second waiter and
changes nothing but the threshold, and the active waiter compares its next
tick against the moved threshold.  Every step executes the wrapped circuit at
most once, and only the tick of the waiter does: at most one execution is in
flight. -/
theorem C15_single_waiter (circuit : Circuit) (d : Duration) (steps : List DStep)
    (ctx : Context) (now : Time) :
    ((DebounceLast d).run circuit steps).once
      = ((DebounceLast d).run circuit steps).waiter.isSome ∧
    (∀ w, ((DebounceLast d).run circuit steps).waiter = some w →
      (((DebounceLast d).run circuit steps).onceDo ctx now)
        = (DebounceLast d).run circuit steps) ∧
    (∀ w, ((DebounceLast d).run circuit steps).waiter = some w →
      w.phase = WaiterPhase.polling →
      (((DebounceLast d).run circuit steps).invoke ctx now).2
        = { (DebounceLast d).run circuit steps with
              threshold := now + ((DebounceLast d).run circuit steps).d } ∧
      ∀ t, ((((DebounceLast d).run circuit steps).invoke ctx now).2.step circuit
              (DStep.tick t)).executions
        = if t > now + ((DebounceLast d).run circuit steps).d then
            ((DebounceLast d).run circuit steps).executions ++ [{ time := t, ctx := w.ctx }]
          else ((DebounceLast d).run circuit steps).executions) ∧
    (∀ st, (((DebounceLast d).run circuit steps).step circuit st).executions
        = ((DebounceLast d).run circuit steps).executions ∨
      ∃ t w, st = DStep.tick t ∧ ((DebounceLast d).run circuit steps).waiter = some w ∧
        (((DebounceLast d).run circuit steps).step circuit st).executions
          = ((DebounceLast d).run circuit steps).executions
              ++ [{ time := t, ctx := w.ctx }]) := by
  obtain ⟨ha, hb⟩ := run_single_waiter circuit steps (DebounceLast d) rfl
    (fun h => absurd (show false = true from h) (by decide))
  generalize (DebounceLast d).run circuit steps = s at ha hb ⊢
  refine ⟨ha, ?_, ?_, ?_⟩
  · intro w hw
    have honce : s.once = true := by rw [ha, hw]; rfl
    unfold Debounce.onceDo
    rw [if_pos honce]
  · intro w hw hp
    have honce : s.once = true := by rw [ha, hw]; rfl
    have hmu : s.mu = false := by
      cases hmu : s.mu with
      | false => rfl
      | true =>
        obtain ⟨w2, hw2, hp2⟩ := hb hmu
        rw [hw] at hw2
        rw [← Option.some.inj hw2, hp] at hp2
        exact absurd hp2 (by decide)
    have hinv := invoke_with_waiter s ctx now honce hmu
    rw [hinv]
    refine ⟨rfl, fun t => ?_⟩
    have hstep : Debounce.step circuit { s with threshold := now + s.d } (DStep.tick t)
        = Debounce.waiterTick circuit { s with threshold := now + s.d } w t := by
      unfold Debounce.step
      simp only [hw, hp, hmu, and_self, if_true]
    simp only [hstep]
    unfold Debounce.waiterTick
    by_cases hth : t > now + s.d
    · simp only [hth, if_true]
      cases circuit w.ctx <;> rfl
    · simp only [hth, if_false]
  · intro st
    rcases step_executions circuit s st with h | ⟨t, w, h1, h2, -, -, h3⟩
    · exact Or.inl h
    · exact Or.inr ⟨t, w, h1, h2, h3⟩

theorem C15_single_waiter_witness :
    (((DebounceLast (2 * Second)).run apiCall
        [DStep.invoke Context.background 0]).invoke (cancelledAt (1 * Second))
        (500 * Millisecond)).2
      = { (DebounceLast (2 * Second)).run apiCall [DStep.invoke Context.background 0] with
            threshold := 500 * Millisecond + 2 * Second } ∧
    ((((DebounceLast (2 * Second)).run apiCall
        [DStep.invoke Context.background 0]).invoke (cancelledAt (1 * Second))
        (500 * Millisecond)).2.step apiCall (DStep.tick (2100 * Millisecond))).executions
      = [] ∧
    ((((DebounceLast (2 * Second)).run apiCall
        [DStep.invoke Context.background 0]).invoke (cancelledAt (1 * Second))
        (500 * Millisecond)).2.step apiCall (DStep.tick (2600 * Millisecond))).executions
      = [{ time := 2600 * Millisecond, ctx := Context.background }] :=
  have h := (C15_single_waiter apiCall (2 * Second) [DStep.invoke Context.background 0]
    (cancelledAt (1 * Second)) (500 * Millisecond)).2.2.1
    { ctx := Context.background, nextTick := 100 * Millisecond,
      phase := WaiterPhase.polling } (by decide) rfl
  ⟨h.1, (h.2 (2100 * Millisecond)).trans (by decide),
   (h.2 (2600 * Millisecond)).trans (by decide)⟩

/-! ### Cancellation -/

theorem waiterRound_cancel (circuit : Circuit) (upto : Time) (s : Debounce)
    (ctx : Context) (x c : Time)
    (hw : s.waiter = some { ctx := ctx, nextTick := x, phase := WaiterPhase.polling })
    (hmu : s.mu = false) (hd : ctx.doneAt = some c) (hcx : c < x) (hcu : c < upto) :
    s.waiterRound circuit upto
      = some { s with result := "", err := some ctx.cause, once := false, waiter := none } := by
  have hdf : Waiter.doneFirst { ctx := ctx, nextTick := x, phase := WaiterPhase.polling }
      = some c := by
    unfold Waiter.doneFirst
    simp only [hd, hcx, if_true]
  unfold Debounce.waiterRound
  simp only [hw, hdf, hcu, if_true, Debounce.waiterDone, Debounce.waiterExit, hmu,
    Bool.false_eq_true, if_false]

theorem advance_no_waiter (circuit : Circuit) (upto : Time) (fuel : Nat) (s : Debounce)
    (hw : s.waiter = none) : Debounce.advance circuit upto fuel s = s := by
  cases fuel with
  | zero => rfl
  | succ n =>
    show (match s.waiterRound circuit upto with
        | none => s
        | some s1 => Debounce.advance circuit upto n s1) = s
    have hr : s.waiterRound circuit upto = none := by
      unfold Debounce.waiterRound
      rw [hw]
    rw [hr]

/-- A waiter whose context is done before the threshold only consumes ticks
until it takes the cancellation: it never runs the circuit. -/
theorem advance_cancel (circuit : Circuit) (upto : Time) (ctx : Context) (c : Time)
    (n : Nat) :
    ∀ (s : Debounce) (x : Time),
      s.waiter = some { ctx := ctx, nextTick := x, phase := WaiterPhase.polling } →
      s.mu = false → ctx.doneAt = some c → c < s.threshold → c < upto →
      c < x + n * tickPeriod →
      Debounce.advance circuit upto (n + 1) s
        = { s with result := "", err := some ctx.cause, once := false, waiter := none } := by
  induction n with
  | zero =>
    intro s x hw hmu hd _ hcu hn
    have hcx : c < x := by simpa using hn
    show (match s.waiterRound circuit upto with
        | none => s
        | some s1 => Debounce.advance circuit upto 0 s1) = _
    rw [waiterRound_cancel circuit upto s ctx x c hw hmu hd hcx hcu]
    rfl
  | succ n ih =>
    intro s x hw hmu hd hth hcu hn
    by_cases hcx : c < x
    · show (match s.waiterRound circuit upto with
          | none => s
          | some s1 => Debounce.advance circuit upto (n + 1) s1) = _
      rw [waiterRound_cancel circuit upto s ctx x c hw hmu hd hcx hcu]
      exact advance_no_waiter circuit upto (n + 1) _ rfl
    · have hxc : x ≤ c := not_lt.mp hcx
      have hr := waiterRound_tick_idle circuit upto s ctx x hw
        (fun c2 hd2 => by rw [hd] at hd2; rw [← Option.some.inj hd2]; exact hxc)
        (lt_of_le_of_lt hxc hcu) (le_of_lt (lt_of_le_of_lt hxc hth))
      show (match s.waiterRound circuit upto with
          | none => s
          | some s1 => Debounce.advance circuit upto (n + 1) s1) = _
      rw [hr]
      have hn2 : c < x + tickPeriod + n * tickPeriod := by
        have : ((n + 1 : Nat) : Int) * tickPeriod = n * tickPeriod + tickPeriod := by
          push_cast; ring
        rw [this] at hn
        linarith
      exact ih
        { s with waiter := some { ctx := ctx, nextTick := x + tickPeriod,
                                  phase := WaiterPhase.polling } }
        (x + tickPeriod) rfl hmu hd hth hcu hn2

/-- On the timeline, where the waiter takes a cancellation before any later
tick: if the context of the waiter is cancelled at an instant before the current
threshold, then by any later instant the waiter has terminated without executing
the wrapped circuit, has recorded `("", ctx.Err())`, and the `Once` is fresh
again. -/
theorem runUntil_cancel (circuit : Circuit) (s : Debounce) (w : Waiter)
    (c upto : Time)
    (hw : s.waiter = some w) (hp : w.phase = WaiterPhase.polling) (hmu : s.mu = false)
    (hdone : w.ctx.doneAt = some c) (hbefore : c < s.threshold) (hupto : c < upto) :
    (s.runUntil circuit upto).executions = s.executions ∧
    (s.runUntil circuit upto).current = ("", some w.ctx.cause) ∧
    (s.runUntil circuit upto).waiter = none ∧
    (s.runUntil circuit upto).once = false ∧
    (∀ ctx2 now, ((s.runUntil circuit upto).invoke ctx2 now).1
      = some ("", some w.ctx.cause)) := by
  obtain ⟨ctx, x, phase⟩ := w
  have hp2 : phase = WaiterPhase.polling := hp
  subst hp2
  have hd : ctx.doneAt = some c := hdone
  have hP : (0 : Int) < tickPeriod := by decide
  have hrounds : s.rounds upto = (((upto - x) / tickPeriod).toNat + 1) + 1 := by
    unfold Debounce.rounds
    rw [hw]
  have hcast : (upto - x) / tickPeriod + 1
      ≤ ((((upto - x) / tickPeriod).toNat + 1 : Nat) : Int) := by
    push_cast
    have := Int.self_le_toNat ((upto - x) / tickPeriod)
    linarith
  have hn : c < x + ((((upto - x) / tickPeriod).toNat + 1 : Nat) : Int) * tickPeriod := by
    have hdiv := Int.lt_ediv_add_one_mul_self (upto - x) hP
    have hmul := mul_le_mul_of_nonneg_right hcast (le_of_lt hP)
    linarith
  have hrun : s.runUntil circuit upto
      = { s with result := "", err := some ctx.cause, once := false, waiter := none } := by
    unfold Debounce.runUntil
    rw [hrounds]
    exact advance_cancel circuit upto ctx c _ s x hw hmu hd hbefore hupto hn
  rw [hrun]
  refine ⟨rfl, rfl, rfl, rfl, fun ctx2 now => ?_⟩
  rw [invoke_of_free
    { s with result := "", err := some ctx.cause, once := false, waiter := none }
    ctx2 now hmu]
  show some (Debounce.onceDo _ ctx2 now).current = _
  rw [(onceDo_current _ ctx2 now).1]
  rfl

/-- A reachable state with a waiter in its loop has the mutex free and the `Once`
used. -/
theorem polling_reachable (circuit : Circuit) (d : Duration) (steps : List DStep)
    (w : Waiter) (hw : ((DebounceLast d).run circuit steps).waiter = some w)
    (hp : w.phase = WaiterPhase.polling) :
    ((DebounceLast d).run circuit steps).mu = false ∧
    ((DebounceLast d).run circuit steps).once = true := by
  obtain ⟨ha, hb⟩ := run_single_waiter circuit steps (DebounceLast d) rfl
    (fun h => absurd (show false = true from h) (by decide))
  generalize (DebounceLast d).run circuit steps = s at ha hb hw ⊢
  constructor
  · cases hmu : s.mu with
    | false => rfl
    | true =>
      obtain ⟨w2, hw2, hp2⟩ := hb hmu
      rw [hw] at hw2
      rw [← Option.some.inj hw2, hp] at hp2
      exact absurd hp2 (by decide)
  · rw [ha, hw]
    rfl

/-- A section of an invocation, or a tick that reads the clock not after the
threshold, leaves a waiter in its loop as it is, but for its next tick: nothing
is executed, and only a threshold move changes the threshold. -/
theorem step_polling (circuit : Circuit) (s : Debounce) (w : Waiter) (st : DStep)
    (hw : s.waiter = some w) (hp : w.phase = WaiterPhase.polling) (hmu : s.mu = false)
    (honce : s.once = true)
    (hst : st.allowedBefore s.threshold = true) :
    (∃ w2, (s.step circuit st).waiter = some w2 ∧ w2.ctx = w.ctx ∧
      w2.phase = WaiterPhase.polling) ∧
    (s.step circuit st).mu = false ∧ (s.step circuit st).once = true ∧
    (s.step circuit st).executions = s.executions ∧
    (s.step circuit st).current = s.current ∧
    (s.step circuit st).d = s.d ∧
    (s.step circuit st).threshold = (st.moveReading.map (fun m => m + s.d)).getD s.threshold := by
  cases st with
  | invoke ctx now =>
    have hstep : s.step circuit (DStep.invoke ctx now) = { s with threshold := now + s.d } := by
      show (s.invoke ctx now).2 = _
      rw [invoke_with_waiter s ctx now honce hmu]
    rw [hstep]
    exact ⟨⟨w, hw, rfl, hp⟩, hmu, honce, rfl, rfl, rfl, rfl⟩
  | moveThreshold now =>
    have hstep : s.step circuit (DStep.moveThreshold now)
        = { s with threshold := now + s.d } := by
      show (if s.mu = true then s else s.moveThreshold now) = _
      rw [if_neg (by rw [hmu]; decide)]
      rfl
    rw [hstep]
    exact ⟨⟨w, hw, rfl, hp⟩, hmu, honce, rfl, rfl, rfl, rfl⟩
  | onceDo ctx now =>
    have hstep : s.step circuit (DStep.onceDo ctx now) = s := by
      show s.onceDo ctx now = s
      unfold Debounce.onceDo
      rw [if_pos honce]
    rw [hstep]
    exact ⟨⟨w, hw, rfl, hp⟩, hmu, honce, rfl, rfl, rfl, rfl⟩
  | tick now =>
    have hle : now ≤ s.threshold := of_decide_eq_true hst
    have hstep0 : s.step circuit (DStep.tick now) = s.waiterTick circuit w now := by
      unfold Debounce.step
      rw [hw]
      simp only [hp, hmu, and_self, if_true]
    have hstep : s.step circuit (DStep.tick now)
        = { s with waiter := some { w with nextTick := w.nextTick + tickPeriod } } := by
      rw [hstep0]
      unfold Debounce.waiterTick
      rw [if_neg (not_lt.mpr hle)]
    rw [hstep]
    exact ⟨⟨_, rfl, rfl, hp⟩, hmu, honce, rfl, rfl, rfl, rfl⟩
  | ctxDone now => exact absurd (show false = true from hst) Bool.false_ne_true
  | leave => exact absurd (show false = true from hst) Bool.false_ne_true

/-- Through steps before the deadline a waiter in its loop stays in its loop,
bound to the same context, and nothing is executed or recorded. -/
theorem run_beforeDeadline (circuit : Circuit) (pre : List DStep) :
    ∀ (s : Debounce) (w : Waiter), s.waiter = some w → w.phase = WaiterPhase.polling →
      s.mu = false → s.once = true → s.beforeDeadline circuit pre →
      (∃ w2, (s.run circuit pre).waiter = some w2 ∧ w2.ctx = w.ctx ∧
        w2.phase = WaiterPhase.polling) ∧
      (s.run circuit pre).mu = false ∧ (s.run circuit pre).once = true ∧
      (s.run circuit pre).executions = s.executions ∧
      (s.run circuit pre).current = s.current := by
  induction pre with
  | nil => intro s w hw hp hmu honce _; exact ⟨⟨w, hw, rfl, hp⟩, hmu, honce, rfl, rfl⟩
  | cons st rest ih =>
    intro s w hw hp hmu honce hpre
    obtain ⟨hst, hrest⟩ := hpre
    obtain ⟨⟨w2, hw2, hc2, hp2⟩, hmu2, honce2, hex2, hcur2, -, -⟩ :=
      step_polling circuit s w st hw hp hmu honce hst
    obtain ⟨⟨w3, hw3, hc3, hp3⟩, hmu3, honce3, hex3, hcur3⟩ :=
      ih (s.step circuit st) w2 hw2 hp2 hmu2 honce2 hrest
    exact ⟨⟨w3, hw3, hc3.trans hc2, hp3⟩, hmu3, honce3, hex3.trans hex2, hcur3.trans hcur2⟩

/-- The waiter in its loop receives from `ctx.Done()`, then runs its deferred
function. -/
theorem step_ctxDone_leave (circuit : Circuit) (s : Debounce) (w : Waiter) (c now : Time)
    (hw : s.waiter = some w) (hp : w.phase = WaiterPhase.polling) (hmu : s.mu = false)
    (hdone : w.ctx.doneAt = some c) (hnow : c ≤ now) :
    s.step circuit (DStep.ctxDone now)
      = { s with result := "", err := some w.ctx.cause,
                 waiter := some { w with phase := WaiterPhase.returning } } ∧
    (s.step circuit (DStep.ctxDone now)).step circuit DStep.leave
      = { s with result := "", err := some w.ctx.cause, once := false, waiter := none } := by
  have hd : w.ctx.isDone now = true := by
    unfold Context.isDone
    rw [hdone]
    exact decide_eq_true hnow
  have hstep0 : s.step circuit (DStep.ctxDone now) = s.waiterDone w := by
    unfold Debounce.step
    rw [hw]
    simp only [hp, hmu, hd, and_self, if_true]
  have hstep : s.step circuit (DStep.ctxDone now)
      = { s with result := "", err := some w.ctx.cause,
                 waiter := some { w with phase := WaiterPhase.returning } } := by
    rw [hstep0]
    rfl
  refine ⟨hstep, ?_⟩
  rw [hstep]
  have hexit : Debounce.step circuit
      { s with result := "", err := some w.ctx.cause,
               waiter := some { w with phase := WaiterPhase.returning } } DStep.leave
      = Debounce.waiterExit
          { s with result := "", err := some w.ctx.cause,
                   waiter := some { w with phase := WaiterPhase.returning } } := by
    unfold Debounce.step
    simp only [if_true]
  rw [hexit]
  unfold Debounce.waiterExit
  rw [if_neg (by rw [hmu]; decide)]

/-- C16 fails as stated: with a quiet period of 2 s, an invocation at 5 µs with a
context that is cancelled at 2 s + 3 µs starts a waiter and sets the threshold
to 2 s + 5 µs, so the context is cancelled before the deadline is reached; the
waiter takes the tick first and reads the clock at 2 s + 6 µs: it executes the
wrapped circuit and records its outcome, and the cancellation is never
recorded. -/
theorem C16_counterexample :
    ((DebounceLast (2 * Second)).run apiCall
        [DStep.invoke (cancelledAt (2 * Second + 3 * Microsecond)) (5 * Microsecond)]).waiter
      = some { ctx := cancelledAt (2 * Second + 3 * Microsecond),
               nextTick := 5 * Microsecond + tickPeriod, phase := WaiterPhase.polling } ∧
    ((DebounceLast (2 * Second)).run apiCall
        [DStep.invoke (cancelledAt (2 * Second + 3 * Microsecond)) (5 * Microsecond)]).threshold
      = 2 * Second + 5 * Microsecond ∧
    (cancelledAt (2 * Second + 3 * Microsecond)).isDone (2 * Second + 6 * Microsecond)
      = true ∧
    ((DebounceLast (2 * Second)).run apiCall
        [DStep.invoke (cancelledAt (2 * Second + 3 * Microsecond)) (5 * Microsecond),
         DStep.tick (2 * Second + 6 * Microsecond)]).executions
      = [{ time := 2 * Second + 6 * Microsecond,
           ctx := cancelledAt (2 * Second + 3 * Microsecond) }] ∧
    ((DebounceLast (2 * Second)).run apiCall
        [DStep.invoke (cancelledAt (2 * Second + 3 * Microsecond)) (5 * Microsecond),
         DStep.tick (2 * Second + 6 * Microsecond)]).current = (" Success", none) ∧
    ((DebounceLast (2 * Second)).run apiCall
        [DStep.invoke (cancelledAt (2 * Second + 3 * Microsecond)) (5 * Microsecond),
         DStep.tick (2 * Second + 6 * Microsecond),
         DStep.ctxDone (2 * Second + 7 * Microsecond), DStep.leave]).current
      = (" Success", none) ∧
    (((DebounceLast (2 * Second)).run apiCall
        [DStep.invoke (cancelledAt (2 * Second + 3 * Microsecond)) (5 * Microsecond),
         DStep.tick (2 * Second + 6 * Microsecond),
         DStep.ctxDone (2 * Second + 7 * Microsecond), DStep.leave]).invoke
        Context.background (3 * Second)).1 = some (" Success", none) := by
  decide

/-- C16, amended: in every cycle (a state reached from a fresh debouncer by atomic
steps in any order, with a waiter in its loop), if the context of the waiter is
cancelled before the current deadline is reached and the waiter, before it
receives from `ctx.Done()`, handles no tick that reads the clock after the
deadline then current (sections of invocations may run in between and move the
deadline), then the waiter, on receiving from `ctx.Done()`, terminates without
executing the wrapped circuit and records `("", ctx.Err())`; after its deferred
function there is no waiter and the `Once` is fresh; invocations made after the
cancellation was received, before or after the deferred function, return that
pair. -/
theorem C16_cancel_before_deadline (circuit : Circuit) (d : Duration)
    (steps0 : List DStep) (w : Waiter) (c : Time) (pre : List DStep) (now : Time)
    (hw : ((DebounceLast d).run circuit steps0).waiter = some w)
    (hp : w.phase = WaiterPhase.polling)
    (hdone : w.ctx.doneAt = some c)
    (hbefore : c < ((DebounceLast d).run circuit steps0).threshold)
    (hpre : ((DebounceLast d).run circuit steps0).beforeDeadline circuit pre)
    (hnow : c ≤ now) :
    ((DebounceLast d).run circuit (steps0 ++ pre ++ [DStep.ctxDone now])).executions
      = ((DebounceLast d).run circuit steps0).executions ∧
    ((DebounceLast d).run circuit (steps0 ++ pre ++ [DStep.ctxDone now])).current
      = ("", some w.ctx.cause) ∧
    (∃ w2, ((DebounceLast d).run circuit (steps0 ++ pre ++ [DStep.ctxDone now])).waiter
        = some w2 ∧ w2.phase = WaiterPhase.returning) ∧
    (∀ ctx2 now2,
      (((DebounceLast d).run circuit (steps0 ++ pre ++ [DStep.ctxDone now])).invoke
        ctx2 now2).1 = some ("", some w.ctx.cause)) ∧
    ((DebounceLast d).run circuit
        (steps0 ++ pre ++ [DStep.ctxDone now, DStep.leave])).executions
      = ((DebounceLast d).run circuit steps0).executions ∧
    ((DebounceLast d).run circuit
        (steps0 ++ pre ++ [DStep.ctxDone now, DStep.leave])).current
      = ("", some w.ctx.cause) ∧
    ((DebounceLast d).run circuit
        (steps0 ++ pre ++ [DStep.ctxDone now, DStep.leave])).waiter = none ∧
    ((DebounceLast d).run circuit
        (steps0 ++ pre ++ [DStep.ctxDone now, DStep.leave])).once = false ∧
    (∀ ctx2 now2,
      (((DebounceLast d).run circuit
        (steps0 ++ pre ++ [DStep.ctxDone now, DStep.leave])).invoke ctx2 now2).1
        = some ("", some w.ctx.cause)) := by
  have _ := hbefore
  obtain ⟨hmu, honce⟩ := polling_reachable circuit d steps0 w hw hp
  obtain ⟨⟨w2, hw2, hc2, hp2⟩, hmu2, -, hex2, -⟩ :=
    run_beforeDeadline circuit pre _ w hw hp hmu honce hpre
  have hdone2 : w2.ctx.doneAt = some c := by rw [hc2]; exact hdone
  obtain ⟨h1, h2⟩ := step_ctxDone_leave circuit
    (((DebounceLast d).run circuit steps0).run circuit pre) w2 c now hw2 hp2 hmu2 hdone2 hnow
  have hr1 : (DebounceLast d).run circuit (steps0 ++ pre ++ [DStep.ctxDone now])
      = (((DebounceLast d).run circuit steps0).run circuit pre).step circuit
          (DStep.ctxDone now) := by
    rw [run_append, run_append]
    rfl
  have hr2 : (DebounceLast d).run circuit (steps0 ++ pre ++ [DStep.ctxDone now, DStep.leave])
      = ((((DebounceLast d).run circuit steps0).run circuit pre).step circuit
          (DStep.ctxDone now)).step circuit DStep.leave := by
    rw [run_append, run_append]
    rfl
  have hret : ∀ (s : Debounce) (cx : Context) (t : Time), s.mu = false →
      (s.invoke cx t).1 = some s.current := by
    intro s cx t h
    rw [invoke_of_free s cx t h]
    show some ((s.moveThreshold t).onceDo cx t).current = some s.current
    rw [(onceDo_current (s.moveThreshold t) cx t).1]
    rfl
  rw [hr1, hr2, h2, h1, hc2]
  refine ⟨hex2, rfl, ⟨_, rfl, rfl⟩, fun ctx2 now2 => ?_, hex2, rfl, rfl, rfl,
    fun ctx2 now2 => ?_⟩
  · exact hret _ ctx2 now2 hmu2
  · exact hret _ ctx2 now2 hmu2

theorem C16_cancel_before_deadline_witness :
    ((DebounceLast (2 * Second)).run apiCall
        ([DStep.invoke (cancelledAt (1 * Second)) 0]
          ++ [DStep.tick (100 * Millisecond), DStep.invoke otherContext (500 * Millisecond),
              DStep.tick (900 * Millisecond)]
          ++ [DStep.ctxDone (1005 * Millisecond), DStep.leave])).executions = [] ∧
    ((DebounceLast (2 * Second)).run apiCall
        ([DStep.invoke (cancelledAt (1 * Second)) 0]
          ++ [DStep.tick (100 * Millisecond), DStep.invoke otherContext (500 * Millisecond),
              DStep.tick (900 * Millisecond)]
          ++ [DStep.ctxDone (1005 * Millisecond), DStep.leave])).current
      = ("", some GoError.canceled) ∧
    (((DebounceLast (2 * Second)).run apiCall
        ([DStep.invoke (cancelledAt (1 * Second)) 0]
          ++ [DStep.tick (100 * Millisecond), DStep.invoke otherContext (500 * Millisecond),
              DStep.tick (900 * Millisecond)]
          ++ [DStep.ctxDone (1005 * Millisecond), DStep.leave])).invoke
        Context.background (3 * Second)).1 = some ("", some GoError.canceled) :=
  have h := C16_cancel_before_deadline apiCall (2 * Second)
    [DStep.invoke (cancelledAt (1 * Second)) 0]
    { ctx := cancelledAt (1 * Second), nextTick := 100 * Millisecond,
      phase := WaiterPhase.polling }
    (1 * Second)
    [DStep.tick (100 * Millisecond), DStep.invoke otherContext (500 * Millisecond),
     DStep.tick (900 * Millisecond)]
    (1005 * Millisecond) (by decide) rfl rfl (by decide) (by decide) (by decide)
  ⟨h.2.2.2.2.1, h.2.2.2.2.2.1, h.2.2.2.2.2.2.2.2 Context.background (3 * Second)⟩

/-! ### The deferred reset of the `Once` -/

/-- C17, at the failing interleaving: the second invocation arrives after the
circuit has run and before the deferred function of the waiter; it returns the
fresh outcome, finds the `Once` still used and starts no waiter; after the
deferred function there is no waiter although the threshold was moved to
4.15 s, and no step of a waiter changes anything any more: the circuit is never
executed for the second invocation.  For contrast: had the deferred function
run before the second invocation, that invocation would have started a fresh
waiter; and on the timeline, where the waiter leaves in the round in which it
runs the circuit, a second burst at 5 s leads to a second execution. -/
theorem C17_trigger_lost :
    (((DebounceLast (2 * Second)).run apiCall (lostTriggerSteps.take 2)).invoke otherContext
        (2150 * Millisecond)).1 = some (" Success", none) ∧
    ((DebounceLast (2 * Second)).run apiCall (lostTriggerSteps.take 3)).waiter
      = some { ctx := Context.background, nextTick := 100 * Millisecond,
               phase := WaiterPhase.returning } ∧
    ((DebounceLast (2 * Second)).run apiCall lostTriggerSteps).waiter = none ∧
    ((DebounceLast (2 * Second)).run apiCall lostTriggerSteps).once = false ∧
    ((DebounceLast (2 * Second)).run apiCall lostTriggerSteps).threshold
      = 4150 * Millisecond ∧
    ((DebounceLast (2 * Second)).run apiCall lostTriggerSteps).executions
      = [{ time := 2100 * Millisecond, ctx := Context.background }] ∧
    (∀ t, ((DebounceLast (2 * Second)).run apiCall lostTriggerSteps).step apiCall
        (DStep.tick t) = (DebounceLast (2 * Second)).run apiCall lostTriggerSteps) ∧
    (∀ t, ((DebounceLast (2 * Second)).run apiCall lostTriggerSteps).step apiCall
        (DStep.ctxDone t) = (DebounceLast (2 * Second)).run apiCall lostTriggerSteps) ∧
    ((DebounceLast (2 * Second)).run apiCall lostTriggerSteps).step apiCall DStep.leave
      = (DebounceLast (2 * Second)).run apiCall lostTriggerSteps ∧
    ((DebounceLast (2 * Second)).run apiCall
        [DStep.invoke Context.background 0, DStep.tick (2100 * Millisecond), DStep.leave,
         DStep.invoke otherContext (2150 * Millisecond)]).waiter
      = some { ctx := otherContext, nextTick := 2250 * Millisecond,
               phase := WaiterPhase.polling } ∧
    (runBurst apiCall (2 * Second) [⟨0, Context.background⟩, ⟨5 * Second, otherContext⟩]
        (10 * Second)).executions
      = [{ time := 2100 * Millisecond, ctx := Context.background },
         { time := 7100 * Millisecond, ctx := otherContext }] := by
  refine ⟨by decide, by decide, by decide, by decide, by decide, by decide,
    fun t => rfl, fun t => rfl, rfl, by decide, by decide⟩

/-- C18, at the failing input: with a circuit that panics, the waiter started by
an invocation at instant 0 (quiet period 2 s) runs the circuit at 2.1 s with
the mutex held; its deferred function blocks on `mu.Lock()`: at 10 s the mutex
is still held, the `Once` is still used, the waiter has not gone, and an
invocation blocks for ever (it returns nothing and starts no waiter). -/
theorem C18_panic_wedges :
    (runBurst panicking (2 * Second) [⟨0, Context.background⟩] (10 * Second)).executions
      = [{ time := 2100 * Millisecond, ctx := Context.background }] ∧
    (runBurst panicking (2 * Second) [⟨0, Context.background⟩] (10 * Second)).mu = true ∧
    (runBurst panicking (2 * Second) [⟨0, Context.background⟩] (10 * Second)).once = true ∧
    (runBurst panicking (2 * Second) [⟨0, Context.background⟩] (10 * Second)).waiter
      = some { ctx := Context.background, nextTick := 2100 * Millisecond,
               phase := WaiterPhase.returning } ∧
    (runBurst panicking (2 * Second) [⟨0, Context.background⟩] (10 * Second)).waiterExit
      = runBurst panicking (2 * Second) [⟨0, Context.background⟩] (10 * Second) ∧
    (runBurst panicking (2 * Second) [⟨0, Context.background⟩] (10 * Second)).invoke
        Context.background (11 * Second)
      = (none, runBurst panicking (2 * Second) [⟨0, Context.background⟩] (10 * Second)) := by
  decide

/-! ### The context of the waiter -/

/-- With the `Once` used, the context passed to an invocation plays no part. -/
theorem invoke_ctx_irrelevant (s : Debounce) (ctx ctx2 : Context) (now : Time)
    (honce : s.once = true) : s.invoke ctx now = s.invoke ctx2 now := by
  cases hmu : s.mu with
  | true => rw [invoke_of_held s ctx now hmu, invoke_of_held s ctx2 now hmu]
  | false =>
    rw [invoke_with_waiter s ctx now honce hmu, invoke_with_waiter s ctx2 now honce hmu]

/-- While the waiter stays in its loop, a schedule of invocations leads to the
same state whatever contexts are passed. -/
theorem simulate_ctx_irrelevant (circuit : Circuit) (d : Duration) (ctx : Context)
    (rest : List Invocation) :
    ∀ (rest2 : List Invocation) (a : Invocation) (s : Debounce) (x : Time),
      rest2.map Invocation.now = rest.map Invocation.now →
      Burst d (a :: rest) → s.d = d → s.mu = false → s.once = true →
      s.waiter = some { ctx := ctx, nextTick := x, phase := WaiterPhase.polling } →
      s.threshold = a.now + d →
      (∀ c, ctx.doneAt = some c → lastNow (a :: rest) ≤ c) →
      s.simulate circuit rest2 = s.simulate circuit rest := by
  induction rest with
  | nil =>
    intro rest2 a s x hmap _ _ _ _ _ _ _
    have : rest2 = [] := by simpa using hmap
    rw [this]
  | cons b rest ih =>
    intro rest2 a s x hmap hb hd hmu honce hw hth hc
    cases rest2 with
    | nil => simp at hmap
    | cons b2 rest2 =>
      simp only [List.map_cons, List.cons.injEq] at hmap
      obtain ⟨hnow, hmap2⟩ := hmap
      have hb2 : (a.now ≤ b.now ∧ b.now < a.now + d) ∧ Burst d (b :: rest) := hb
      have hcb : ∀ c, ctx.doneAt = some c → b.now ≤ c := fun c hdone =>
        le_trans (lastNow_ge d rest b hb2.2 b (List.mem_cons_self _ _)) (hc c hdone)
      obtain ⟨y, hy, -⟩ := advance_idle circuit b.now ctx (s.rounds b.now) s x hw hcb
        (by rw [hth]; exact le_of_lt hb2.1.2)
      have hrun : s.runUntil circuit b.now
          = { s with waiter := some { ctx := ctx, nextTick := y,
                                      phase := WaiterPhase.polling } } := hy
      have hinv : ∀ cB : Context, ((s.runUntil circuit b.now).invoke cB b.now).2
          = { s with threshold := b.now + d,
                     waiter := some { ctx := ctx, nextTick := y,
                                      phase := WaiterPhase.polling } } := by
        intro cB
        rw [hrun]
        unfold Debounce.invoke Debounce.moveThreshold Debounce.onceDo
        simp only [hmu, honce, hd, if_true, Bool.false_eq_true, if_false]
      have hstep : s.simulate circuit (b :: rest)
          = Debounce.simulate circuit (((s.runUntil circuit b.now).invoke b.ctx b.now).2)
              rest := rfl
      have hstep2 : s.simulate circuit (b2 :: rest2)
          = Debounce.simulate circuit
              (((s.runUntil circuit b2.now).invoke b2.ctx b2.now).2) rest2 := rfl
      rw [hstep, hstep2, hnow, hinv b.ctx, hinv b2.ctx]
      exact ih rest2 b
        { s with threshold := b.now + d,
                 waiter := some { ctx := ctx, nextTick := y, phase := WaiterPhase.polling } }
        y hmap2 hb2.2 hd hmu honce rfl rfl hc

/-- A round of the waiter executes the circuit with the context of the waiter
only, and a waiter that remains has the same context. -/
theorem waiterRound_ctx (circuit : Circuit) (upto : Time) (s s1 : Debounce) (w : Waiter)
    (hw : s.waiter = some w) (h : s.waiterRound circuit upto = some s1) :
    (∀ e ∈ s1.executions, e ∈ s.executions ∨ e.ctx = w.ctx) ∧
    (∀ w1, s1.waiter = some w1 → w1.ctx = w.ctx) := by
  unfold Debounce.waiterRound at h
  rw [hw] at h
  simp only at h
  cases hp : w.phase with
  | returning =>
    rw [hp] at h
    simp at h
  | polling =>
    rw [hp] at h
    simp only at h
    cases hdf : w.doneFirst with
    | some c =>
      rw [hdf] at h
      simp only at h
      by_cases hc : c < upto
      · rw [if_pos hc] at h
        have h1 : s1 = (s.waiterDone w).waiterExit := (Option.some.inj h).symm
        rw [h1]
        unfold Debounce.waiterExit Debounce.waiterDone
        cases hmu : s.mu with
        | true =>
          simp only [if_true]
          exact ⟨fun e he => Or.inl he, fun w1 hw1 => by rw [← Option.some.inj hw1]⟩
        | false =>
          simp only [Bool.false_eq_true, if_false]
          exact ⟨fun e he => Or.inl he, fun w1 hw1 => by simp at hw1⟩
      · rw [if_neg hc] at h
        simp at h
    | none =>
      rw [hdf] at h
      simp only at h
      by_cases hx : w.nextTick < upto
      · rw [if_pos hx] at h
        unfold Debounce.waiterTick at h
        by_cases hth : w.nextTick > s.threshold
        · rw [if_pos hth] at h
          cases hcirc : circuit w.ctx with
          | returns r e =>
            rw [hcirc] at h
            simp only [if_true] at h
            have h1 := (Option.some.inj h).symm
            rw [h1]
            unfold Debounce.waiterExit
            cases hmu : s.mu with
            | true =>
              simp only [if_true]
              refine ⟨fun e he => ?_, fun w1 hw1 => by rw [← Option.some.inj hw1]⟩
              rcases List.mem_append.mp he with h2 | h2
              · exact Or.inl h2
              · rw [List.mem_singleton] at h2
                rw [h2]
                exact Or.inr rfl
            | false =>
              simp only [Bool.false_eq_true, if_false]
              refine ⟨fun e he => ?_, fun w1 hw1 => by simp at hw1⟩
              rcases List.mem_append.mp he with h2 | h2
              · exact Or.inl h2
              · rw [List.mem_singleton] at h2
                rw [h2]
                exact Or.inr rfl
          | panics =>
            rw [hcirc] at h
            simp only [if_true] at h
            have h1 := (Option.some.inj h).symm
            rw [h1]
            unfold Debounce.waiterExit
            simp only [if_true]
            refine ⟨fun e he => ?_, fun w1 hw1 => by rw [← Option.some.inj hw1]⟩
            rcases List.mem_append.mp he with h2 | h2
            · exact Or.inl h2
            · rw [List.mem_singleton] at h2
              rw [h2]
              exact Or.inr rfl
        · rw [if_neg hth] at h
          simp only [hp] at h
          have h1 := (Option.some.inj h).symm
          rw [h1]
          exact ⟨fun e he => Or.inl he, fun w1 hw1 => by rw [← Option.some.inj hw1]⟩
      · rw [if_neg hx] at h
        simp at h

/-- Whatever the waiter does, the circuit is executed with its context only. -/
theorem advance_exec_ctx (circuit : Circuit) (upto : Time) (fuel : Nat) :
    ∀ (s : Debounce) (w : Waiter), s.waiter = some w →
      ∀ e ∈ (Debounce.advance circuit upto fuel s).executions,
        e ∈ s.executions ∨ e.ctx = w.ctx := by
  induction fuel with
  | zero => intro s w _ e he; exact Or.inl he
  | succ n ih =>
    intro s w hw e he
    have hadv : Debounce.advance circuit upto (n + 1) s
        = match s.waiterRound circuit upto with
          | none => s
          | some s1 => Debounce.advance circuit upto n s1 := rfl
    rw [hadv] at he
    cases hr : s.waiterRound circuit upto with
    | none =>
      rw [hr] at he
      exact Or.inl he
    | some s1 =>
      rw [hr] at he
      simp only at he
      obtain ⟨h1, h2⟩ := waiterRound_ctx circuit upto s s1 w hw hr
      cases hw1 : s1.waiter with
      | none =>
        rw [advance_no_waiter circuit upto n s1 hw1] at he
        exact h1 e he
      | some w1 =>
        rcases ih s1 w1 hw1 e he with h3 | h3
        · exact h1 e h3
        · exact Or.inr (h3.trans (h2 w1 hw1))

/-- On the timeline, with whole invocations: for every burst on a fresh debouncer
during which the context of the first invocation is not cancelled, the waiter
is bound to that context: the
contexts passed by the later invocations of the burst are ignored (with any
other contexts, cancelled or not, at the same instants the debouncer ends in
the same state at every horizon, recorded outcome and executions included), and
every execution of the wrapped circuit is made with the context of the first
invocation.  In any state with the `Once` used, an invocation does the same
whatever context it is given. -/
theorem runBurst_ctx_irrelevant (circuit : Circuit) (d : Duration)
    (first : Invocation) (rest rest2 : List Invocation)
    (hburst : Burst d (first :: rest))
    (hctx : ∀ c, first.ctx.doneAt = some c → lastNow (first :: rest) ≤ c)
    (htimes : rest2.map Invocation.now = rest.map Invocation.now) :
    (∀ horizon, runBurst circuit d (first :: rest2) horizon
      = runBurst circuit d (first :: rest) horizon) ∧
    (∀ horizon e, e ∈ (runBurst circuit d (first :: rest) horizon).executions →
      e.ctx = first.ctx) ∧
    (∀ (s : Debounce) (ctx ctx2 : Context) (now : Time), s.once = true →
      s.invoke ctx now = s.invoke ctx2 now) := by
  have hstart : (((DebounceLast d).runUntil circuit first.now).invoke first.ctx first.now).2
      = { d := d, mu := false, threshold := first.now + d, result := "", err := none,
          once := true,
          waiter := some { ctx := first.ctx, nextTick := first.now + tickPeriod,
                           phase := WaiterPhase.polling },
          executions := [] } := rfl
  have hsim : ∀ l : List Invocation, (DebounceLast d).simulate circuit (first :: l)
      = Debounce.simulate circuit
          { d := d, mu := false, threshold := first.now + d, result := "", err := none,
            once := true,
            waiter := some { ctx := first.ctx, nextTick := first.now + tickPeriod,
                             phase := WaiterPhase.polling },
            executions := [] } l := by
    intro l
    rw [← hstart]
    rfl
  have heq := simulate_ctx_irrelevant circuit d first.ctx rest rest2 first
    { d := d, mu := false, threshold := first.now + d, result := "", err := none,
      once := true,
      waiter := some { ctx := first.ctx, nextTick := first.now + tickPeriod,
                       phase := WaiterPhase.polling },
      executions := [] }
    (first.now + tickPeriod) htimes hburst rfl rfl rfl rfl rfl hctx
  obtain ⟨y, -, hw, -, hex, -⟩ := simulate_burst circuit d first.ctx rest first
    { d := d, mu := false, threshold := first.now + d, result := "", err := none,
      once := true,
      waiter := some { ctx := first.ctx, nextTick := first.now + tickPeriod,
                       phase := WaiterPhase.polling },
      executions := [] }
    (first.now + tickPeriod) hburst rfl rfl rfl rfl rfl rfl (le_refl _) hctx
  refine ⟨fun horizon => ?_, fun horizon e he => ?_,
    fun s ctx ctx2 now honce => invoke_ctx_irrelevant s ctx ctx2 now honce⟩
  · unfold runBurst
    rw [hsim rest2, hsim rest, heq]
  · unfold runBurst Debounce.runUntil at he
    rw [hsim rest] at he
    rcases advance_exec_ctx circuit horizon _ _ _ hw e he with h | h
    · rw [hex] at h
      simp at h
    · exact h

/-- Only the deferred function of the waiter frees the `Once`. -/
theorem step_once_kept (circuit : Circuit) (s : Debounce) (st : DStep)
    (honce : s.once = true) (hst : st ≠ DStep.leave) : (s.step circuit st).once = true := by
  cases st with
  | invoke ctx now =>
    show (s.invoke ctx now).2.once = true
    cases hmu : s.mu with
    | true => rw [invoke_of_held s ctx now hmu]; exact honce
    | false => rw [invoke_with_waiter s ctx now honce hmu]; exact honce
  | moveThreshold now =>
    show (if s.mu = true then s else s.moveThreshold now).once = true
    split
    · exact honce
    · exact honce
  | onceDo ctx now =>
    show (s.onceDo ctx now).once = true
    unfold Debounce.onceDo
    rw [if_pos honce]
    exact honce
  | tick now =>
    unfold Debounce.step
    cases hw : s.waiter with
    | none => exact honce
    | some w =>
      simp only
      split
      · unfold Debounce.waiterTick
        split
        · cases circuit w.ctx <;> exact honce
        · exact honce
      · exact honce
  | ctxDone now =>
    unfold Debounce.step
    cases hw : s.waiter with
    | none => exact honce
    | some w =>
      simp only
      split
      · exact honce
      · exact honce
  | leave => exact absurd rfl hst

/-- With the `Once` used, a step does the same whatever context it carries. -/
theorem step_withCtx (circuit : Circuit) (s : Debounce) (st : DStep)
    (f : Context → Context) (honce : s.once = true) :
    s.step circuit (st.withCtx f) = s.step circuit st := by
  cases st with
  | invoke ctx now =>
    show (s.invoke (f ctx) now).2 = (s.invoke ctx now).2
    rw [invoke_ctx_irrelevant s (f ctx) ctx now honce]
  | onceDo ctx now =>
    show s.onceDo (f ctx) now = s.onceDo ctx now
    unfold Debounce.onceDo
    rw [if_pos honce, if_pos honce]
  | moveThreshold now => rfl
  | tick now => rfl
  | ctxDone now => rfl
  | leave => rfl

/-- Until the deferred function of the waiter runs, the contexts carried by the
sections of invocations play no part. -/
theorem run_withCtx (circuit : Circuit) (f : Context → Context) (steps : List DStep) :
    ∀ s : Debounce, s.once = true → DStep.leave ∉ steps →
      s.run circuit (steps.map (DStep.withCtx f)) = s.run circuit steps := by
  induction steps with
  | nil => intro s _ _; rfl
  | cons st rest ih =>
    intro s honce hno
    have hst : st ≠ DStep.leave := fun h => hno (h ▸ List.mem_cons_self _ _)
    have hrest : DStep.leave ∉ rest := fun h => hno (List.mem_cons_of_mem _ h)
    show Debounce.run circuit (s.step circuit (st.withCtx f)) (rest.map (DStep.withCtx f))
      = Debounce.run circuit (s.step circuit st) rest
    rw [step_withCtx circuit s st f honce]
    exact ih _ (step_once_kept circuit s st honce hst) hrest

/-- A step keeps the waiter bound to its context, or ends it. -/
theorem step_waiter_ctx (circuit : Circuit) (s : Debounce) (st : DStep) (w : Waiter)
    (hw : s.waiter = some w) (honce : s.once = true) :
    (s.step circuit st).waiter = none ∨
    ∃ w2, (s.step circuit st).waiter = some w2 ∧ w2.ctx = w.ctx := by
  cases st with
  | invoke ctx now =>
    right
    show ∃ w2, (s.invoke ctx now).2.waiter = some w2 ∧ w2.ctx = w.ctx
    cases hmu : s.mu with
    | true => rw [invoke_of_held s ctx now hmu]; exact ⟨w, hw, rfl⟩
    | false => rw [invoke_with_waiter s ctx now honce hmu]; exact ⟨w, hw, rfl⟩
  | moveThreshold now =>
    right
    show ∃ w2, (if s.mu = true then s else s.moveThreshold now).waiter = some w2 ∧ _
    split
    · exact ⟨w, hw, rfl⟩
    · exact ⟨w, hw, rfl⟩
  | onceDo ctx now =>
    right
    show ∃ w2, (s.onceDo ctx now).waiter = some w2 ∧ _
    unfold Debounce.onceDo
    rw [if_pos honce]
    exact ⟨w, hw, rfl⟩
  | tick now =>
    right
    unfold Debounce.step
    rw [hw]
    simp only
    split
    · unfold Debounce.waiterTick
      split
      · cases circuit w.ctx <;> exact ⟨_, rfl, rfl⟩
      · exact ⟨_, rfl, rfl⟩
    · exact ⟨w, hw, rfl⟩
  | ctxDone now =>
    right
    unfold Debounce.step
    rw [hw]
    simp only
    split
    · exact ⟨_, rfl, rfl⟩
    · exact ⟨w, hw, rfl⟩
  | leave =>
    unfold Debounce.step
    rw [hw]
    simp only
    split
    · unfold Debounce.waiterExit
      split
      · exact Or.inr ⟨w, hw, rfl⟩
      · exact Or.inl rfl
    · exact Or.inr ⟨w, hw, rfl⟩

/-- C20 fails as stated: with a quiet period of 2 s, the first invocation of a
burst comes at instant 0 with a context that is cancelled at 0.5 s, and its
waiter ends on that cancellation; the second invocation of the same burst, at
1 s, starts a new waiter bound to its own context.  With
`context.Background()` there the circuit is executed at 3.1 s, with the context
of the second invocation and not that of the first; with a context that is
cancelled at 1.1 s there, the waiter is stopped, nothing is executed, and the
recorded outcome differs. -/
theorem C20_counterexample :
    ((DebounceLast (2 * Second)).run apiCall
        [DStep.invoke (cancelledAt (500 * Millisecond)) 0, DStep.ctxDone (500 * Millisecond),
         DStep.leave, DStep.invoke Context.background (1 * Second)]).waiter
      = some { ctx := Context.background, nextTick := 1 * Second + tickPeriod,
               phase := WaiterPhase.polling } ∧
    ((DebounceLast (2 * Second)).run apiCall
        [DStep.invoke (cancelledAt (500 * Millisecond)) 0, DStep.ctxDone (500 * Millisecond),
         DStep.leave, DStep.invoke Context.background (1 * Second),
         DStep.ctxDone (1200 * Millisecond), DStep.tick (3100 * Millisecond),
         DStep.leave]).executions
      = [{ time := 3100 * Millisecond, ctx := Context.background }] ∧
    ((DebounceLast (2 * Second)).run apiCall
        [DStep.invoke (cancelledAt (500 * Millisecond)) 0, DStep.ctxDone (500 * Millisecond),
         DStep.leave, DStep.invoke Context.background (1 * Second),
         DStep.ctxDone (1200 * Millisecond), DStep.tick (3100 * Millisecond),
         DStep.leave]).current = (" Success", none) ∧
    ((DebounceLast (2 * Second)).run apiCall
        [DStep.invoke (cancelledAt (500 * Millisecond)) 0, DStep.ctxDone (500 * Millisecond),
         DStep.leave, DStep.invoke (cancelledAt (1100 * Millisecond)) (1 * Second),
         DStep.ctxDone (1200 * Millisecond), DStep.tick (3100 * Millisecond),
         DStep.leave]).executions = [] ∧
    ((DebounceLast (2 * Second)).run apiCall
        [DStep.invoke (cancelledAt (500 * Millisecond)) 0, DStep.ctxDone (500 * Millisecond),
         DStep.leave, DStep.invoke (cancelledAt (1100 * Millisecond)) (1 * Second),
         DStep.ctxDone (1200 * Millisecond), DStep.tick (3100 * Millisecond),
         DStep.leave]).current = ("", some GoError.canceled) ∧
    Burst (2 * Second)
      [⟨0, cancelledAt (500 * Millisecond)⟩, ⟨1 * Second, Context.background⟩] := by
  decide

/-- C20, amended: in every state reached from a fresh debouncer by atomic steps
in any order, the waiter is bound to the context of the invocation whose
`once.Do` started it: with the `Once` unused, the `once.Do` of an invocation
(alone or within a whole invocation) starts the waiter with the context of that
invocation; every step keeps the context of an existing waiter or ends the
waiter; the wrapped circuit is executed by the waiter only, with the context of
the waiter; and the contexts passed by invocations made while the `Once` is in
use are ignored: until the deferred function of the waiter runs, any steps with
the contexts of the invocations replaced by any others, cancelled or not, lead
to the same state, recorded outcome and executions included, so that
cancelling one of them neither stops the waiter nor changes the recorded
outcome. -/
theorem C20_waiter_bound_to_context (circuit : Circuit) (d : Duration)
    (steps : List DStep) :
    (((DebounceLast d).run circuit steps).once = false →
      ∀ ctx now,
        (((DebounceLast d).run circuit steps).step circuit (DStep.invoke ctx now)).waiter
          = some { ctx := ctx, nextTick := now + tickPeriod, phase := WaiterPhase.polling } ∧
        (((DebounceLast d).run circuit steps).step circuit (DStep.onceDo ctx now)).waiter
          = some { ctx := ctx, nextTick := now + tickPeriod, phase := WaiterPhase.polling }) ∧
    (∀ w st, ((DebounceLast d).run circuit steps).waiter = some w →
      (((DebounceLast d).run circuit steps).step circuit st).waiter = none ∨
      ∃ w2, (((DebounceLast d).run circuit steps).step circuit st).waiter = some w2 ∧
        w2.ctx = w.ctx) ∧
    (∀ st, (((DebounceLast d).run circuit steps).step circuit st).executions
        = ((DebounceLast d).run circuit steps).executions ∨
      ∃ t w, st = DStep.tick t ∧ ((DebounceLast d).run circuit steps).waiter = some w ∧
        (((DebounceLast d).run circuit steps).step circuit st).executions
          = ((DebounceLast d).run circuit steps).executions
              ++ [{ time := t, ctx := w.ctx }]) ∧
    (((DebounceLast d).run circuit steps).once = true →
      ∀ (more : List DStep) (f : Context → Context), DStep.leave ∉ more →
        ((DebounceLast d).run circuit steps).run circuit (more.map (DStep.withCtx f))
          = ((DebounceLast d).run circuit steps).run circuit more) := by
  obtain ⟨ha, hb⟩ := run_single_waiter circuit steps (DebounceLast d) rfl
    (fun h => absurd (show false = true from h) (by decide))
  generalize (DebounceLast d).run circuit steps = s at ha hb ⊢
  refine ⟨fun honce ctx now => ?_, fun w st hw => ?_, fun st => ?_,
    fun honce more f hno => run_withCtx circuit f more s honce hno⟩
  · have hwn : s.waiter = none := by
      cases hw : s.waiter with
      | none => rfl
      | some w => rw [hw, honce] at ha; simp at ha
    have hmu : s.mu = false := by
      cases hmu : s.mu with
      | false => rfl
      | true =>
        obtain ⟨w2, hw2, -⟩ := hb hmu
        rw [hwn] at hw2
        simp at hw2
    have h1 : s.onceDo ctx now
        = { s with once := true,
                   waiter := some { ctx := ctx, nextTick := now + tickPeriod,
                                    phase := WaiterPhase.polling } } := by
      unfold Debounce.onceDo
      rw [if_neg (by rw [honce]; decide)]
    have h2 : (s.moveThreshold now).onceDo ctx now
        = { s with threshold := now + s.d, once := true,
                   waiter := some { ctx := ctx, nextTick := now + tickPeriod,
                                    phase := WaiterPhase.polling } } := by
      unfold Debounce.onceDo
      rw [if_neg (by show ¬ (s.once = true); rw [honce]; decide)]
      rfl
    constructor
    · show (s.invoke ctx now).2.waiter = _
      rw [invoke_of_free s ctx now hmu, h2]
    · show (s.onceDo ctx now).waiter = _
      rw [h1]
  · have honce : s.once = true := by rw [ha, hw]; rfl
    exact step_waiter_ctx circuit s st w hw honce
  · rcases step_executions circuit s st with h | ⟨t, w, h1, h2, -, -, h3⟩
    · exact Or.inl h
    · exact Or.inr ⟨t, w, h1, h2, h3⟩

theorem C20_waiter_bound_to_context_witness :
    ((DebounceLast (2 * Second)).run apiCall []).once = false ∧
    (((DebounceLast (2 * Second)).run apiCall []).step apiCall
        (DStep.invoke otherContext 0)).waiter
      = some { ctx := otherContext, nextTick := 0 + tickPeriod,
               phase := WaiterPhase.polling } ∧
    ((DebounceLast (2 * Second)).run apiCall [DStep.invoke Context.background 0]).once
      = true ∧
    ((DebounceLast (2 * Second)).run apiCall [DStep.invoke Context.background 0]).run apiCall
        ([DStep.tick (100 * Millisecond),
          DStep.invoke Context.background (500 * Millisecond),
          DStep.moveThreshold (1000 * Millisecond),
          DStep.onceDo Context.background (1000 * Millisecond),
          DStep.ctxDone (1100 * Millisecond),
          DStep.tick (3100 * Millisecond)].map
            (DStep.withCtx (fun _ => cancelledAt (600 * Millisecond))))
      = ((DebounceLast (2 * Second)).run apiCall [DStep.invoke Context.background 0]).run
          apiCall
          [DStep.tick (100 * Millisecond),
           DStep.invoke Context.background (500 * Millisecond),
           DStep.moveThreshold (1000 * Millisecond),
           DStep.onceDo Context.background (1000 * Millisecond),
           DStep.ctxDone (1100 * Millisecond),
           DStep.tick (3100 * Millisecond)] ∧
    (((DebounceLast (2 * Second)).run apiCall [DStep.invoke Context.background 0]).run
        apiCall
        ([DStep.tick (100 * Millisecond),
          DStep.invoke Context.background (500 * Millisecond),
          DStep.moveThreshold (1000 * Millisecond),
          DStep.onceDo Context.background (1000 * Millisecond),
          DStep.ctxDone (1100 * Millisecond),
          DStep.tick (3100 * Millisecond)].map
            (DStep.withCtx (fun _ => cancelledAt (600 * Millisecond))))).executions
      = [{ time := 3100 * Millisecond, ctx := Context.background }] :=
  have h0 := C20_waiter_bound_to_context apiCall (2 * Second) []
  have h1 := C20_waiter_bound_to_context apiCall (2 * Second)
    [DStep.invoke Context.background 0]
  ⟨rfl, (h0.1 rfl otherContext 0).1, rfl,
   h1.2.2.2 rfl _ (fun _ => cancelledAt (600 * Millisecond)) (by decide), by decide⟩


/-! ### Bursts on interleavings -/

theorem step_d (circuit : Circuit) (s : Debounce) (st : DStep) :
    (s.step circuit st).d = s.d := by
  cases st with
  | invoke ctx now =>
    show (s.invoke ctx now).2.d = s.d
    unfold Debounce.invoke Debounce.onceDo Debounce.moveThreshold
    split
    · rfl
    · simp only
      split <;> rfl
  | moveThreshold now =>
    show (if s.mu = true then s else s.moveThreshold now).d = s.d
    split <;> rfl
  | onceDo ctx now =>
    show (s.onceDo ctx now).d = s.d
    unfold Debounce.onceDo
    split <;> rfl
  | tick now =>
    unfold Debounce.step
    cases hw : s.waiter with
    | none => rfl
    | some w =>
      simp only
      split
      · unfold Debounce.waiterTick
        split
        · cases circuit w.ctx <;> rfl
        · rfl
      · rfl
  | ctxDone now =>
    unfold Debounce.step
    cases hw : s.waiter with
    | none => rfl
    | some w =>
      simp only
      split <;> rfl
  | leave =>
    unfold Debounce.step
    cases hw : s.waiter with
    | none => rfl
    | some w =>
      simp only
      split
      · unfold Debounce.waiterExit
        split <;> rfl
      · rfl

theorem run_d (circuit : Circuit) (steps : List DStep) :
    ∀ s : Debounce, (s.run circuit steps).d = s.d := by
  induction steps with
  | nil => intro s; rfl
  | cons st rest ih => intro s; exact (ih _).trans (step_d circuit s st)

/-- While a threshold move is still to come, the clock has not reached the
threshold. -/
theorem burst_clk_lt (d : Duration) (rest : List DStep) :
    ∀ (m clk : Time), BurstSchedule d m clk rest → hasMove rest = true → clk < m + d := by
  induction rest with
  | nil => intro m clk _ h; exact absurd h (by decide)
  | cons st rest ih =>
    intro m clk h hm
    cases st with
    | invoke ctx now =>
      have h2 : clk ≤ now ∧ now < m + d ∧ BurstSchedule d now now rest := h
      linarith [h2.1, h2.2.1]
    | moveThreshold now =>
      have h2 : clk ≤ now ∧ now < m + d ∧ BurstSchedule d now now rest := h
      linarith [h2.1, h2.2.1]
    | onceDo ctx now =>
      have h2 : BurstSchedule d m clk rest := h
      have hm2 : hasMove rest = true := hm
      exact ih m clk h2 hm2
    | tick now =>
      have h2 : clk ≤ now ∧ (hasMove rest = false → now ≤ m + d) ∧
          BurstSchedule d m now rest := h
      have hm2 : hasMove rest = true := hm
      have := ih m now h2.2.2 hm2
      linarith [h2.1]
    | ctxDone now => exact (show False from h).elim
    | leave => exact (show False from h).elim

/-- The steps of an invocation and a tick on a debouncer without waiter. -/
theorem step_idle (circuit : Circuit) (s : Debounce) (hw : s.waiter = none)
    (honce : s.once = false) (hmu : s.mu = false) (ctx : Context) (now : Time) :
    s.step circuit (DStep.invoke ctx now)
      = { s with threshold := now + s.d, once := true,
                 waiter := some { ctx := ctx, nextTick := now + tickPeriod,
                                  phase := WaiterPhase.polling } } ∧
    s.step circuit (DStep.moveThreshold now) = { s with threshold := now + s.d } ∧
    s.step circuit (DStep.onceDo ctx now)
      = { s with once := true,
                 waiter := some { ctx := ctx, nextTick := now + tickPeriod,
                                  phase := WaiterPhase.polling } } ∧
    s.step circuit (DStep.tick now) = s := by
  refine ⟨?_, ?_, ?_, ?_⟩
  · show (s.invoke ctx now).2 = _
    rw [invoke_of_free s ctx now hmu]
    unfold Debounce.onceDo
    rw [if_neg (by show ¬ (s.once = true); rw [honce]; decide)]
    rfl
  · show (if s.mu = true then s else s.moveThreshold now) = _
    rw [if_neg (by rw [hmu]; decide)]
    rfl
  · show s.onceDo ctx now = _
    unfold Debounce.onceDo
    rw [if_neg (by rw [honce]; decide)]
  · unfold Debounce.step
    rw [hw]

/-- One step of a burst keeps the mutex free, the `Once` used exactly when a
waiter exists, the waiter in its loop and bound to its context, and the
threshold at `d` after the last threshold move; nothing is executed. -/
theorem burst_step (circuit : Circuit) (s : Debounce) (st : DStep) (rest : List DStep)
    (m clk : Time) (hmu : s.mu = false) (ha : s.once = s.waiter.isSome)
    (hpoll : ∀ w, s.waiter = some w → w.phase = WaiterPhase.polling)
    (hth : s.threshold = m + s.d) (hs : BurstSchedule s.d m clk (st :: rest)) :
    ∃ m2 clk2, BurstSchedule s.d m2 clk2 rest ∧ lastMove m (st :: rest) = lastMove m2 rest ∧
      (s.step circuit st).mu = false ∧
      (s.step circuit st).once = (s.step circuit st).waiter.isSome ∧
      (∀ w, (s.step circuit st).waiter = some w → w.phase = WaiterPhase.polling) ∧
      (s.step circuit st).threshold = m2 + s.d ∧
      (s.step circuit st).executions = s.executions ∧
      (s.step circuit st).boundCtx rest = s.boundCtx (st :: rest) := by
  cases hw : s.waiter with
  | none =>
    have honce : s.once = false := by rw [ha, hw]; rfl
    have hb0 : ∀ l, s.boundCtx l = firstOnceCtx l := by
      intro l
      unfold Debounce.boundCtx
      rw [hw]
    cases st with
    | invoke ctx now =>
      have h2 : clk ≤ now ∧ now < m + s.d ∧ BurstSchedule s.d now now rest := hs
      rw [(step_idle circuit s hw honce hmu ctx now).1, hb0]
      refine ⟨now, now, h2.2.2, rfl, hmu, rfl, ?_, rfl, rfl, rfl⟩
      intro w2 hw2
      rw [← Option.some.inj hw2]
    | moveThreshold now =>
      have h2 : clk ≤ now ∧ now < m + s.d ∧ BurstSchedule s.d now now rest := hs
      rw [(step_idle circuit s hw honce hmu Context.background now).2.1, hb0]
      refine ⟨now, now, h2.2.2, rfl, hmu, ?_, ?_, rfl, rfl, ?_⟩
      · show s.once = s.waiter.isSome
        exact ha
      · intro w2 hw2
        exact hpoll w2 hw2
      · show Debounce.boundCtx { s with threshold := now + s.d } rest = firstOnceCtx rest
        unfold Debounce.boundCtx
        show (match s.waiter with
          | some w => some w.ctx
          | none => firstOnceCtx rest) = firstOnceCtx rest
        rw [hw]
    | onceDo ctx now =>
      have h2 : BurstSchedule s.d m clk rest := hs
      rw [(step_idle circuit s hw honce hmu ctx now).2.2.1, hb0]
      refine ⟨m, clk, h2, rfl, hmu, rfl, ?_, hth, rfl, rfl⟩
      intro w2 hw2
      rw [← Option.some.inj hw2]
    | tick now =>
      have h2 : clk ≤ now ∧ (hasMove rest = false → now ≤ m + s.d) ∧
          BurstSchedule s.d m now rest := hs
      rw [(step_idle circuit s hw honce hmu Context.background now).2.2.2, hb0, hb0]
      exact ⟨m, now, h2.2.2, rfl, hmu, ha, hpoll, hth, rfl, rfl⟩
    | ctxDone now => exact (show False from hs).elim
    | leave => exact (show False from hs).elim
  | some w =>
    have honce : s.once = true := by rw [ha, hw]; rfl
    have hp := hpoll w hw
    have hb0 : ∀ l, s.boundCtx l = some w.ctx := by
      intro l
      unfold Debounce.boundCtx
      rw [hw]
    have hfin : ∀ (st2 : DStep) (m2 : Time), st2.allowedBefore s.threshold = true →
        (st2.moveReading.map (fun x => x + s.d)).getD s.threshold = m2 + s.d →
        (s.step circuit st2).mu = false ∧
        (s.step circuit st2).once = (s.step circuit st2).waiter.isSome ∧
        (∀ w3, (s.step circuit st2).waiter = some w3 → w3.phase = WaiterPhase.polling) ∧
        (s.step circuit st2).threshold = m2 + s.d ∧
        (s.step circuit st2).executions = s.executions ∧
        (s.step circuit st2).boundCtx rest = some w.ctx := by
      intro st2 m2 hal hm2
      obtain ⟨⟨w2, hw2, hc2, hp2⟩, hmu2, honce2, hex2, -, -, hth2⟩ :=
        step_polling circuit s w st2 hw hp hmu honce hal
      refine ⟨hmu2, ?_, ?_, hth2.trans hm2, hex2, ?_⟩
      · rw [honce2, hw2]
        rfl
      · intro w3 hw3
        rw [hw2] at hw3
        rw [← Option.some.inj hw3]
        exact hp2
      · unfold Debounce.boundCtx
        rw [hw2]
        show some w2.ctx = some w.ctx
        rw [hc2]
    cases st with
    | invoke ctx now =>
      have h2 : clk ≤ now ∧ now < m + s.d ∧ BurstSchedule s.d now now rest := hs
      rw [hb0]
      exact ⟨now, now, h2.2.2, rfl, hfin (DStep.invoke ctx now) now rfl rfl⟩
    | moveThreshold now =>
      have h2 : clk ≤ now ∧ now < m + s.d ∧ BurstSchedule s.d now now rest := hs
      rw [hb0]
      exact ⟨now, now, h2.2.2, rfl, hfin (DStep.moveThreshold now) now rfl rfl⟩
    | onceDo ctx now =>
      have h2 : BurstSchedule s.d m clk rest := hs
      rw [hb0]
      exact ⟨m, clk, h2, rfl, hfin (DStep.onceDo ctx now) m rfl hth⟩
    | tick now =>
      have h2 : clk ≤ now ∧ (hasMove rest = false → now ≤ m + s.d) ∧
          BurstSchedule s.d m now rest := hs
      have hle : now ≤ s.threshold := by
        rw [hth]
        cases hm : hasMove rest with
        | false => exact h2.2.1 hm
        | true => exact le_of_lt (burst_clk_lt s.d rest m now h2.2.2 hm)
      rw [hb0]
      exact ⟨m, now, h2.2.2, rfl, hfin (DStep.tick now) m (decide_eq_true hle) hth⟩
    | ctxDone now => exact (show False from hs).elim
    | leave => exact (show False from hs).elim

/-- The steps of a burst execute nothing; after them the mutex is free, the
waiter, if any, is in its loop, bound to its context or to that of the first
`once.Do`, and the threshold is `d` after the last threshold move. -/
theorem burst_run (circuit : Circuit) (rest : List DStep) :
    ∀ (s : Debounce) (m clk : Time), s.mu = false → s.once = s.waiter.isSome →
      (∀ w, s.waiter = some w → w.phase = WaiterPhase.polling) →
      s.threshold = m + s.d → BurstSchedule s.d m clk rest →
      (s.run circuit rest).mu = false ∧
      (∀ w, (s.run circuit rest).waiter = some w → w.phase = WaiterPhase.polling) ∧
      (s.run circuit rest).threshold = lastMove m rest + s.d ∧
      (s.run circuit rest).executions = s.executions ∧
      (s.run circuit rest).boundCtx [] = s.boundCtx rest := by
  induction rest with
  | nil => intro s m clk hmu _ hpoll hth _; exact ⟨hmu, hpoll, hth, rfl, rfl⟩
  | cons st rest ih =>
    intro s m clk hmu ha hpoll hth hs
    obtain ⟨m2, clk2, hs2, hl2, hmu2, ha2, hpoll2, hth2, hex2, hb2⟩ :=
      burst_step circuit s st rest m clk hmu ha hpoll hth hs
    have hd2 := step_d circuit s st
    rw [← hd2] at hs2 hth2
    obtain ⟨hmu3, hpoll3, hth3, hex3, hb3⟩ :=
      ih (s.step circuit st) m2 clk2 hmu2 ha2 hpoll2 hth2 hs2
    rw [hd2] at hth3
    exact ⟨hmu3, hpoll3, by rw [hl2]; exact hth3, hex3.trans hex2, hb3.trans hb2⟩

/-- A waiter in its loop that handles a tick reading the clock past the threshold
executes the circuit with its context and leaves the loop. -/
theorem step_tick_fires (circuit : Circuit) (s : Debounce) (w : Waiter) (t : Time)
    (hw : s.waiter = some w) (hp : w.phase = WaiterPhase.polling) (hmu : s.mu = false)
    (ht : s.threshold < t) :
    (s.step circuit (DStep.tick t)).executions = s.executions ++ [{ time := t, ctx := w.ctx }] ∧
    ∃ w2, (s.step circuit (DStep.tick t)).waiter = some w2 ∧
      w2.phase = WaiterPhase.returning := by
  have hstep0 : s.step circuit (DStep.tick t) = s.waiterTick circuit w t := by
    unfold Debounce.step
    rw [hw]
    simp only [hp, hmu, and_self, if_true]
  rw [hstep0]
  unfold Debounce.waiterTick
  rw [if_pos ht]
  cases circuit w.ctx <;> exact ⟨rfl, _, rfl, rfl⟩

/-- Once the waiter has left its loop or is gone, its steps execute nothing. -/
theorem run_waiter_done (circuit : Circuit) (after : List DStep) :
    ∀ s : Debounce, (∀ st ∈ after, st.isWaiterStep = true) →
      (s.waiter = none ∨ ∃ w, s.waiter = some w ∧ w.phase = WaiterPhase.returning) →
      (s.run circuit after).executions = s.executions := by
  induction after with
  | nil => intro s _ _; rfl
  | cons st rest ih =>
    intro s hall hw
    have hrest : ∀ st2 ∈ rest, st2.isWaiterStep = true :=
      fun st2 h => hall st2 (List.mem_cons_of_mem _ h)
    have hst := hall st (List.mem_cons_self _ _)
    have hkey : (s.step circuit st).executions = s.executions ∧
        ((s.step circuit st).waiter = none ∨
          ∃ w, (s.step circuit st).waiter = some w ∧ w.phase = WaiterPhase.returning) := by
      rcases hw with hn | ⟨w, hw1, hp1⟩
      · have hsame : s.step circuit st = s := by
          cases st with
          | invoke ctx now => exact absurd (show false = true from hst) Bool.false_ne_true
          | moveThreshold now => exact absurd (show false = true from hst) Bool.false_ne_true
          | onceDo ctx now => exact absurd (show false = true from hst) Bool.false_ne_true
          | tick now => unfold Debounce.step; rw [hn]
          | ctxDone now => unfold Debounce.step; rw [hn]
          | leave => unfold Debounce.step; rw [hn]
        rw [hsame]
        exact ⟨rfl, Or.inl hn⟩
      · have hnp : ¬ (w.phase = WaiterPhase.polling) := by rw [hp1]; decide
        cases st with
        | invoke ctx now => exact absurd (show false = true from hst) Bool.false_ne_true
        | moveThreshold now => exact absurd (show false = true from hst) Bool.false_ne_true
        | onceDo ctx now => exact absurd (show false = true from hst) Bool.false_ne_true
        | tick now =>
          have hsame : s.step circuit (DStep.tick now) = s := by
            unfold Debounce.step
            rw [hw1]
            simp only [hnp, false_and, if_false]
          rw [hsame]
          exact ⟨rfl, Or.inr ⟨w, hw1, hp1⟩⟩
        | ctxDone now =>
          have hsame : s.step circuit (DStep.ctxDone now) = s := by
            unfold Debounce.step
            rw [hw1]
            simp only [hnp, false_and, if_false]
          rw [hsame]
          exact ⟨rfl, Or.inr ⟨w, hw1, hp1⟩⟩
        | leave =>
          have hstep : s.step circuit DStep.leave = s.waiterExit := by
            unfold Debounce.step
            rw [hw1]
            simp only [hp1, if_true]
          rw [hstep]
          unfold Debounce.waiterExit
          split
          · exact ⟨rfl, Or.inr ⟨w, hw1, hp1⟩⟩
          · exact ⟨rfl, Or.inl rfl⟩
    exact (ih _ hrest hkey.2).trans hkey.1

/-- C3 fails as stated, in three ways, with a quiet period of 2 s.  A burst of
one invocation at instant 0 whose context is cancelled at 1 s leads to no
execution of the wrapped circuit at all: at 10 s the waiter is gone and nothing
was executed.  A burst of one invocation at 2.15 s that arrives between the
unlock of the waiter of the previous cycle and its deferred function starts no
waiter: the circuit is never executed for it, whatever the waiter steps that
follow.  A burst of two invocations, at 0 and at 1 s, of which the first reaches
its `once.Do` only at 3.2 s, after the waiter started by the second has
executed the circuit at 3.1 s and gone, starts a second waiter: the circuit is
executed twice for the burst. -/
theorem C3_counterexample :
    Burst (2 * Second) [⟨0, ⟨1, some (1 * Second), GoError.canceled⟩⟩] ∧
    (runBurst apiCall (2 * Second) [⟨0, ⟨1, some (1 * Second), GoError.canceled⟩⟩]
      (10 * Second)).executions = [] ∧
    (runBurst apiCall (2 * Second) [⟨0, ⟨1, some (1 * Second), GoError.canceled⟩⟩]
      (10 * Second)).waiter = none ∧
    ((DebounceLast (2 * Second)).run apiCall
        [DStep.invoke (cancelledAt (1 * Second)) 0, DStep.tick (100 * Millisecond),
         DStep.ctxDone (1 * Second), DStep.leave, DStep.tick (2100 * Millisecond),
         DStep.tick (10 * Second)]).executions = [] ∧
    ((DebounceLast (2 * Second)).run apiCall
        (lostTriggerSteps ++ [DStep.tick (4200 * Millisecond), DStep.tick (10 * Second),
          DStep.ctxDone (10 * Second), DStep.leave])).executions
      = [{ time := 2100 * Millisecond, ctx := Context.background }] ∧
    ((DebounceLast (2 * Second)).run apiCall lostTriggerSteps).waiter = none ∧
    ((DebounceLast (2 * Second)).run apiCall
        [DStep.moveThreshold 0, DStep.invoke otherContext (1 * Second),
         DStep.tick (3100 * Millisecond), DStep.leave,
         DStep.onceDo Context.background (3200 * Millisecond),
         DStep.tick (3300 * Millisecond), DStep.leave]).executions
      = [{ time := 3100 * Millisecond, ctx := otherContext },
         { time := 3300 * Millisecond, ctx := Context.background }] := by
  decide

/-- C3, amended: for every quiet period `d` and every burst of `N >= 1`
invocations of the function returned by `DebounceLast(circuit, d)`, each moving
the threshold less than `d` after the previous one, that begins in a state
without waiter (reached from a fresh debouncer by atomic steps in any order)
and whose sections (threshold move, `once.Do`) and the polls of the waiter
interleave in any order: if the waiter does not receive from `ctx.Done()`
before the first poll that reads the clock later than `d` after the last
threshold move, and every section of the invocations of the burst runs before
that poll, then nothing is executed before that poll and the wrapped circuit is
executed exactly once for the burst, by that poll, later than `d` after the last
invocation, with the context of the invocation whose `once.Do` came first;
the steps of the waiter that follow execute nothing more. -/
theorem C3_burst_executes_once (circuit : Circuit) (d : Duration) (steps0 : List DStep)
    (first : DStep) (m1 : Time) (rest : List DStep) (ctxW : Context) (t : Time)
    (after : List DStep)
    (hidle : ((DebounceLast d).run circuit steps0).waiter = none)
    (hfirst : first.moveReading = some m1)
    (hsched : BurstSchedule d m1 m1 rest)
    (hstart : firstOnceCtx (first :: rest) = some ctxW)
    (ht : lastMove m1 rest + d < t)
    (hafter : ∀ st ∈ after, st.isWaiterStep = true) :
    ((DebounceLast d).run circuit (steps0 ++ (first :: rest))).executions
      = ((DebounceLast d).run circuit steps0).executions ∧
    ((DebounceLast d).run circuit
        (steps0 ++ (first :: rest) ++ (DStep.tick t :: after))).executions
      = ((DebounceLast d).run circuit steps0).executions ++ [{ time := t, ctx := ctxW }] := by
  obtain ⟨ha, hb⟩ := run_single_waiter circuit steps0 (DebounceLast d) rfl
    (fun h => absurd (show false = true from h) (by decide))
  have hd : ((DebounceLast d).run circuit steps0).d = d := run_d circuit steps0 _
  have hr1 : (DebounceLast d).run circuit (steps0 ++ (first :: rest))
      = (((DebounceLast d).run circuit steps0).step circuit first).run circuit rest := by
    rw [run_append]
    rfl
  have hr2 : (DebounceLast d).run circuit
        (steps0 ++ (first :: rest) ++ (DStep.tick t :: after))
      = (((((DebounceLast d).run circuit steps0).step circuit first).run circuit rest).step
          circuit (DStep.tick t)).run circuit after := by
    rw [run_append, run_append]
    rfl
  rw [hr1, hr2]
  generalize (DebounceLast d).run circuit steps0 = s at ha hb hd hidle ⊢
  have honce : s.once = false := by rw [ha, hidle]; rfl
  have hmu : s.mu = false := by
    cases hmu : s.mu with
    | false => rfl
    | true =>
      obtain ⟨w2, hw2, -⟩ := hb hmu
      rw [hidle] at hw2
      simp at hw2
  have hfirst_step : (s.step circuit first).mu = false ∧
      (s.step circuit first).once = (s.step circuit first).waiter.isSome ∧
      (∀ w, (s.step circuit first).waiter = some w → w.phase = WaiterPhase.polling) ∧
      (s.step circuit first).threshold = m1 + (s.step circuit first).d ∧
      (s.step circuit first).executions = s.executions ∧
      (s.step circuit first).boundCtx rest = firstOnceCtx (first :: rest) := by
    cases first with
    | invoke ctx now =>
      have hm : now = m1 := Option.some.inj hfirst
      rw [(step_idle circuit s hidle honce hmu ctx now).1, hm]
      refine ⟨hmu, rfl, ?_, rfl, rfl, rfl⟩
      intro w hw
      rw [← Option.some.inj hw]
    | moveThreshold now =>
      have hm : now = m1 := Option.some.inj hfirst
      rw [(step_idle circuit s hidle honce hmu Context.background now).2.1, hm]
      refine ⟨hmu, ?_, ?_, rfl, rfl, ?_⟩
      · show s.once = s.waiter.isSome
        exact ha
      · intro w hw
        have hw2 : s.waiter = some w := hw
        rw [hidle] at hw2
        simp at hw2
      · unfold Debounce.boundCtx
        show (match s.waiter with
          | some w => some w.ctx
          | none => firstOnceCtx rest) = _
        rw [hidle]
        rfl
    | onceDo ctx now => simp [DStep.moveReading] at hfirst
    | tick now => simp [DStep.moveReading] at hfirst
    | ctxDone now => simp [DStep.moveReading] at hfirst
    | leave => simp [DStep.moveReading] at hfirst
  obtain ⟨hmu1, ha1, hpoll1, hth1, hex1, hb1⟩ := hfirst_step
  have hd1 : (s.step circuit first).d = d := (step_d circuit s first).trans hd
  have hsched1 : BurstSchedule (s.step circuit first).d m1 m1 rest := by rw [hd1]; exact hsched
  obtain ⟨hmu2, hpoll2, hth2, hex2, hb2⟩ :=
    burst_run circuit rest (s.step circuit first) m1 m1 hmu1 ha1 hpoll1 hth1 hsched1
  rw [hd1] at hth2
  rw [hb1, hstart] at hb2
  obtain ⟨w, hw, hwc⟩ : ∃ w, ((s.step circuit first).run circuit rest).waiter = some w ∧
      w.ctx = ctxW := by
    unfold Debounce.boundCtx at hb2
    cases hw : ((s.step circuit first).run circuit rest).waiter with
    | none =>
      rw [hw] at hb2
      simp [firstOnceCtx] at hb2
    | some w =>
      rw [hw] at hb2
      exact ⟨w, rfl, Option.some.inj hb2⟩
  obtain ⟨hex3, hw3⟩ := step_tick_fires circuit _ w t hw (hpoll2 w hw) hmu2
    (by rw [hth2]; exact ht)
  refine ⟨hex2.trans hex1, ?_⟩
  rw [run_waiter_done circuit after _ hafter (Or.inr hw3), hex3, hex2, hex1, hwc]

theorem C3_burst_executes_once_witness :
    ((DebounceLast (2 * Second)).run apiCall
        ([] ++ (DStep.invoke Context.background 0 :: mainSchedule))).executions
      = ((DebounceLast (2 * Second)).run apiCall []).executions ∧
    ((DebounceLast (2 * Second)).run apiCall
        ([] ++ (DStep.invoke Context.background 0 :: mainSchedule)
          ++ (DStep.tick (4100 * Millisecond) :: [DStep.leave]))).executions
      = ((DebounceLast (2 * Second)).run apiCall []).executions
          ++ [{ time := 4100 * Millisecond, ctx := Context.background }] ∧
    ((DebounceLast (2 * Second)).run apiCall
        ([] ++ (DStep.moveThreshold 0 :: splitSchedule)
          ++ (DStep.tick (2400 * Millisecond)
                :: [DStep.leave, DStep.tick (2500 * Millisecond)]))).executions
      = ((DebounceLast (2 * Second)).run apiCall []).executions
          ++ [{ time := 2400 * Millisecond, ctx := Context.background }] :=
  have h1 := C3_burst_executes_once apiCall (2 * Second) []
    (DStep.invoke Context.background 0) 0 mainSchedule Context.background
    (4100 * Millisecond) [DStep.leave] rfl rfl (by decide) rfl (by decide) (by decide)
  have h2 := C3_burst_executes_once apiCall (2 * Second) []
    (DStep.moveThreshold 0) 0 splitSchedule Context.background
    (2400 * Millisecond) [DStep.leave, DStep.tick (2500 * Millisecond)]
    rfl rfl (by decide) rfl (by decide) (by decide)
  ⟨h1.1, h1.2, h2.2⟩

end DebounceClaims

end CloudComputing
